import Mathlib

/-!
A shallow embedding of the `matchit` radix-tree router (`src/tree.rs` and
`src/error.rs`) and proofs about its insertion and matching algorithms.

Bytes are modelled as natural numbers (`&[u8]` in the source), routes and
paths as `List Nat`.  Imperative loops of the source become fuelled
recursions returning `Option` (with `none` modelling nontermination of the
corresponding loop), and in-place mutation becomes explicit rebuilding of
the tree.  Rust panics in the matcher are modelled by a dedicated
`AtResult.panicked` outcome.
-/

namespace Matchit

/-- Byte values: the source operates on `&[u8]`. -/
abbrev Byte := Nat

/-- `b'/'` -/
def bslash : Byte := 47
/-- `b':'` -/
def bcolon : Byte := 58
/-- `b'*'` -/
def bstar : Byte := 42

/-- UTF-8 bytes of an ASCII string; every concrete route and path in this
development is ASCII, so the char codes coincide with the UTF-8 bytes. -/
def bytes (s : String) : List Byte := s.data.map Char.toNat

/-- `NodeType` from `tree.rs`. -/
inductive NodeType where
  | Root
  | Param
  | CatchAll
  | Static
deriving DecidableEq, Repr

/-- `InsertError` from `error.rs`.  The `Conflict` payload keeps the route
as bytes rather than a `String`. -/
inductive InsertError where
  | Conflict (withRoute : List Byte)
  | TooManyParams
  | UnnamedParam
  | InvalidCatchAll
deriving DecidableEq, Repr

/-- `MatchError` from `error.rs`. -/
inductive MatchError where
  | MissingTrailingSlash
  | ExtraTrailingSlash
  | NotFound
deriving DecidableEq, Repr

/-- `MatchError::unsure` from `error.rs` (never called by `Node::at` in
`tree.rs`). -/
def MatchError.unsure (full_path : List Byte) : MatchError :=
  if full_path.getLast? = some bslash then MatchError.ExtraTrailingSlash
  else MatchError.MissingTrailingSlash

/-- `Node<T>` from `tree.rs`.  The field `pfx` models `prefix`, and
`value : Option T` models `Option<UnsafeCell<T>>` (the cell is purely a
mutability device in the source). -/
inductive Node (T : Type) : Type where
  | mk (priority : Nat) (wild_child : Bool) (indices : List Byte)
       (node_type : NodeType) (value : Option T) (pfx : List Byte)
       (children : List (Node T)) : Node T

namespace Node

variable {T : Type}

def priority : Node T → Nat
  | mk p _ _ _ _ _ _ => p

def wild_child : Node T → Bool
  | mk _ w _ _ _ _ _ => w

def indices : Node T → List Byte
  | mk _ _ i _ _ _ _ => i

def node_type : Node T → NodeType
  | mk _ _ _ t _ _ _ => t

def value : Node T → Option T
  | mk _ _ _ _ v _ _ => v

def pfx : Node T → List Byte
  | mk _ _ _ _ _ p _ => p

def children : Node T → List (Node T)
  | mk _ _ _ _ _ _ c => c

/-- `Node::default()` from `tree.rs`. -/
def dflt : Node T := mk 0 false [] NodeType.Static none [] []

instance : Inhabited (Node T) := ⟨dflt⟩

/- Field-update helpers (the source mutates fields in place). -/

def setPriority : Node T → Nat → Node T
  | mk _ w i t v pf c, p => mk p w i t v pf c

def setWild : Node T → Bool → Node T
  | mk p _ i t v pf c, w => mk p w i t v pf c

def setIndices : Node T → List Byte → Node T
  | mk p w _ t v pf c, i => mk p w i t v pf c

def setNodeType : Node T → NodeType → Node T
  | mk p w i _ v pf c, t => mk p w i t v pf c

def setValue : Node T → Option T → Node T
  | mk p w i t _ pf c, v => mk p w i t v pf c

def setPfx : Node T → List Byte → Node T
  | mk p w i t v _ c, pf => mk p w i t v pf c

def setChildren : Node T → List (Node T) → Node T
  | mk p w i t v pf _, c => mk p w i t v pf c

/-- `node.priority += 1` -/
def bump (n : Node T) : Node T := n.setPriority (n.priority + 1)

/-- Number of nodes in a tree (used only for fuel computations). -/
def nsize : Node T → Nat
  | mk _ _ _ _ _ _ c => 1 + nsizeL c
where nsizeL : List (Node T) → Nat
  | [] => 0
  | n :: ns => nsize n + nsizeL ns

/-- Replace the child at index `i` (in-place mutation in the source). -/
def setChildAt (n : Node T) (i : Nat) (c : Node T) : Node T :=
  n.setChildren (n.children.set i c)

end Node

/-- Length of the longest common prefix of two byte lists (`tree.rs`
lines 56–59). -/
def commonPrefixLen : List Byte → List Byte → Nat
  | a :: as_, b :: bs => if a = b then commonPrefixLen as_ bs + 1 else 0
  | _, _ => 0

/-- `find_wildcard` from `tree.rs`: the first `:`/`*` token with its start
index, plus whether the token name is free of further `:`/`*` bytes. -/
def find_wildcard (path : List Byte) : Option (List Byte × Nat) × Bool :=
  match List.findIdx? (fun c => c = bcolon || c = bstar) path with
  | none => (none, false)
  | some start =>
    let rest := path.drop (start + 1)
    match List.findIdx? (fun c => c = bslash) rest with
    | some e =>
      (some ((path.drop start).take (1 + e), start),
       !((rest.take e).any (fun c => c = bcolon || c = bstar)))
    | none =>
      (some (path.drop start, start),
       !(rest.any (fun c => c = bcolon || c = bstar)))

namespace Node

variable {T : Type}

/-- `Node::add_child` from `tree.rs`: add a child keeping wildcards at the
end; returns the updated node and the index of the new child. -/
def add_child (n : Node T) (child : Node T) : Node T × Nat :=
  let len := n.children.length
  if n.wild_child ∧ 0 < len then
    (n.setChildren (n.children.insertIdx (len - 1) child), len - 1)
  else
    (n.setChildren (n.children ++ [child]), len)

/-- The `while` loop of `Node::update_child_priority`: swap the child at
position `j` leftwards past siblings of strictly smaller priority.  `prio`
is the (already incremented) priority of the moving child. -/
def bubbleLoop (prio : Nat) : List (Node T) → Nat → List (Node T) × Nat
  | cs, 0 => (cs, 0)
  | cs, j+1 =>
    match cs.get? j, cs.get? (j+1) with
    | some prev, some c =>
      if prev.priority < prio then
        bubbleLoop prio ((cs.set j c).set (j+1) prev) j
      else (cs, j+1)
    | _, _ => (cs, j+1)

/-- `Node::update_child_priority` from `tree.rs`: increment the priority of
child `i`, bubble it leftwards, and rebuild `indices` in lockstep; returns
the node and the child's new index. -/
def update_child_priority (n : Node T) (i : Nat) : Node T × Nat :=
  match n.children.get? i with
  | none => (n, i)  -- out-of-bounds child access; unreachable from `insert`
  | some c =>
    let c := c.bump
    let prio := c.priority
    let bl := bubbleLoop prio (n.children.set i c) i
    let u := bl.2
    let idx :=
      if u ≠ i then
        n.indices.take u ++ (n.indices.drop i).take 1 ++
          (n.indices.drop u).take (i - u) ++ n.indices.drop (i + 1)
      else n.indices
    ((n.setChildren bl.1).setIndices idx, u)

/-- The node-splitting step of `Node::insert` (`tree.rs` lines 62–78): the
old node's suffix, children, indices, `wild_child`, value and `priority - 1`
move to a fresh child; the node keeps the common span. -/
def splitNode (cur : Node T) (common : Nat) (pfxArg : List Byte) : Node T :=
  let child : Node T :=
    Node.mk (cur.priority - 1) cur.wild_child cur.indices NodeType.Static
      cur.value (cur.pfx.drop common) cur.children
  (((((cur.setChildren [child]).setIndices ((cur.pfx.drop common).take 1)).setPfx
      (pfxArg.take common)).setWild false).setValue none)

end Node

/-- The first-child descent of `InsertError::conflict` (`error.rs`):
concatenate the prefixes down the chain of first children.  Fuelled by the
tree size. -/
def firstChain {T : Type} : Nat → Option (Node T) → List Byte
  | 0, _ => []
  | _, none => []
  | fuel+1, some n => n.pfx ++ firstChain fuel n.children.head?

/-- `InsertError::conflict` from `error.rs`.  The source finishes by applying
`denormalize_params` with the colliding node's `param_remapping`; neither is
defined in `src/tree.rs`, whose nodes store wildcard tokens under their
original names.  Modelled from the spec (§3.3): the remapping restores
original parameter names, which are already in place here, so the
denormalization step is the identity. -/
def conflictErr {T : Type} (route pfxRem : List Byte) (cur : Node T) : InsertError :=
  if pfxRem = cur.pfx then InsertError.Conflict route
  else
    let r0 := route.take (route.length - pfxRem.length)
    let r1 := if cur.pfx.isSuffixOf r0 then r0 else r0 ++ cur.pfx
    InsertError.Conflict (r1 ++ firstChain (Node.nsize cur) cur.children.head?)

namespace Node

variable {T : Type}

/-- The `if wildcard_index > 0` step of `insert_child`: the literal bytes
before the wildcard become the node's prefix and are dropped from the
remaining pattern. -/
def stripWildPrefix (cur : Node T) (pfxArg : List Byte) (wi : Nat) :
    Node T × List Byte :=
  if 0 < wi then (cur.setPfx (pfxArg.take wi), pfxArg.drop wi) else (cur, pfxArg)

/-- The conditional node split at the top of the `'walk` loop (`tree.rs`
lines 62–78). -/
def maybeSplit (cur0 : Node T) (common : Nat) (pfxArg : List Byte) : Node T :=
  if common < cur0.pfx.length then cur0.splitNode common pfxArg else cur0

/-- `Node::insert_child` from `tree.rs`.  The loop is fuelled (the remaining
prefix shrinks every iteration, so `prefix.length + 1` fuel always
suffices); the returned node is the mutated `self` even when an error is
reported — the source does not undo partial mutation. -/
def insertChildF (fuel : Nat) (cur : Node T) (pfxArg route : List Byte) (val : T) :
    Option (Node T × Option InsertError) :=
  match fuel with
  | 0 => none
  | fuel+1 =>
    match find_wildcard pfxArg with
    | (some _, false) => some (cur, some InsertError.TooManyParams)
    | (none, _) => some ((cur.setValue (some val)).setPfx pfxArg, none)
    | (some (w, wi), true) =>
      if w.length < 2 then some (cur, some InsertError.UnnamedParam)
      else if w.head? = some bcolon then
        -- regular route parameter
        let sp := stripWildPrefix cur pfxArg wi
        let cur1 := sp.1
        let pfx1 := sp.2
        let child : Node T := (Node.dflt.setNodeType NodeType.Param).setPfx w
        let ac := add_child cur1 child
        let ci := ac.2
        let cur3 := ac.1.setWild true
        match cur3.children.get? ci with
        | none => none  -- unreachable: `add_child` returns an in-bounds index
        | some pNode =>
          let pNode := pNode.bump
          if w.length < pfx1.length then
            let pfx2 := pfx1.drop w.length
            let gchild : Node T := Node.dflt.setPriority 1
            let ac2 := add_child pNode gchild
            let pNode2 := ac2.1
            let gi := ac2.2
            match pNode2.children.get? gi with
            | none => none
            | some g =>
              match insertChildF fuel g pfx2 route val with
              | none => none
              | some (g', oe) =>
                some (cur3.setChildAt ci (pNode2.setChildAt gi g'), oe)
          else
            some (cur3.setChildAt ci (pNode.setValue (some val)), none)
      else if w.head? = some bstar then
        -- catch-all route
        if wi + w.length ≠ pfxArg.length then
          some (cur, some InsertError.InvalidCatchAll)
        else if 1 ≤ wi ∧ pfxArg.get? (wi - 1) ≠ some bslash then
          some (cur, some InsertError.InvalidCatchAll)
        else if pfxArg = route ∧ route.head? ≠ some bslash then
          some (cur, some InsertError.InvalidCatchAll)
        else
          let sp := stripWildPrefix cur pfxArg wi
          let cur1 := sp.1
          let pfx1 := sp.2
          let child : Node T :=
            (((Node.dflt.setNodeType NodeType.CatchAll).setPfx pfx1).setValue
              (some val)).setPriority 1
          some ((add_child cur1 child).1.setWild true, none)
      else some (cur, none)  -- unreachable: the token starts with `:` or `*`

/-- The `'walk` loop of `Node::insert` (`tree.rs` lines 54–151), fuelled.
`none` models nontermination of the loop (which does not occur on trees
reachable by `insert` with the fuel chosen below) and the unreachable
out-of-bounds child accesses. -/
def walkF (fuel : Nat) (cur0 : Node T) (pfxArg route : List Byte) (val : T) :
    Option (Node T × Option InsertError) :=
  match fuel with
  | 0 => none
  | fuel+1 =>
    -- find the longest common prefix and split the node if necessary
    let common := commonPrefixLen pfxArg cur0.pfx
    let cur := maybeSplit cur0 common pfxArg
    if common < pfxArg.length then
      let rest := pfxArg.drop common
      let next := rest.headD 0
      -- `/` after param
      if cur.node_type = NodeType.Param ∧ next = bslash ∧ cur.children.length = 1 then
        match cur.children with
        | [c] =>
          match walkF fuel c.bump rest route val with
          | none => none
          | some (c', oe) => some (cur.setChildren [c'], oe)
        | _ => none  -- unreachable: the length is 1
      else
        -- find a child that matches the next path byte
        match List.findIdx? (fun c => c = next) cur.indices with
        | some i =>
          let up := update_child_priority cur i
          let cur2 := up.1
          let i2 := up.2
          match cur2.children.get? i2 with
          | none => none
          | some c =>
            match walkF fuel c rest route val with
            | none => none
            | some (c', oe) => some (cur2.setChildAt i2 c', oe)
        | none =>
          -- not a wildcard and there is no matching child node: create one
          if ¬(next = bcolon ∨ next = bstar) ∧ cur.node_type ≠ NodeType.CatchAll then
            let cur2 := cur.setIndices (cur.indices ++ [next])
            let ac := add_child cur2 Node.dflt
            let up := update_child_priority ac.1 ac.2
            let cur4 := up.1
            let ci2 := up.2
            match cur4.children.get? ci2 with
            | none => none
            | some c =>
              match insertChildF (rest.length + 1) c rest route val with
              | none => none
              | some (c', oe) => some (cur4.setChildAt ci2 c', oe)
          -- inserting a wildcard, and this node already has a wildcard child
          else if cur.wild_child then
            match cur.children.getLast? with
            | none => none  -- `unwrap` panic; unreachable on trees built by `insert`
            | some wc0 =>
              let wc := wc0.bump
              let cur2 := cur.setChildAt (cur.children.length - 1) wc
              if rest.length < wc.pfx.length ∨ wc.pfx ≠ rest.take wc.pfx.length ∨
                  wc.node_type = NodeType.CatchAll ∨
                  (wc.pfx.length < rest.length ∧ rest.get? wc.pfx.length ≠ some bslash) then
                some (cur2, some (conflictErr route rest wc))
              else
                match walkF fuel wc rest route val with
                | none => none
                | some (wc', oe) =>
                  some (cur2.setChildAt (cur2.children.length - 1) wc', oe)
          -- otherwise, create the wildcard node
          else
            insertChildF (rest.length + 1) cur rest route val
    else
      -- exact match: this node should hold no value yet
      if cur.value.isSome then some (cur, some (conflictErr route pfxArg cur))
      else some (cur.setValue (some val), none)

/-- `Node::insert` from `tree.rs`.  Returns the mutated tree with the
optional error. -/
def insert (n : Node T) (route : List Byte) (val : T) :
    Option (Node T × Option InsertError) :=
  let n1 := n.bump
  if n1.pfx = [] ∧ n1.children.isEmpty then
    match insertChildF (route.length + 1) n1 route route val with
    | none => none
    | some (t, some e) => some (t, some e)
    | some (t, none) => some (t.setNodeType NodeType.Root, none)
  else
    walkF ((route.length + 1) * (Node.nsize n + 2) + 2) n1 route route val

end Node

/-- `Params` from the crate: an ordered sequence of `(name, value)` byte
pairs, in registration order. -/
abbrev Params := List (List Byte × List Byte)

/-- `struct Skipped` from `tree.rs`: an entry of the skipped-nodes stack. -/
structure Skipped (T : Type) where
  path : List Byte
  node : Node T
  params : Nat

/-- The outcome of `Node::at`: a match, a `MatchError`, or a Rust panic
(the `children.last().unwrap()` call on an empty list, an out-of-bounds
index, or the `unreachable!()` arm). -/
inductive AtResult (T : Type) where
  | found (val : T) (params : Params)
  | failed (e : MatchError)
  | panicked
deriving DecidableEq

namespace Node

variable {T : Type}

/-- The pop loop of the `try_backtrack!` macro (`tree.rs` lines 304–323):
pop stack entries until one whose recorded path ends with the current
path; entries that fail the test are discarded.  The stack is modelled
with its top at the head. -/
def popMatching : List (Skipped T) → List Byte → Option (Skipped T × List (Skipped T))
  | [], _ => none
  | s :: stack, path =>
    if path.isSuffixOf s.path then some (s, stack) else popMatching stack path

/-- The `'walk` loop of `Node::at` (`tree.rs` lines 329–455), fuelled.
`none` models nontermination of the loop. -/
def atWalkF (fuel : Nat) (cur : Node T) (path : List Byte) (params : Params)
    (backtracking : Bool) (skipped : List (Skipped T)) : Option (AtResult T) :=
  match fuel with
  | 0 => none
  | fuel+1 =>
    -- the path is longer than this node's prefix: we expect a child node
    if cur.pfx.length < path.length ∧ path.take cur.pfx.length = cur.pfx then
      let rest := path.drop cur.pfx.length
      match rest.head? with
      | none => some AtResult.panicked  -- `rest[0]` on an empty slice
      | some first =>
        let consumed := path
        -- search for a matching static child unless we are backtracking
        match (if backtracking then none
               else List.findIdx? (fun c => c = first) cur.indices) with
        | some i =>
          -- keep track of a skipped wildcard sibling for later backtracking
          let skipped' :=
            if cur.wild_child then ⟨consumed, cur, params.length⟩ :: skipped
            else skipped
          match cur.children.get? i with
          | none => some AtResult.panicked
          | some c => atWalkF fuel c rest params backtracking skipped'
        | none =>
          if cur.wild_child = false then
            match popMatching skipped rest with
            | some (s, stack) =>
              atWalkF fuel s.node s.path (params.take s.params) true stack
            | none => some (AtResult.failed MatchError.NotFound)
          else
            -- the wildcard child is always at the end of the list
            match cur.children.getLast? with
            | none => some AtResult.panicked  -- `last().unwrap()`
            | some wc =>
              match wc.node_type with
              | NodeType.Param =>
                match List.findIdx? (fun c => c = bslash) rest with
                | some i =>
                  -- more segments follow this parameter
                  let param := rest.take i
                  let rest2 := rest.drop i
                  match wc.children with
                  | [child] =>
                    atWalkF fuel child rest2
                      (params ++ [(wc.pfx.drop 1, param)]) false skipped
                  | _ => some (AtResult.failed MatchError.NotFound)
                | none =>
                  -- this is the last path segment
                  let params' := params ++ [(wc.pfx.drop 1, rest)]
                  match wc.value with
                  | some v => some (AtResult.found v params')
                  | none =>
                    match popMatching skipped rest with
                    | some (s, stack) =>
                      atWalkF fuel s.node s.path (params'.take s.params) true stack
                    | none => some (AtResult.failed MatchError.NotFound)
              | NodeType.CatchAll =>
                match wc.value with
                | some v =>
                  some (AtResult.found v (params ++ [(wc.pfx.drop 1, rest)]))
                | none => some (AtResult.failed MatchError.NotFound)
              | _ => some AtResult.panicked  -- `unreachable!()`
    else
      -- this should be the node containing the value
      if path = cur.pfx then
        match cur.value with
        | some v => some (AtResult.found v params)
        | none =>
          match popMatching skipped path with
          | some (s, stack) =>
            atWalkF fuel s.node s.path (params.take s.params) true stack
          | none => some (AtResult.failed MatchError.NotFound)
      else
        -- last chance: try backtracking
        match popMatching skipped path with
        | some (s, stack) =>
          atWalkF fuel s.node s.path (params.take s.params) true stack
        | none => some (AtResult.failed MatchError.NotFound)

/-- `Node::at` from `tree.rs`, run with generous fuel. -/
def atPath (n : Node T) (path : List Byte) : Option (AtResult T) :=
  atWalkF ((path.length + 2) * (Node.nsize n + 2) + 2) n path [] false []

end Node

mutual

/-- `Node::check_priorities` from `tree.rs` (the `__test_helpers` checker):
recompute the subtree value count and compare it with the stored priority;
`Except.error (stored, actual)` at the first mismatch. -/
def check_priorities {T : Type} : Node T → Except (Nat × Nat) Nat
  | Node.mk p _ _ _ v _ c =>
    match checkPrioritiesL c with
    | Except.error e => Except.error e
    | Except.ok s =>
      let s := s + (if v.isSome then 1 else 0)
      if p = s then Except.ok s else Except.error (p, s)

/-- Children loop of `check_priorities`. -/
def checkPrioritiesL {T : Type} : List (Node T) → Except (Nat × Nat) Nat
  | [] => Except.ok 0
  | n :: ns =>
    match check_priorities n with
    | Except.error e => Except.error e
    | Except.ok s =>
      match checkPrioritiesL ns with
      | Except.error e => Except.error e
      | Except.ok s2 => Except.ok (s + s2)

end

/-- Insert a list of routes in order, stopping at the first error (and
returning the tree in the mutated state the failing `insert` left it in). -/
def insertSeq {T : Type} (n : Node T) : List (List Byte × T) → Option (Node T × Option InsertError)
  | [] => some (n, none)
  | (r, v) :: rest =>
    match Node.insert n r v with
    | none => none
    | some (t, some e) => some (t, some e)
    | some (t, none) => insertSeq t rest

/-- The `InsertError` outcome (if any) of inserting a list of routes into an
empty router. -/
def insErrSeq {T : Type} (routes : List (List Byte × T)) : Option (Option InsertError) :=
  (insertSeq Node.dflt routes).map Prod.snd

/-- Build a router from the routes (which must all insert successfully) and
match `path` against it. -/
def matchSeq {T : Type} (routes : List (List Byte × T)) (path : List Byte) :
    Option (AtResult T) :=
  match insertSeq Node.dflt routes with
  | some (t, none) => Node.atPath t path
  | _ => none

/-- Run `check_priorities` on the tree left behind by a route sequence
(including a failing final insertion). -/
def checkSeq {T : Type} (routes : List (List Byte × T)) : Option (Except (Nat × Nat) Nat) :=
  (insertSeq Node.dflt routes).map (fun p => check_priorities p.1)

/-- The tree produced by the successful `insert("/a/:x", 1)` (used to
witness the C9 theorem at a concrete input). -/
def c9TreeBefore : Node Nat :=
  Node.mk 1 true [] NodeType.Root none (bytes "/a/")
    [Node.mk 1 false [] NodeType.Param (some 1) (bytes ":x") []]

/-- The tree left behind by the failing `insert("/a/:y", 2)` on
`c9TreeBefore`. -/
def c9TreeAfter : Node Nat :=
  Node.mk 2 true [] NodeType.Root none (bytes "/a/")
    [Node.mk 2 false [] NodeType.Param (some 1) (bytes ":x") []]

mutual

/-- Number of values stored in a subtree (the quantity `priority` is
claimed to track). -/
def vcount {T : Type} : Node T → Nat
  | Node.mk _ _ _ _ v _ c => (if v.isSome then 1 else 0) + vcountL c

/-- Value count of a list of subtrees. -/
def vcountL {T : Type} : List (Node T) → Nat
  | [] => 0
  | n :: ns => vcount n + vcountL ns

end

/-- The static children of a node: all children except a trailing wildcard
child. -/
def statics {T : Type} (n : Node T) : List (Node T) :=
  if n.wild_child then n.children.dropLast else n.children

/-- A byte sequence free of wildcard markers. -/
def noWildBytes (p : List Byte) : Prop := ∀ b ∈ p, b ≠ bcolon ∧ b ≠ bstar

/-- `indices` lists exactly the first bytes of the static children, in
order (spec invariant 2). -/
def indicesMatch {T : Type} (n : Node T) : Prop :=
  List.Forall₂ (fun (b : Byte) (c : Node T) => c.pfx.head? = some b)
    n.indices (statics n)

/-- The per-node structural invariant, except for the priority equation.
Beyond the spec's four invariants this carries the auxiliary facts needed
to push the invariant through `insert` (prefix shapes per node type,
catch-all terminality, and the shape of `Param` nodes). -/
def localInvX {T : Type} (n : Node T) : Prop :=
  -- (2, amended) indices describe the static children; a `Param` node's
  -- single continuation child may lack its index entry
  (match n.node_type with
   | NodeType.Param => n.children.length ≤ 1 ∧ (n.indices = [] ∨ indicesMatch n)
   | _ => indicesMatch n) ∧
  -- (3) at most one wildcard child, last, flagged by `wild_child`
  (∀ c ∈ statics n, c.node_type = NodeType.Static) ∧
  (n.wild_child = true → ∃ w, n.children.getLast? = some w ∧
      (w.node_type = NodeType.Param ∨ w.node_type = NodeType.CatchAll)) ∧
  -- (4) static children in non-increasing priority order
  List.Chain' (fun a b : Node T => b.priority ≤ a.priority) (statics n) ∧
  -- per-node-type prefix shape
  (match n.node_type with
   | NodeType.Static => noWildBytes n.pfx
   | NodeType.Root => noWildBytes n.pfx
   | NodeType.Param =>
       n.pfx.head? = some bcolon ∧ 2 ≤ n.pfx.length ∧ n.wild_child = false ∧
       (∀ c ∈ n.children, c.pfx.head? = some bslash)
   | NodeType.CatchAll =>
       n.pfx.head? = some bstar ∧ 2 ≤ n.pfx.length ∧ n.children = [] ∧
       n.value.isSome = true ∧ n.wild_child = false ∧ n.indices = [])

/-- Full per-node invariant: the priority equation together with
`localInvX`. -/
def localInv {T : Type} (n : Node T) : Prop :=
  n.priority = vcount n ∧ localInvX n

mutual

/-- The structural invariant, enforced on every node of the tree.  Each
non-root node moreover has at least one value in its subtree. -/
def InvS {T : Type} : Node T → Prop
  | n@(Node.mk _ _ _ _ _ _ cs) => localInv n ∧ InvSL cs

/-- `InvS` on a list of children. -/
def InvSL {T : Type} : List (Node T) → Prop
  | [] => True
  | c :: cs => (InvS c ∧ 1 ≤ vcount c) ∧ InvSL cs

end

/-- The invariant of the node currently being walked by `insert`: its
priority was already incremented for the value about to be added. -/
def PendInv {T : Type} (n : Node T) : Prop :=
  localInvX n ∧ n.priority = vcount n + 1 ∧ InvSL n.children

mutual

/-- Claim C7's four structural invariants, with invariant 2 amended at
`Param` nodes (their single continuation child may lack an index entry),
enforced on every node. -/
def ClaimInvAm {T : Type} : Node T → Prop
  | n@(Node.mk _ _ _ _ _ _ cs) =>
    (n.priority = vcount n ∧
     (match n.node_type with
      | NodeType.Param => n.children.length ≤ 1 ∧ (n.indices = [] ∨ indicesMatch n)
      | _ => indicesMatch n) ∧
     (∀ c ∈ statics n, c.node_type = NodeType.Static) ∧
     (n.wild_child = true → ∃ w, n.children.getLast? = some w ∧
         (w.node_type = NodeType.Param ∨ w.node_type = NodeType.CatchAll)) ∧
     List.Chain' (fun a b : Node T => b.priority ≤ a.priority) (statics n)) ∧
    ClaimInvAmL cs

/-- `ClaimInvAm` on a list of children. -/
def ClaimInvAmL {T : Type} : List (Node T) → Prop
  | [] => True
  | c :: cs => ClaimInvAm c ∧ ClaimInvAmL cs

end

mutual

/-- Claim C7's invariant 2 exactly as stated, as an executable check: every
node's `indices` has one entry per static child, `indices[i]` being the
first byte of `children[i].prefix`. -/
def claimInv2B {T : Type} : Node T → Bool
  | n@(Node.mk _ _ _ _ _ _ cs) =>
    (n.indices.length ==
      (cs.filter (fun c => c.node_type == NodeType.Static)).length) &&
    ((n.indices.zip cs).all (fun p => p.2.pfx.headD 0 == p.1)) &&
    claimInv2BL cs

/-- `claimInv2B` on a list of children. -/
def claimInv2BL {T : Type} : List (Node T) → Bool
  | [] => true
  | c :: cs => claimInv2B c && claimInv2BL cs

end

/-- Trees reachable from the empty router by successful insertions. -/
inductive BuiltFrom {T : Type} : Node T → Prop where
  | base : BuiltFrom Node.dflt
  | step : ∀ {n t : Node T} (r : List Byte) (v : T), BuiltFrom n →
      Node.insert n r v = some (t, none) → BuiltFrom t

/-- Trees reachable from the empty router by successful insertions of
nonempty routes.  (Inserting the empty route into a childless empty-prefix
root silently overwrites its value — `self.value = Some(val)` in the
no-wildcard arm of `insert_child` — after the unconditional priority
increment, so priorities and subtree value counts can desynchronise; the
priority invariant therefore only holds for nonempty routes.) -/
inductive BuiltFromNE {T : Type} : Node T → Prop where
  | base : BuiltFromNE Node.dflt
  | step : ∀ {n t : Node T} (r : List Byte) (v : T), r ≠ [] → BuiltFromNE n →
      Node.insert n r v = some (t, none) → BuiltFromNE t

mutual

/-- The priority-free part of the structural invariant, enforced
recursively: `localInvX` at every node.  Unlike `InvS` this also survives
empty-route insertions, which only desynchronise priorities. -/
def WInv {T : Type} : Node T → Prop
  | n@(Node.mk _ _ _ _ _ _ cs) => localInvX n ∧ WInvL cs

/-- `WInv` on a list of children. -/
def WInvL {T : Type} : List (Node T) → Prop
  | [] => True
  | c :: cs => WInv c ∧ WInvL cs

end

/-- The tree built by `insert("/a/:x/c", 1)`: its `Param` node `:x` has one
static child (`/c`) but an empty `indices`. -/
def c7Tree : Node Nat :=
  Node.mk 1 true [] NodeType.Root none (bytes "/a/")
    [Node.mk 1 false [] NodeType.Param none (bytes ":x")
      [Node.mk 1 false [] NodeType.Static (some 1) (bytes "/c") []]]

/-- A freshly created node, as produced by `Node::default()` plus one
priority increment: the shape on which `insert_child` is called for a new
static child (and for the root on the first insertion). -/
def FreshNode {T : Type} (cur : Node T) : Prop :=
  cur.children = [] ∧ cur.indices = [] ∧ cur.value = none ∧
  cur.wild_child = false ∧ cur.priority = 1 ∧ cur.pfx = [] ∧
  (cur.node_type = NodeType.Static ∨ cur.node_type = NodeType.Root)

mutual

/-- Substitute wildcard tokens in a pattern: each `:name` token becomes the
segment `seg`, a `*name` token becomes the suffix `sfx` (and ends the
pattern). -/
def subst (seg sfx : List Byte) : List Byte → List Byte
  | [] => []
  | b :: rest =>
    if b = bcolon then seg ++ substSkipName seg sfx rest
    else if b = bstar then sfx
    else b :: subst seg sfx rest

/-- Skip the wildcard name (up to the next `/` or the end of the
pattern), then resume substituting. -/
def substSkipName (seg sfx : List Byte) : List Byte → List Byte
  | [] => []
  | b :: rest =>
    if b = bslash then bslash :: subst seg sfx rest
    else substSkipName seg sfx rest

end

mutual

/-- The parameter bindings expected when matching `subst seg sfx pattern`:
each `:name` binds `seg`, a trailing `*name` binds `sfx`. -/
def binds (seg sfx : List Byte) : List Byte → Params
  | [] => []
  | b :: rest =>
    if b = bcolon then bindsName seg sfx rest []
    else if b = bstar then [(rest, sfx)]
    else binds seg sfx rest

/-- Collect the bytes of a `:name` token (`acc` holds them reversed), then
emit its binding and resume scanning. -/
def bindsName (seg sfx : List Byte) : List Byte → List Byte → Params
  | [], acc => [(acc.reverse, seg)]
  | b :: rest, acc =>
    if b = bslash then (acc.reverse, seg) :: binds seg sfx rest
    else bindsName seg sfx rest (b :: acc)

end

/-! ## Theorems -/

namespace Node

variable {T : Type}

@[simp] theorem priority_mk (p w i t v pf c) :
    (mk p w i t v pf c : Node T).priority = p := rfl
@[simp] theorem wild_child_mk (p w i t v pf c) :
    (mk p w i t v pf c : Node T).wild_child = w := rfl
@[simp] theorem indices_mk (p w i t v pf c) :
    (mk p w i t v pf c : Node T).indices = i := rfl
@[simp] theorem node_type_mk (p w i t v pf c) :
    (mk p w i t v pf c : Node T).node_type = t := rfl
@[simp] theorem value_mk (p w i t v pf c) :
    (mk p w i t v pf c : Node T).value = v := rfl
@[simp] theorem pfx_mk (p w i t v pf c) :
    (mk p w i t v pf c : Node T).pfx = pf := rfl
@[simp] theorem children_mk (p w i t v pf c) :
    (mk p w i t v pf c : Node T).children = c := rfl

@[simp] theorem priority_setPriority (n : Node T) (p2) : (n.setPriority p2).priority = p2 := by cases n; rfl
@[simp] theorem wild_child_setPriority (n : Node T) (p2) : (n.setPriority p2).wild_child = n.wild_child := by cases n; rfl
@[simp] theorem indices_setPriority (n : Node T) (p2) : (n.setPriority p2).indices = n.indices := by cases n; rfl
@[simp] theorem node_type_setPriority (n : Node T) (p2) : (n.setPriority p2).node_type = n.node_type := by cases n; rfl
@[simp] theorem value_setPriority (n : Node T) (p2) : (n.setPriority p2).value = n.value := by cases n; rfl
@[simp] theorem pfx_setPriority (n : Node T) (p2) : (n.setPriority p2).pfx = n.pfx := by cases n; rfl
@[simp] theorem children_setPriority (n : Node T) (p2) : (n.setPriority p2).children = n.children := by cases n; rfl
@[simp] theorem priority_setWild (n : Node T) (w2) : (n.setWild w2).priority = n.priority := by cases n; rfl
@[simp] theorem wild_child_setWild (n : Node T) (w2) : (n.setWild w2).wild_child = w2 := by cases n; rfl
@[simp] theorem indices_setWild (n : Node T) (w2) : (n.setWild w2).indices = n.indices := by cases n; rfl
@[simp] theorem node_type_setWild (n : Node T) (w2) : (n.setWild w2).node_type = n.node_type := by cases n; rfl
@[simp] theorem value_setWild (n : Node T) (w2) : (n.setWild w2).value = n.value := by cases n; rfl
@[simp] theorem pfx_setWild (n : Node T) (w2) : (n.setWild w2).pfx = n.pfx := by cases n; rfl
@[simp] theorem children_setWild (n : Node T) (w2) : (n.setWild w2).children = n.children := by cases n; rfl
@[simp] theorem priority_setIndices (n : Node T) (i2) : (n.setIndices i2).priority = n.priority := by cases n; rfl
@[simp] theorem wild_child_setIndices (n : Node T) (i2) : (n.setIndices i2).wild_child = n.wild_child := by cases n; rfl
@[simp] theorem indices_setIndices (n : Node T) (i2) : (n.setIndices i2).indices = i2 := by cases n; rfl
@[simp] theorem node_type_setIndices (n : Node T) (i2) : (n.setIndices i2).node_type = n.node_type := by cases n; rfl
@[simp] theorem value_setIndices (n : Node T) (i2) : (n.setIndices i2).value = n.value := by cases n; rfl
@[simp] theorem pfx_setIndices (n : Node T) (i2) : (n.setIndices i2).pfx = n.pfx := by cases n; rfl
@[simp] theorem children_setIndices (n : Node T) (i2) : (n.setIndices i2).children = n.children := by cases n; rfl
@[simp] theorem priority_setNodeType (n : Node T) (t2) : (n.setNodeType t2).priority = n.priority := by cases n; rfl
@[simp] theorem wild_child_setNodeType (n : Node T) (t2) : (n.setNodeType t2).wild_child = n.wild_child := by cases n; rfl
@[simp] theorem indices_setNodeType (n : Node T) (t2) : (n.setNodeType t2).indices = n.indices := by cases n; rfl
@[simp] theorem node_type_setNodeType (n : Node T) (t2) : (n.setNodeType t2).node_type = t2 := by cases n; rfl
@[simp] theorem value_setNodeType (n : Node T) (t2) : (n.setNodeType t2).value = n.value := by cases n; rfl
@[simp] theorem pfx_setNodeType (n : Node T) (t2) : (n.setNodeType t2).pfx = n.pfx := by cases n; rfl
@[simp] theorem children_setNodeType (n : Node T) (t2) : (n.setNodeType t2).children = n.children := by cases n; rfl
@[simp] theorem priority_setValue (n : Node T) (v2) : (n.setValue v2).priority = n.priority := by cases n; rfl
@[simp] theorem wild_child_setValue (n : Node T) (v2) : (n.setValue v2).wild_child = n.wild_child := by cases n; rfl
@[simp] theorem indices_setValue (n : Node T) (v2) : (n.setValue v2).indices = n.indices := by cases n; rfl
@[simp] theorem node_type_setValue (n : Node T) (v2) : (n.setValue v2).node_type = n.node_type := by cases n; rfl
@[simp] theorem value_setValue (n : Node T) (v2) : (n.setValue v2).value = v2 := by cases n; rfl
@[simp] theorem pfx_setValue (n : Node T) (v2) : (n.setValue v2).pfx = n.pfx := by cases n; rfl
@[simp] theorem children_setValue (n : Node T) (v2) : (n.setValue v2).children = n.children := by cases n; rfl
@[simp] theorem priority_setPfx (n : Node T) (pf2) : (n.setPfx pf2).priority = n.priority := by cases n; rfl
@[simp] theorem wild_child_setPfx (n : Node T) (pf2) : (n.setPfx pf2).wild_child = n.wild_child := by cases n; rfl
@[simp] theorem indices_setPfx (n : Node T) (pf2) : (n.setPfx pf2).indices = n.indices := by cases n; rfl
@[simp] theorem node_type_setPfx (n : Node T) (pf2) : (n.setPfx pf2).node_type = n.node_type := by cases n; rfl
@[simp] theorem value_setPfx (n : Node T) (pf2) : (n.setPfx pf2).value = n.value := by cases n; rfl
@[simp] theorem pfx_setPfx (n : Node T) (pf2) : (n.setPfx pf2).pfx = pf2 := by cases n; rfl
@[simp] theorem children_setPfx (n : Node T) (pf2) : (n.setPfx pf2).children = n.children := by cases n; rfl
@[simp] theorem priority_setChildren (n : Node T) (c2) : (n.setChildren c2).priority = n.priority := by cases n; rfl
@[simp] theorem wild_child_setChildren (n : Node T) (c2) : (n.setChildren c2).wild_child = n.wild_child := by cases n; rfl
@[simp] theorem indices_setChildren (n : Node T) (c2) : (n.setChildren c2).indices = n.indices := by cases n; rfl
@[simp] theorem node_type_setChildren (n : Node T) (c2) : (n.setChildren c2).node_type = n.node_type := by cases n; rfl
@[simp] theorem value_setChildren (n : Node T) (c2) : (n.setChildren c2).value = n.value := by cases n; rfl
@[simp] theorem pfx_setChildren (n : Node T) (c2) : (n.setChildren c2).pfx = n.pfx := by cases n; rfl
@[simp] theorem children_setChildren (n : Node T) (c2) : (n.setChildren c2).children = c2 := by cases n; rfl

@[simp] theorem priority_bump (n : Node T) : n.bump.priority = n.priority + 1 := by
  cases n; rfl
@[simp] theorem wild_child_bump (n : Node T) : n.bump.wild_child = n.wild_child := by cases n; rfl
@[simp] theorem indices_bump (n : Node T) : n.bump.indices = n.indices := by cases n; rfl
@[simp] theorem node_type_bump (n : Node T) : n.bump.node_type = n.node_type := by cases n; rfl
@[simp] theorem value_bump (n : Node T) : n.bump.value = n.value := by cases n; rfl
@[simp] theorem pfx_bump (n : Node T) : n.bump.pfx = n.pfx := by cases n; rfl
@[simp] theorem children_bump (n : Node T) : n.bump.children = n.children := by cases n; rfl

@[simp] theorem priority_setChildAt (n : Node T) (i c) : (n.setChildAt i c).priority = n.priority := by
  cases n; rfl
@[simp] theorem wild_child_setChildAt (n : Node T) (i c) : (n.setChildAt i c).wild_child = n.wild_child := by
  cases n; rfl
@[simp] theorem indices_setChildAt (n : Node T) (i c) : (n.setChildAt i c).indices = n.indices := by
  cases n; rfl
@[simp] theorem node_type_setChildAt (n : Node T) (i c) : (n.setChildAt i c).node_type = n.node_type := by
  cases n; rfl
@[simp] theorem value_setChildAt (n : Node T) (i c) : (n.setChildAt i c).value = n.value := by
  cases n; rfl
@[simp] theorem pfx_setChildAt (n : Node T) (i c) : (n.setChildAt i c).pfx = n.pfx := by
  cases n; rfl
@[simp] theorem children_setChildAt (n : Node T) (i c) : (n.setChildAt i c).children = n.children.set i c := by
  cases n; rfl

@[simp] theorem add_child_fst_priority (n c : Node T) :
    (n.add_child c).1.priority = n.priority := by
  simp only [add_child]; split <;> simp

@[simp] theorem add_child_fst_pfx (n c : Node T) :
    (n.add_child c).1.pfx = n.pfx := by
  simp only [add_child]; split <;> simp

@[simp] theorem add_child_fst_node_type (n c : Node T) :
    (n.add_child c).1.node_type = n.node_type := by
  simp only [add_child]; split <;> simp

@[simp] theorem add_child_fst_value (n c : Node T) :
    (n.add_child c).1.value = n.value := by
  simp only [add_child]; split <;> simp

@[simp] theorem add_child_fst_indices (n c : Node T) :
    (n.add_child c).1.indices = n.indices := by
  simp only [add_child]; split <;> simp

@[simp] theorem add_child_fst_wild_child (n c : Node T) :
    (n.add_child c).1.wild_child = n.wild_child := by
  simp only [add_child]; split <;> simp

@[simp] theorem update_child_priority_fst_priority (n : Node T) (i : Nat) :
    (n.update_child_priority i).1.priority = n.priority := by
  unfold update_child_priority
  cases n.children.get? i <;> simp

@[simp] theorem update_child_priority_fst_pfx (n : Node T) (i : Nat) :
    (n.update_child_priority i).1.pfx = n.pfx := by
  unfold update_child_priority
  cases n.children.get? i <;> simp

@[simp] theorem update_child_priority_fst_node_type (n : Node T) (i : Nat) :
    (n.update_child_priority i).1.node_type = n.node_type := by
  unfold update_child_priority
  cases n.children.get? i <;> simp

@[simp] theorem update_child_priority_fst_value (n : Node T) (i : Nat) :
    (n.update_child_priority i).1.value = n.value := by
  unfold update_child_priority
  cases n.children.get? i <;> simp

@[simp] theorem update_child_priority_fst_wild_child (n : Node T) (i : Nat) :
    (n.update_child_priority i).1.wild_child = n.wild_child := by
  unfold update_child_priority
  cases n.children.get? i <;> simp

@[simp] theorem splitNode_priority (cur : Node T) (common : Nat) (p : List Byte) :
    (cur.splitNode common p).priority = cur.priority := by
  simp [splitNode]

@[simp] theorem splitNode_node_type (cur : Node T) (common : Nat) (p : List Byte) :
    (cur.splitNode common p).node_type = cur.node_type := by
  simp [splitNode]

@[simp] theorem stripWildPrefix_fst_priority (cur : Node T) (p : List Byte) (wi : Nat) :
    (stripWildPrefix cur p wi).1.priority = cur.priority := by
  simp only [stripWildPrefix]; split <;> simp

@[simp] theorem stripWildPrefix_fst_wild_child (cur : Node T) (p : List Byte) (wi : Nat) :
    (stripWildPrefix cur p wi).1.wild_child = cur.wild_child := by
  simp only [stripWildPrefix]; split <;> simp

@[simp] theorem stripWildPrefix_fst_value (cur : Node T) (p : List Byte) (wi : Nat) :
    (stripWildPrefix cur p wi).1.value = cur.value := by
  simp only [stripWildPrefix]; split <;> simp

@[simp] theorem stripWildPrefix_fst_node_type (cur : Node T) (p : List Byte) (wi : Nat) :
    (stripWildPrefix cur p wi).1.node_type = cur.node_type := by
  simp only [stripWildPrefix]; split <;> simp

@[simp] theorem stripWildPrefix_fst_indices (cur : Node T) (p : List Byte) (wi : Nat) :
    (stripWildPrefix cur p wi).1.indices = cur.indices := by
  simp only [stripWildPrefix]; split <;> simp

@[simp] theorem stripWildPrefix_fst_children (cur : Node T) (p : List Byte) (wi : Nat) :
    (stripWildPrefix cur p wi).1.children = cur.children := by
  simp only [stripWildPrefix]; split <;> simp

@[simp] theorem maybeSplit_priority (cur0 : Node T) (common : Nat) (p : List Byte) :
    (maybeSplit cur0 common p).priority = cur0.priority := by
  simp only [maybeSplit]; split <;> simp

@[simp] theorem maybeSplit_node_type (cur0 : Node T) (common : Nat) (p : List Byte) :
    (maybeSplit cur0 common p).node_type = cur0.node_type := by
  simp only [maybeSplit]; split <;> simp

/-- `insert_child` never touches the priority of the node it is called
on (the increments it performs all target newly created children). -/
theorem insertChildF_priority :
    ∀ (fuel : Nat) (cur : Node T) (p r : List Byte) (v : T) (t : Node T)
      (oe : Option InsertError),
      insertChildF fuel cur p r v = some (t, oe) → t.priority = cur.priority := by
  intro fuel
  induction fuel with
  | zero => intro cur p r v t oe h; simp [insertChildF] at h
  | succ fuel ih =>
    intro cur p r v t oe h
    simp only [insertChildF] at h
    split at h
    · -- (some _, false): `TooManyParams`
      simp at h; simp [h.1.symm]
    · -- (none, _): the value lands on this node
      simp at h
      obtain ⟨ht, -⟩ := h
      subst ht
      simp
    · -- (some (w, wi), true)
      split at h
      · simp at h; simp [h.1.symm]
      · split at h
        · -- ':' branch
          split at h
          · simp at h
          · split at h
            · -- the route continues past the parameter
              split at h
              · simp at h
              · split at h
                · simp at h
                · simp at h
                  obtain ⟨ht, -⟩ := h
                  subst ht
                  simp [setChildAt]
            · -- the parameter ends the route
              simp at h
              obtain ⟨ht, -⟩ := h
              subst ht
              simp [setChildAt]
        · split at h
          · -- '*' branch
            split at h
            · simp at h; simp [h.1.symm]
            · split at h
              · simp at h; simp [h.1.symm]
              · split at h
                · simp at h; simp [h.1.symm]
                · simp at h
                  obtain ⟨ht, -⟩ := h
                  subst ht
                  simp
          · simp at h; simp [h.1.symm]

/-- The `'walk` loop never changes the priority of the node it starts
at. -/
theorem walkF_priority :
    ∀ (fuel : Nat) (cur : Node T) (p r : List Byte) (v : T) (t : Node T)
      (oe : Option InsertError),
      walkF fuel cur p r v = some (t, oe) → t.priority = cur.priority := by
  intro fuel
  induction fuel with
  | zero => intro cur p r v t oe h; simp [walkF] at h
  | succ fuel ih =>
    intro cur p r v t oe h
    simp only [walkF] at h
    split at h
    · -- the path descends past this node's prefix
      split at h
      · -- Param-then-slash shortcut
        split at h
        · split at h
          · simp at h
          · simp at h
            obtain ⟨ht, -⟩ := h
            subst ht
            simp
        · simp at h
      · split at h
        · -- static child hit
          split at h
          · simp at h
          · split at h
            · simp at h
            · simp at h
              obtain ⟨ht, -⟩ := h
              subst ht
              simp [setChildAt]
        · split at h
          · -- create a static child
            split at h
            · simp at h
            · split at h
              · simp at h
              · simp at h
                obtain ⟨ht, -⟩ := h
                subst ht
                simp [setChildAt]
          · split at h
            · -- existing wildcard child
              split at h
              · simp at h
              · split at h
                · simp at h
                  obtain ⟨ht, -⟩ := h
                  subst ht
                  simp [setChildAt]
                · split at h
                  · simp at h
                  · simp at h
                    obtain ⟨ht, -⟩ := h
                    subst ht
                    simp [setChildAt]
            · -- hand the remainder to `insert_child`
              have hp := insertChildF_priority _ _ _ _ _ _ _ h
              simpa using hp
    · -- exact match
      split at h
      · simp at h; simp [h.1.symm]
      · simp at h
        obtain ⟨ht, -⟩ := h
        subst ht
        simp

/-- `Node::insert` increments the root's priority exactly once, whether it
succeeds or fails. -/
theorem insert_priority (n : Node T) (r : List Byte) (v : T) (t : Node T)
    (oe : Option InsertError) :
    Node.insert n r v = some (t, oe) → t.priority = n.priority + 1 := by
  intro h
  simp only [Node.insert] at h
  split at h
  · split at h
    · simp at h
    · rename_i t' e' hic
      simp at h
      obtain ⟨ht, -⟩ := h
      subst ht
      have := insertChildF_priority _ _ _ _ _ _ _ hic
      simpa using this
    · rename_i t' hic
      simp at h
      obtain ⟨ht, -⟩ := h
      subst ht
      have := insertChildF_priority _ _ _ _ _ _ _ hic
      simpa using this
  · have := walkF_priority _ _ _ _ _ _ _ h
    simpa using this

end Node

/-! ### Value-count lemmas -/

@[simp] theorem vcount_mk (p w i t v pf) (c : List (Node T)) :
    vcount (Node.mk p w i t v pf c) = (if v.isSome then 1 else 0) + vcountL c := by
  rw [vcount]

@[simp] theorem vcountL_nil : vcountL ([] : List (Node T)) = 0 := by rw [vcountL]

@[simp] theorem vcountL_cons (n : Node T) (ns : List (Node T)) :
    vcountL (n :: ns) = vcount n + vcountL ns := by rw [vcountL]

@[simp] theorem vcountL_append (l₁ l₂ : List (Node T)) :
    vcountL (l₁ ++ l₂) = vcountL l₁ + vcountL l₂ := by
  induction l₁ with
  | nil => simp
  | cons a l ih => simp [ih]; omega

@[simp] theorem vcount_setPriority (n : Node T) (p) :
    vcount (n.setPriority p) = vcount n := by cases n; rfl

@[simp] theorem vcount_setWild (n : Node T) (w) :
    vcount (n.setWild w) = vcount n := by cases n; rfl

@[simp] theorem vcount_setIndices (n : Node T) (i) :
    vcount (n.setIndices i) = vcount n := by cases n; rfl

@[simp] theorem vcount_setNodeType (n : Node T) (t) :
    vcount (n.setNodeType t) = vcount n := by cases n; rfl

@[simp] theorem vcount_setPfx (n : Node T) (pf) :
    vcount (n.setPfx pf) = vcount n := by cases n; rfl

@[simp] theorem vcount_bump (n : Node T) : vcount n.bump = vcount n := by cases n; rfl

@[simp] theorem vcount_setChildren (n : Node T) (c) :
    vcount (n.setChildren c) = (if n.value.isSome then 1 else 0) + vcountL c := by
  cases n; rfl

theorem vcount_children (n : Node T) :
    vcount n = (if n.value.isSome then 1 else 0) + vcountL n.children := by
  cases n; rfl

@[simp] theorem vcount_stripWildPrefix (cur : Node T) (p wi) :
    vcount (Node.stripWildPrefix cur p wi).1 = vcount cur := by
  simp only [Node.stripWildPrefix]; split <;> simp

theorem vcountL_set (cs : List (Node T)) (i : Nat) (x c : Node T)
    (hx : cs.get? i = some x) :
    vcountL (cs.set i c) + vcount x = vcountL cs + vcount c := by
  induction cs generalizing i with
  | nil => simp [List.get?] at hx
  | cons a l ih =>
    cases i with
    | zero =>
      simp only [List.get?] at hx
      injection hx with hx
      subst hx
      simp only [List.set_cons_zero, vcountL_cons]
      omega
    | succ j =>
      simp only [List.get?] at hx
      have := ih j hx
      simp only [List.set_cons_succ, vcountL_cons]
      omega

theorem vcountL_insertIdx (cs : List (Node T)) (k : Nat) (c : Node T)
    (hk : k ≤ cs.length) :
    vcountL (cs.insertIdx k c) = vcountL cs + vcount c := by
  induction cs generalizing k with
  | nil =>
    have : k = 0 := by simpa using hk
    subst this
    simp [List.insertIdx]
  | cons a l ih =>
    cases k with
    | zero => simp [List.insertIdx]; try omega
    | succ j =>
      simp only [List.length_cons] at hk
      rw [List.insertIdx_succ_cons]
      simp only [vcountL_cons, ih j (by omega)]
      omega

@[simp] theorem vcount_setValue (n : Node T) (v) :
    vcount (n.setValue v) = (if v.isSome then 1 else 0) + vcountL n.children := by
  cases n; rfl

@[simp] theorem vcount_splitNode (cur : Node T) (common) (p) :
    vcount (cur.splitNode common p) = vcount cur := by
  cases cur; simp [Node.splitNode]

theorem vcount_add_child (n c : Node T) :
    vcount (n.add_child c).1 = vcount n + vcount c := by
  simp only [Node.add_child]
  split
  · rename_i h
    rw [vcount_setChildren, vcountL_insertIdx _ _ _ (by omega), vcount_children n]
    omega
  · rw [vcount_setChildren, vcountL_append, vcount_children n]
    simp; omega

/-! ### `find_wildcard` characterization -/

theorem find_wildcard_none {p : List Byte} {b0 : Bool}
    (h : find_wildcard p = (none, b0)) : noWildBytes p := by
  simp only [find_wildcard] at h
  split at h
  · rename_i hnone
    rw [List.findIdx?_eq_none_iff] at hnone
    intro b hb
    have := hnone b hb
    simp at this
    exact this
  · split at h <;> simp at h

theorem find_wildcard_some {p w : List Byte} {wi : Nat} {valid : Bool}
    (h : find_wildcard p = (some (w, wi), valid)) :
    ∃ c0, p.get? wi = some c0 ∧ (c0 = bcolon ∨ c0 = bstar) ∧
      w.head? = some c0 ∧
      noWildBytes (p.take wi) ∧
      1 ≤ w.length ∧ wi + w.length ≤ p.length ∧
      w = (p.drop wi).take w.length ∧
      (wi + w.length < p.length → p.get? (wi + w.length) = some bslash) := by
  simp only [find_wildcard] at h
  split at h
  · simp at h
  · rename_i start hfind
    obtain ⟨hlt, hidx⟩ := List.findIdx?_eq_some_iff_findIdx_eq.mp hfind
    have hpred : (fun c => decide (c = bcolon) || decide (c = bstar)) p[start] = true := by
      have h0 := @List.findIdx_getElem _
        (fun c => decide (c = bcolon) || decide (c = bstar)) p
        (by rw [hidx]; exact hlt)
      simpa [hidx] using h0
    have hbefore : noWildBytes (p.take start) := by
      intro b hb
      rw [List.mem_take_iff_getElem] at hb
      obtain ⟨k, hk, rfl⟩ := hb
      have hk' : k < List.findIdx (fun c => decide (c = bcolon) || decide (c = bstar)) p := by
        rw [hidx]
        exact lt_of_lt_of_le hk (Nat.min_le_left _ _)
      have := List.not_of_lt_findIdx hk'
      simpa using this
    simp only [decide_eq_true_eq, Bool.or_eq_true] at hpred
    split at h
    · -- token terminated by a '/'
      rename_i e hsl
      obtain ⟨hel, heidx⟩ := List.findIdx?_eq_some_iff_findIdx_eq.mp hsl
      have heslash : (p.drop (start + 1))[e] = bslash := by
        have h0 := @List.findIdx_getElem _ (fun c => decide (c = bslash))
          (p.drop (start + 1)) (by rw [heidx]; exact hel)
        simpa [heidx] using h0
      have hel' : e < p.length - (start + 1) := by simpa using hel
      simp only [Prod.mk.injEq, Option.some.injEq] at h
      obtain ⟨⟨hw, hwi⟩, -⟩ := h
      subst hwi
      subst hw
      have hlen : ((p.drop start).take (1 + e)).length = 1 + e := by
        simp
        omega
      refine ⟨p[start], ?_, hpred, ?_, hbefore, ?_, ?_, ?_, ?_⟩
      · simp [List.get?_eq_getElem?, List.getElem?_eq_getElem hlt]
      · rw [List.head?_take]
        simp only [Nat.add_eq_zero, one_ne_zero, false_and, if_false]
        rw [List.head?_drop]
        simp [List.getElem?_eq_getElem hlt]
      · rw [hlen]; omega
      · rw [hlen]; omega
      · rw [hlen]
      · rw [hlen]
        intro hlt2
        have hgoal : p.get? (start + (1 + e)) = (p.drop (start + 1)).get? e := by
          rw [List.get?_drop]
          congr 1
          omega
        rw [hgoal, List.get?_eq_getElem?, List.getElem?_eq_getElem (by simpa using hel),
          heslash]
    · -- token runs to the end of the pattern
      simp only [Prod.mk.injEq, Option.some.injEq] at h
      obtain ⟨⟨hw, hwi⟩, -⟩ := h
      subst hwi
      subst hw
      refine ⟨p[start], ?_, hpred, ?_, hbefore, ?_, ?_, ?_, ?_⟩
      · simp [List.get?_eq_getElem?, List.getElem?_eq_getElem hlt]
      · rw [List.head?_drop]
        simp [List.getElem?_eq_getElem hlt]
      · simp; omega
      · simp; omega
      · simp
      · simp
        intro h2
        omega

/-! ### Invariant plumbing -/

theorem InvSL_iff_forall {cs : List (Node T)} :
    InvSL cs ↔ ∀ c ∈ cs, InvS c ∧ 1 ≤ vcount c := by
  induction cs with
  | nil => simp [InvSL]
  | cons a l ih => rw [InvSL]; simp [ih]; try tauto

theorem ClaimInvAmL_iff_forall {cs : List (Node T)} :
    ClaimInvAmL cs ↔ ∀ c ∈ cs, ClaimInvAm c := by
  induction cs with
  | nil => simp [ClaimInvAmL]
  | cons a l ih => rw [ClaimInvAmL]; simp [ih]

theorem InvS_def (n : Node T) : InvS n = (localInv n ∧ InvSL n.children) := by
  cases n; rw [InvS]; rfl

theorem ClaimInvAm_def (n : Node T) :
    ClaimInvAm n =
      ((n.priority = vcount n ∧
        (match n.node_type with
         | NodeType.Param => n.children.length ≤ 1 ∧ (n.indices = [] ∨ indicesMatch n)
         | _ => indicesMatch n) ∧
        (∀ c ∈ statics n, c.node_type = NodeType.Static) ∧
        (n.wild_child = true → ∃ w, n.children.getLast? = some w ∧
            (w.node_type = NodeType.Param ∨ w.node_type = NodeType.CatchAll)) ∧
        List.Chain' (fun a b : Node T => b.priority ≤ a.priority) (statics n)) ∧
       ClaimInvAmL n.children) := by
  cases n; rw [ClaimInvAm]; rfl

theorem nsizeL_ge_of_mem {c : Node T} {cs : List (Node T)} (h : c ∈ cs) :
    Node.nsize c ≤ Node.nsize.nsizeL cs := by
  induction cs with
  | nil => simp at h
  | cons a l ih =>
    rw [Node.nsize.nsizeL]
    rcases List.mem_cons.mp h with rfl | h'
    · omega
    · have := ih h'
      omega

theorem nsize_lt_of_mem {c n : Node T} (h : c ∈ n.children) :
    Node.nsize c < Node.nsize n := by
  cases n with
  | mk p w i t v pf cs =>
    have := nsizeL_ge_of_mem (show c ∈ cs from h)
    rw [Node.nsize]
    omega

/-- Strong induction on the size of a tree. -/
theorem node_size_induction {P : Node T → Prop}
    (step : ∀ n : Node T, (∀ c ∈ n.children, P c) → P n) : ∀ n, P n := by
  intro n
  generalize hs : Node.nsize n = s
  induction s using Nat.strong_induction_on generalizing n with
  | _ s ih =>
    subst hs
    exact step n (fun c hc => ih _ (nsize_lt_of_mem hc) c rfl)

/-- `InvS` subsumes the (amended) claim invariants. -/
theorem InvS_claimInvAm : ∀ (n : Node T), InvS n → ClaimInvAm n := by
  intro n
  induction n using node_size_induction with
  | _ n ih =>
    intro h
    rw [InvS_def] at h
    rw [ClaimInvAm_def]
    obtain ⟨⟨h1, h2, h3, h4, h5, -⟩, hL⟩ := h
    refine ⟨⟨h1, h2, h3, h4, h5⟩, ?_⟩
    rw [ClaimInvAmL_iff_forall]
    rw [InvSL_iff_forall] at hL
    intro c hc
    exact ih c hc (hL c hc).1

/-! ### The bubbling loop of `update_child_priority` as a rotation -/

theorem rot_length {α : Type} (cs : List α) (x : α) (u i : Nat) (hu : u ≤ i)
    (hi : i < cs.length) :
    (cs.take u ++ x :: ((cs.drop u).take (i - u)) ++ cs.drop (i+1)).length =
      cs.length := by
  simp [List.length_take, List.length_drop]
  omega

theorem rot_getElem? {α : Type} (cs : List α) (x : α) (u i k : Nat) (hu : u ≤ i)
    (hi : i < cs.length) :
    (cs.take u ++ x :: ((cs.drop u).take (i - u)) ++ cs.drop (i+1))[k]? =
      if k < u then cs[k]?
      else if k = u then some x
      else if k ≤ i then cs[k-1]?
      else cs[k]? := by
  have hlu : (cs.take u).length = u := by simp; omega
  have hlb : ((cs.drop u).take (i - u)).length = i - u := by simp; omega
  have hlab : (cs.take u ++ x :: (cs.drop u).take (i - u)).length = i + 1 := by
    simp only [List.length_append, List.length_cons, hlu, hlb]
    omega
  rw [List.getElem?_append, hlab]
  by_cases h3 : k < i + 1
  · simp only [if_pos h3]
    rw [List.getElem?_append, hlu]
    by_cases h1 : k < u
    · simp only [if_pos h1, List.getElem?_take]
    · simp only [if_neg h1]
      by_cases h2 : k = u
      · simp [h2]
      · simp only [if_neg h2, if_pos (show k ≤ i by omega)]
        rw [show k - u = (k - u - 1) + 1 by omega, List.getElem?_cons_succ,
          List.getElem?_take, if_pos (by omega : k - u - 1 < i - u), List.getElem?_drop]
        congr 1
        omega
  · simp only [if_neg h3, if_neg (show ¬ k < u by omega),
      if_neg (show ¬ k = u by omega), if_neg (show ¬ k ≤ i by omega)]
    rw [List.getElem?_drop]
    congr 1
    omega

theorem bubbleLoop_spec (prio : Nat) :
    ∀ (j : Nat) (cs : List (Node T)) (x : Node T), cs[j]? = some x →
    ∃ u, u ≤ j ∧ (Node.bubbleLoop prio cs j).2 = u ∧
      (Node.bubbleLoop prio cs j).1 =
        cs.take u ++ x :: ((cs.drop u).take (j - u)) ++ cs.drop (j+1) ∧
      (∀ k y, u ≤ k → k < j → cs[k]? = some y → y.priority < prio) ∧
      (∀ y, 0 < u → cs[u-1]? = some y → ¬ y.priority < prio) := by
  intro j
  induction j with
  | zero =>
    intro cs x hx
    refine ⟨0, Nat.le_refl 0, rfl, ?_, by omega, by omega⟩
    cases cs with
    | nil => simp at hx
    | cons a l =>
      simp at hx
      subst hx
      simp [Node.bubbleLoop]
  | succ j ih =>
    intro cs x hx
    have hjlen : j + 1 < cs.length := by
      by_contra hcon
      rw [List.getElem?_eq_none (by omega)] at hx
      simp at hx
    obtain ⟨prev, hprev⟩ : ∃ prev, cs[j]? = some prev :=
      ⟨_, List.getElem?_eq_getElem (by omega)⟩
    have hunfold : Node.bubbleLoop prio cs (j+1) =
        if prev.priority < prio then
          Node.bubbleLoop prio ((cs.set j x).set (j+1) prev) j
        else (cs, j+1) := by
      rw [Node.bubbleLoop]
      rw [← List.get?_eq_getElem?] at hprev hx
      rw [hprev, hx]
    by_cases hc : prev.priority < prio
    · rw [hunfold, if_pos hc]
      set cs' := (cs.set j x).set (j+1) prev with hcs'
      have hget' : ∀ k, cs'[k]? =
          if k = j then some x else if k = j + 1 then some prev else cs[k]? := by
        intro k
        rw [hcs']
        rw [List.getElem?_set, List.getElem?_set]
        by_cases e1 : k = j
        · have hjl : j < cs.length := by omega
          simp [e1, hjl, (show ¬ (j + 1 = j) by omega)]
        · by_cases e2 : k = j + 1
          · simp [e2, (show ¬ (j + 1 = j) by omega), hjlen]
          · simp [(show ¬ (j + 1 = k) by omega), (show ¬ (j = k) by omega), e1, e2]
      have hx' : cs'[j]? = some x := by rw [hget']; simp
      obtain ⟨u, hu, h2, h3, h4, h5⟩ := ih cs' x hx'
      have hlen' : cs'.length = cs.length := by simp [hcs']
      refine ⟨u, by omega, h2, ?_, ?_, ?_⟩
      · rw [h3]
        apply List.ext_getElem?
        intro k
        have hj' : j < cs'.length := by omega
        rw [rot_getElem? cs' x u j k hu hj',
            rot_getElem? cs x u (j+1) k (by omega) (by omega)]
        by_cases b1 : k < u
        · simp only [if_pos b1]
          rw [hget']
          have : ¬ (k = j) := by omega
          have : ¬ (k = j + 1) := by omega
          simp_all
        · by_cases b2 : k = u
          · simp [b2]
          · by_cases b3 : k ≤ j
            · simp only [if_neg b1, if_neg b2, if_pos b3, if_pos (by omega : k ≤ j + 1)]
              rw [hget']
              have : ¬ (k - 1 = j) := by omega
              have : ¬ (k - 1 = j + 1) := by omega
              simp_all
            · by_cases b4 : k = j + 1
              · subst b4
                simp only [if_neg b1, if_neg b2, if_neg b3, if_pos (le_refl (j+1))]
                rw [hget']
                have : ¬ (j + 1 = j) := by omega
                have : ¬ (j + 1 + 1 = j) := by omega
                simp_all
              · simp only [if_neg b1, if_neg b2, if_neg b3,
                  if_neg (by omega : ¬ (k ≤ j + 1))]
                rw [hget']
                have : ¬ (k = j) := by omega
                simp_all
      · intro k y hk1 hk2 hky
        by_cases e1 : k = j
        · subst e1
          rw [hprev] at hky
          injection hky with hky
          subst hky
          exact hc
        · apply h4 k y hk1 (by omega)
          rw [hget', if_neg e1, if_neg (show ¬ (k = j + 1) by omega)]
          exact hky
      · intro y hu0 hy
        apply h5 y hu0
        rw [hget', if_neg (show ¬ (u - 1 = j) by omega),
          if_neg (show ¬ (u - 1 = j + 1) by omega)]
        exact hy
    · rw [hunfold, if_neg hc]
      refine ⟨j + 1, le_refl _, rfl, ?_, by omega, ?_⟩
      · apply List.ext_getElem?
        intro k
        rw [rot_getElem? cs x (j+1) (j+1) k (le_refl _) (by omega)]
        by_cases b1 : k < j + 1
        · simp [b1]
        · by_cases b2 : k = j + 1
          · subst b2
            simp [hx]
          · simp only [if_neg b1, if_neg b2, if_neg (show ¬ (k ≤ j + 1) by omega)]
      · intro y _ hy
        simp at hy
        rw [hprev] at hy
        injection hy with hy
        subst hy
        exact hc

theorem update_child_priority_spec (n : Node T) (i : Nat) (x : Node T)
    (hx : n.children[i]? = some x) :
    ∃ u, u ≤ i ∧ (n.update_child_priority i).2 = u ∧
      (n.update_child_priority i).1.children =
        n.children.take u ++ x.bump ::
          ((n.children.drop u).take (i - u)) ++ n.children.drop (i+1) ∧
      (∀ bi, n.indices[i]? = some bi →
        (n.update_child_priority i).1.indices =
          n.indices.take u ++ bi ::
            ((n.indices.drop u).take (i - u)) ++ n.indices.drop (i+1)) ∧
      (∀ k y, u ≤ k → k < i → n.children[k]? = some y →
        y.priority < x.priority + 1) ∧
      (∀ y, 0 < u → n.children[u-1]? = some y →
        ¬ y.priority < x.priority + 1) := by
  have hilen : i < n.children.length := by
    by_contra hcon
    rw [List.getElem?_eq_none (by omega)] at hx
    simp at hx
  have hunfold : n.update_child_priority i =
      ((n.setChildren (Node.bubbleLoop (x.priority + 1)
          (n.children.set i x.bump) i).1).setIndices
        (if (Node.bubbleLoop (x.priority + 1) (n.children.set i x.bump) i).2 ≠ i then
          n.indices.take (Node.bubbleLoop (x.priority + 1) (n.children.set i x.bump) i).2 ++
            (n.indices.drop i).take 1 ++
            (n.indices.drop
              (Node.bubbleLoop (x.priority + 1) (n.children.set i x.bump) i).2).take
              (i - (Node.bubbleLoop (x.priority + 1) (n.children.set i x.bump) i).2) ++
            n.indices.drop (i + 1)
         else n.indices),
       (Node.bubbleLoop (x.priority + 1) (n.children.set i x.bump) i).2) := by
    rw [Node.update_child_priority]
    rw [← List.get?_eq_getElem?] at hx
    rw [hx]
    simp only [Node.priority_bump]
  set cs1 := n.children.set i x.bump with hcs1
  have hx1 : cs1[i]? = some x.bump := by
    rw [hcs1, List.getElem?_set]
    simp [hilen]
  obtain ⟨u, hu, h2, h3, h4, h5⟩ := bubbleLoop_spec (x.priority + 1) i cs1 x.bump hx1
  have hsame : ∀ k, k ≠ i → cs1[k]? = n.children[k]? := by
    intro k hk
    rw [hcs1, List.getElem?_set, if_neg (fun h => hk h.symm)]
  refine ⟨u, hu, by rw [hunfold]; exact h2, ?_, ?_, ?_, ?_⟩
  · rw [hunfold]
    simp only [Node.children_setIndices, Node.children_setChildren]
    rw [h3]
    apply List.ext_getElem?
    intro k
    have hlen1 : cs1.length = n.children.length := by rw [hcs1]; simp
    rw [rot_getElem? cs1 x.bump u i k hu (by omega),
        rot_getElem? n.children x.bump u i k hu hilen]
    by_cases b1 : k < u
    · simp only [if_pos b1]
      exact hsame k (by omega)
    · by_cases b2 : k = u
      · simp [b2]
      · by_cases b3 : k ≤ i
        · simp only [if_neg b1, if_neg b2, if_pos b3]
          exact hsame (k-1) (by omega)
        · simp only [if_neg b1, if_neg b2, if_neg b3]
          exact hsame k (by omega)
  · intro bi hbi
    have hblen : i < n.indices.length := by
      by_contra hcon
      rw [List.getElem?_eq_none (by omega)] at hbi
      simp at hbi
    have hdropi : n.indices.drop i = bi :: n.indices.drop (i+1) := by
      rw [List.drop_eq_getElem_cons hblen]
      rw [List.getElem?_eq_getElem hblen] at hbi
      injection hbi with hbi
      rw [hbi]
    rw [hunfold]
    simp only [Node.indices_setIndices]
    rw [h2]
    by_cases hui : u = i
    · rw [if_neg (by simp [hui])]
      subst hui
      apply List.ext_getElem?
      intro k
      rw [rot_getElem? n.indices bi u u k (le_refl u) hblen]
      by_cases b1 : k < u
      · simp [b1]
      · by_cases b2 : k = u
        · subst b2; simp [hbi]
        · simp [b1, b2, (show ¬ k ≤ u by omega)]
    · rw [if_pos (by simp [hui])]
      rw [hdropi]
      simp
  · intro k y hk1 hk2 hky
    have := h4 k y hk1 hk2 (by rw [hsame k (by omega)]; exact hky)
    simpa using this
  · intro y hu0 hy
    have := h5 y hu0 (by rw [hsame (u-1) (by omega)]; exact hy)
    simpa using this

/-! ### `add_child` characterization -/

theorem insertIdx_at_append {α : Type} (l₁ l₂ : List α) (a : α) :
    (l₁ ++ l₂).insertIdx l₁.length a = l₁ ++ a :: l₂ := by
  induction l₁ with
  | nil => simp [List.insertIdx]
  | cons x rest ih =>
    simp only [List.cons_append, List.length_cons, List.insertIdx_succ_cons, ih]

theorem add_child_spec_push (n c : Node T) (h : ¬ (n.wild_child = true ∧ 0 < n.children.length)) :
    (n.add_child c).1.children = n.children ++ [c] ∧
    (n.add_child c).2 = n.children.length := by
  simp only [Node.add_child]
  rw [if_neg h]
  simp

theorem add_child_spec_wild (n c : Node T) (cs0 : List (Node T)) (w : Node T)
    (hw : n.wild_child = true) (hdec : n.children = cs0 ++ [w]) :
    (n.add_child c).1.children = cs0 ++ c :: [w] ∧
    (n.add_child c).2 = cs0.length := by
  simp only [Node.add_child]
  rw [if_pos (⟨hw, by rw [hdec]; simp⟩ : n.wild_child = true ∧ 0 < n.children.length)]
  constructor
  · simp only [Node.children_setChildren]
    rw [hdec]
    have hlen : (cs0 ++ [w]).length - 1 = cs0.length := by simp
    rw [hlen, insertIdx_at_append]
  · rw [hdec]; simp

/-! ### `insert_child` on a fresh node preserves the invariant -/

theorem insertChildOkFresh :
    ∀ (fuel : Nat) (cur : Node T) (pfxArg route : List Byte) (v : T) (t : Node T),
      Node.insertChildF fuel cur pfxArg route v = some (t, none) →
      FreshNode cur →
      InvS t ∧ vcount t = 1 ∧ t.priority = 1 ∧ t.node_type = cur.node_type ∧
      (∀ b, pfxArg.head? = some b → b ≠ bcolon → b ≠ bstar →
        t.pfx.head? = some b) := by
  intro fuel
  induction fuel with
  | zero => intro cur p r v t h hf; simp [Node.insertChildF] at h
  | succ fuel ih =>
    intro cur p r v t h hf
    obtain ⟨hch, hidx, hval, hwild, hprio, hpfx, htype⟩ := hf
    cases cur with
    | mk p0 w0 i0 t0 v0 pf0 ch0 =>
    simp only [Node.priority_mk, Node.wild_child_mk, Node.indices_mk, Node.node_type_mk, Node.value_mk, Node.pfx_mk, Node.children_mk] at hch hidx hval hwild hprio hpfx htype
    subst hch hidx hval hwild hprio hpfx
    simp only [Node.insertChildF] at h
    split at h
    · simp at h
    · -- no wildcard: the value lands here
      rename_i hfw
      have hnw : noWildBytes p := find_wildcard_none hfw
      simp only [Option.some.injEq, Prod.mk.injEq] at h
      obtain ⟨ht, -⟩ := h
      subst ht
      simp only [Node.setValue, Node.setPfx]
      refine ⟨?_, by simp [vcount], by simp, by simp, ?_⟩
      · rw [InvS_def]
        refine ⟨⟨by simp [vcount], ?_, ?_, ?_, ?_, ?_⟩, ?_⟩
        · rcases htype with h' | h' <;>
            simp [h', indicesMatch, statics, List.Forall₂.nil]
        · intro c hc; simp [statics] at hc
        · simp
        · simp [statics]
        · rcases htype with h' | h' <;> simp [h', hnw]
        · simp [InvSL]
      · intro b hb _ _
        simpa using hb
    · -- a wildcard was found
      rename_i w wi hfw
      obtain ⟨c0, hc0get, hc0wild, hwhead, hbefore, hw1, hwle, hweq, hslash⟩ :=
        find_wildcard_some hfw
      have hsp1 : (Node.stripWildPrefix (Node.mk 1 false [] t0 (none : Option T) [] []) p wi).1 =
          Node.mk 1 false [] t0 none (p.take wi) [] := by
        simp only [Node.stripWildPrefix]
        split
        · simp [Node.setPfx]
        · rename_i h0
          have h0' : wi = 0 := by omega
          subst h0'
          simp
      have hsp2 : (Node.stripWildPrefix (Node.mk 1 false [] t0 (none : Option T) [] []) p wi).2 =
          p.drop wi := by
        simp only [Node.stripWildPrefix]
        split
        · simp
        · rename_i h0
          have h0' : wi = 0 := by omega
          subst h0'
          simp
      split at h
      · simp at h
      · rename_i hwlen
        split at h
        · -- ':' parameter
          rename_i hcolon
          simp [hsp1, hsp2, Node.setPfx, Node.dflt,
            Node.setNodeType, Node.add_child, Node.setChildren, Node.setWild,
            Node.bump, Node.setPriority, Node.setChildAt,
            Node.setValue, List.get?_cons_zero] at h
          have hPF : ∀ b, p.head? = some b → b ≠ bcolon → b ≠ bstar →
              (List.take wi p).head? = some b := by
            intro b hb hb1 hb2
            rcases Nat.eq_zero_or_pos wi with hwi | hwi
            · exfalso
              subst hwi
              rw [List.get?_eq_getElem?, ← List.head?_eq_getElem?, hb] at hc0get
              injection hc0get with hc0get
              subst hc0get
              rcases hc0wild with rfl | rfl
              · exact hb1 rfl
              · exact hb2 rfl
            · rw [List.head?_take]
              rw [if_neg (by omega)]
              exact hb
          have hPFnw : noWildBytes (List.take wi p) := hbefore
          split at h
          · -- the route continues past the parameter
            rename_i hcont
            split at h
            · simp at h
            · rename_i g' oe hrec
              simp only [Option.some.injEq, Prod.mk.injEq] at h
              obtain ⟨ht, hoe⟩ := h
              subst hoe
              subst ht
              obtain ⟨hgInv, hgv, hgp, hgt, hghead⟩ :=
                ih _ _ _ _ _ hrec ⟨rfl, rfl, rfl, rfl, rfl, rfl, Or.inl rfl⟩
              have hg'head : g'.pfx.head? = some bslash := by
                apply hghead
                · rw [List.head?_drop]
                  have := hslash (by omega)
                  rw [List.get?_eq_getElem?] at this
                  exact this
                · decide
                · decide
              refine ⟨?_, by simp [hgv], by simp, by simp, hPF⟩
              rw [InvS_def]
              refine ⟨⟨by simp [hgv], ?_, ?_, ?_, ?_, ?_⟩, ?_⟩
              · rcases htype with h' | h' <;>
                  simp [h', indicesMatch, statics, List.Forall₂.nil]
              · intro c hc; simp [statics] at hc
              · intro _
                exact ⟨Node.mk 1 false [] NodeType.Param none w [g'], by simp, Or.inl rfl⟩
              · simp [statics]
              · rcases htype with h' | h' <;> simp [h', hPFnw]
              · rw [InvSL_iff_forall]
                intro c hc
                simp at hc
                subst hc
                refine ⟨?_, by simp [hgv]⟩
                rw [InvS_def]
                refine ⟨⟨by simp [hgv], ?_, ?_, ?_, ?_, ?_⟩, ?_⟩
                · simp
                · intro c hc
                  simp [statics] at hc
                  subst hc
                  simpa using hgt
                · simp
                · simp [statics, List.chain'_singleton]
                · simp only [Node.node_type_mk]
                  refine ⟨hcolon, by simp only [Node.pfx_mk]; omega, rfl, ?_⟩
                  intro c hc
                  simp at hc
                  subst hc
                  exact hg'head
                · rw [InvSL_iff_forall]
                  intro c hc
                  simp at hc
                  subst hc
                  exact ⟨hgInv, by omega⟩
          · -- the parameter ends the route
            simp only [Option.some.injEq, Prod.mk.injEq] at h
            obtain ⟨ht, -⟩ := h
            subst ht
            refine ⟨?_, by simp [vcount], by simp, by simp, hPF⟩
            rw [InvS_def]
            refine ⟨⟨by simp [vcount], ?_, ?_, ?_, ?_, ?_⟩, ?_⟩
            · rcases htype with h' | h' <;>
                simp [h', indicesMatch, statics, List.Forall₂.nil]
            · intro c hc; simp [statics] at hc
            · intro _
              exact ⟨Node.mk 1 false [] NodeType.Param (some v) w [], by simp, Or.inl rfl⟩
            · simp [statics]
            · rcases htype with h' | h' <;> simp [h', hPFnw]
            · rw [InvSL_iff_forall]
              intro c hc
              simp at hc
              subst hc
              refine ⟨?_, by simp [vcount]⟩
              rw [InvS_def]
              refine ⟨⟨by simp [vcount], ?_, ?_, ?_, ?_, ?_⟩, ?_⟩
              · simp
              · intro c hc; simp [statics] at hc
              · simp
              · simp [statics]
              · simp only [Node.node_type_mk]
                refine ⟨hcolon, by simp only [Node.pfx_mk]; omega, rfl, ?_⟩
                intro c hc
                simp at hc
              · simp [InvSL]
        · split at h
          · -- '*' catch-all
            rename_i hstar
            split at h
            · simp at h
            · rename_i hlen_eq
              split at h
              · simp at h
              · split at h
                · simp at h
                · rename_i hnotbad
                  simp [hsp1, hsp2, Node.setPfx, Node.dflt,
                    Node.setNodeType, Node.add_child, Node.setChildren,
                    Node.setWild, Node.setPriority, Node.setValue] at h
                  subst h
                  have hPF : ∀ b, p.head? = some b → b ≠ bcolon → b ≠ bstar →
                      (List.take wi p).head? = some b := by
                    intro b hb hb1 hb2
                    rcases Nat.eq_zero_or_pos wi with hwi | hwi
                    · exfalso
                      subst hwi
                      rw [List.get?_eq_getElem?, ← List.head?_eq_getElem?, hb] at hc0get
                      injection hc0get with hc0get
                      subst hc0get
                      rcases hc0wild with rfl | rfl
                      · exact hb1 rfl
                      · exact hb2 rfl
                    · rw [List.head?_take]
                      rw [if_neg (by omega)]
                      exact hb
                  have hdrophead : (List.drop wi p).head? = some bstar := by
                    rw [List.head?_drop]
                    rw [List.get?_eq_getElem?] at hc0get
                    rw [hc0get]
                    congr 1
                    rw [hwhead] at hstar
                    injection hstar
                  have hdroplen : 2 ≤ (List.drop wi p).length := by
                    simp
                    omega
                  refine ⟨?_, by simp [vcount], by simp, by simp, hPF⟩
                  rw [InvS_def]
                  refine ⟨⟨by simp [vcount], ?_, ?_, ?_, ?_, ?_⟩, ?_⟩
                  · rcases htype with h' | h' <;>
                      simp [h', indicesMatch, statics, List.Forall₂.nil]
                  · intro c hc; simp [statics] at hc
                  · intro _
                    exact ⟨Node.mk 1 false [] NodeType.CatchAll (some v) (List.drop wi p) [],
                      by simp, Or.inr rfl⟩
                  · simp [statics]
                  · rcases htype with h' | h' <;> simp [h', hbefore]
                  · rw [InvSL_iff_forall]
                    intro c hc
                    simp at hc
                    subst hc
                    refine ⟨?_, by simp [vcount]⟩
                    rw [InvS_def]
                    refine ⟨⟨by simp [vcount], ?_, ?_, ?_, ?_, ?_⟩, ?_⟩
                    · simp [indicesMatch, statics, List.Forall₂.nil]
                    · intro c hc; simp [statics] at hc
                    · simp
                    · simp [statics]
                    · simp only [Node.node_type_mk]
                      exact ⟨hdrophead, hdroplen, rfl, by simp, rfl, rfl⟩
                    · simp [InvSL]
          · -- impossible: the token starts with ':' or '*'
            rename_i hncolon hnstar
            exfalso
            rw [hwhead] at hncolon hnstar
            rcases hc0wild with rfl | rfl
            · exact hncolon rfl
            · exact hnstar rfl

/-- Appending a wildcard child (with one value in its subtree) to a node
whose priority is pending preserves the structural invariant. -/
theorem addWildInv (p0 : Nat) (i0 : List Byte) (t0 : NodeType) (v0 : Option T)
    (pf0 : List Byte) (ch0 : List (Node T)) (wnode : Node T)
    (hpend : PendInv (Node.mk p0 false i0 t0 v0 pf0 ch0))
    (hnc : t0 ≠ NodeType.CatchAll) (hnp : t0 ≠ NodeType.Param)
    (hwInv : InvS wnode) (hwv : vcount wnode = 1)
    (hwt : wnode.node_type = NodeType.Param ∨ wnode.node_type = NodeType.CatchAll) :
    InvS (Node.mk p0 true i0 t0 v0 pf0 (ch0 ++ [wnode])) ∧
    vcount (Node.mk p0 true i0 t0 v0 pf0 (ch0 ++ [wnode])) =
      vcount (Node.mk p0 false i0 t0 v0 pf0 ch0) + 1 := by
  obtain ⟨⟨hinv2, htypes, hwc, hchain, htypearm⟩, hprio, hIL⟩ := hpend
  have ht0 : t0 = NodeType.Static ∨ t0 = NodeType.Root := by
    cases t0 <;> simp_all
  have hstat0 : statics (Node.mk p0 false i0 t0 v0 pf0 ch0) = ch0 := by
    simp [statics]
  have hstat1 : statics (Node.mk p0 true i0 t0 v0 pf0 (ch0 ++ [wnode])) = ch0 := by
    simp [statics]
  have hvc : vcount (Node.mk p0 true i0 t0 v0 pf0 (ch0 ++ [wnode])) =
      vcount (Node.mk p0 false i0 t0 v0 pf0 ch0) + 1 := by
    simp only [vcount_mk, vcountL_append, vcountL_cons, vcountL_nil, hwv]
    omega
  refine ⟨?_, hvc⟩
  rw [InvS_def]
  simp only [Node.priority_mk, Node.children_mk] at hprio hIL ⊢
  refine ⟨⟨?_, ?_, ?_, ?_, ?_, ?_⟩, ?_⟩
  · rw [hvc]
    simpa using hprio
  · rcases ht0 with h' | h' <;>
    · subst h'
      simp only [Node.node_type_mk] at hinv2 ⊢
      simp only [indicesMatch, Node.indices_mk] at hinv2 ⊢
      rw [hstat1]
      rw [hstat0] at hinv2
      exact hinv2
  · rw [hstat1]
    rw [hstat0] at htypes
    exact htypes
  · intro _
    exact ⟨wnode, by simp, hwt⟩
  · rw [hstat1]
    rw [hstat0] at hchain
    exact hchain
  · rcases ht0 with h' | h' <;>
    · subst h'
      simp only [Node.node_type_mk] at htypearm ⊢
      simpa using htypearm
  · rw [InvSL_iff_forall]
    rw [InvSL_iff_forall] at hIL
    intro cc hcc
    rcases List.mem_append.mp hcc with hcc | hcc
    · exact hIL cc hcc
    · simp at hcc
      subst hcc
      exact ⟨hwInv, by omega⟩

/-- `InvS` for a freshly built `Param` node holding the route's value. -/
theorem paramLeafInv (w : List Byte) (v : T)
    (hcolon : w.head? = some bcolon) (hwlen : ¬ w.length < 2) :
    InvS (Node.mk 1 false [] NodeType.Param (some v) w []) ∧
    vcount (Node.mk 1 false [] NodeType.Param (some v) w []) = 1 := by
  refine ⟨?_, by simp [vcount]⟩
  rw [InvS_def]
  refine ⟨⟨by simp [vcount], ?_, ?_, ?_, ?_, ?_⟩, ?_⟩
  · simp
  · intro c hc; simp [statics] at hc
  · simp
  · simp [statics]
  · simp only [Node.node_type_mk]
    refine ⟨hcolon, by simp only [Node.pfx_mk]; omega, rfl, ?_⟩
    intro c hc
    simp at hc
  · simp [InvSL]

/-- `InvS` for a freshly built `Param` node with a single continuation
child. -/
theorem paramChainInv (w : List Byte) (g' : Node T)
    (hcolon : w.head? = some bcolon) (hwlen : ¬ w.length < 2)
    (hgInv : InvS g') (hgv : vcount g' = 1) (hgt : g'.node_type = NodeType.Static)
    (hg'head : g'.pfx.head? = some bslash) :
    InvS (Node.mk 1 false [] NodeType.Param none w [g']) ∧
    vcount (Node.mk 1 false [] NodeType.Param none w [g']) = 1 := by
  refine ⟨?_, by simp [hgv]⟩
  rw [InvS_def]
  refine ⟨⟨by simp [hgv], ?_, ?_, ?_, ?_, ?_⟩, ?_⟩
  · simp
  · intro c hc
    simp [statics] at hc
    subst hc
    exact hgt
  · simp
  · simp [statics, List.chain'_singleton]
  · simp only [Node.node_type_mk]
    refine ⟨hcolon, by simp only [Node.pfx_mk]; omega, rfl, ?_⟩
    intro c hc
    simp at hc
    subst hc
    exact hg'head
  · rw [InvSL_iff_forall]
    intro c hc
    simp at hc
    subst hc
    exact ⟨hgInv, by omega⟩

/-- `InvS` for a freshly built catch-all node. -/
theorem catchAllInv (pf : List Byte) (v : T)
    (hstar : pf.head? = some bstar) (hlen : 2 ≤ pf.length) :
    InvS (Node.mk 1 false [] NodeType.CatchAll (some v) pf []) ∧
    vcount (Node.mk 1 false [] NodeType.CatchAll (some v) pf []) = 1 := by
  refine ⟨?_, by simp [vcount]⟩
  rw [InvS_def]
  refine ⟨⟨by simp [vcount], ?_, ?_, ?_, ?_, ?_⟩, ?_⟩
  · simp [indicesMatch, statics, List.Forall₂.nil]
  · intro c hc; simp [statics] at hc
  · simp
  · simp [statics]
  · simp only [Node.node_type_mk]
    exact ⟨hstar, hlen, rfl, by simp, rfl, rfl⟩
  · simp [InvSL]

/-- `insert_child` called on an existing node with a remaining pattern that
starts with a wildcard marker (the final `else` of the `'walk` loop): the
node gains a wildcard child and keeps everything else. -/
theorem insertChildOkWild (fuel : Nat) (cur : Node T) (pfxArg route : List Byte)
    (v : T) (t : Node T) (b : Byte)
    (h : Node.insertChildF fuel cur pfxArg route v = some (t, none))
    (hb : pfxArg.head? = some b) (hbw : b = bcolon ∨ b = bstar)
    (hwild : cur.wild_child = false)
    (hnc : cur.node_type ≠ NodeType.CatchAll) (hnp : cur.node_type ≠ NodeType.Param)
    (hpend : PendInv cur) :
    InvS t ∧ vcount t = vcount cur + 1 ∧ t.priority = cur.priority ∧
    t.node_type = cur.node_type ∧ t.pfx = cur.pfx := by
  cases fuel with
  | zero => simp [Node.insertChildF] at h
  | succ fuel =>
  cases cur with
  | mk p0 w0 i0 t0 v0 pf0 ch0 =>
  simp only [Node.wild_child_mk] at hwild
  subst hwild
  simp only [Node.node_type_mk] at hnc hnp
  simp only [Node.insertChildF] at h
  split at h
  · simp at h
  · -- impossible: the pattern starts with a wildcard marker
    rename_i hfw
    exfalso
    have hnw := find_wildcard_none hfw
    have hmem : b ∈ pfxArg := by
      cases pfxArg with
      | nil => simp at hb
      | cons a rest => simp at hb; simp [hb]
    have := hnw b hmem
    rcases hbw with rfl | rfl
    · exact this.1 rfl
    · exact this.2 rfl
  · rename_i w wi hfw
    obtain ⟨c0, hc0get, hc0wild, hwhead, hbefore, hw1, hwle, hweq, hslash⟩ :=
      find_wildcard_some hfw
    have hwi0 : wi = 0 := by
      by_contra hne
      have hposwi : 0 < wi := by omega
      have hmem : b ∈ pfxArg.take wi := by
        cases pfxArg with
        | nil => simp at hb
        | cons a rest =>
          simp at hb
          subst hb
          cases wi with
          | zero => omega
          | succ k => simp
      have := hbefore b hmem
      rcases hbw with rfl | rfl
      · exact this.1 rfl
      · exact this.2 rfl
    subst hwi0
    have hsp1 : (Node.stripWildPrefix (Node.mk p0 false i0 t0 v0 pf0 ch0) pfxArg 0).1 =
        Node.mk p0 false i0 t0 v0 pf0 ch0 := by
      simp [Node.stripWildPrefix]
    have hsp2 : (Node.stripWildPrefix (Node.mk p0 false i0 t0 v0 pf0 ch0) pfxArg 0).2 =
        pfxArg := by
      simp [Node.stripWildPrefix]
    split at h
    · simp at h
    · rename_i hwlen
      split at h
      · -- ':' parameter
        rename_i hcolon
        simp [hsp1, hsp2, Node.setPfx, Node.dflt, Node.setNodeType, Node.add_child,
          Node.setChildren, Node.setWild, Node.bump, Node.setPriority,
          Node.setChildAt, Node.setValue, List.get?_eq_getElem?,
          List.getElem?_concat_length] at h
        split at h
        · -- the route continues past the parameter
          rename_i hcont
          split at h
          · simp at h
          · rename_i g' oe hrec
            simp only [Option.some.injEq, Prod.mk.injEq] at h
            obtain ⟨ht, hoe⟩ := h
            subst hoe
            subst ht
            obtain ⟨hgInv, hgv, hgp, hgt, hghead⟩ :=
              insertChildOkFresh fuel _ _ route v g' hrec
                ⟨rfl, rfl, rfl, rfl, rfl, rfl, Or.inl rfl⟩
            have hg'head : g'.pfx.head? = some bslash := by
              apply hghead
              · rw [List.head?_drop]
                have := hslash (by omega)
                rw [List.get?_eq_getElem?] at this
                simpa using this
              · decide
              · decide
            obtain ⟨hpInv, hpv⟩ := paramChainInv w g' hcolon hwlen hgInv hgv
              (by simpa using hgt) hg'head
            obtain ⟨hInv, hvc⟩ := addWildInv p0 i0 t0 v0 pf0 ch0 _ hpend hnc hnp
              hpInv hpv (Or.inl rfl)
            exact ⟨hInv, hvc, by simp, by simp, by simp⟩
        · -- the parameter ends the route
          simp only [Option.some.injEq, Prod.mk.injEq] at h
          obtain ⟨ht, -⟩ := h
          subst ht
          obtain ⟨hpInv, hpv⟩ := paramLeafInv w v hcolon hwlen
          obtain ⟨hInv, hvc⟩ := addWildInv p0 i0 t0 v0 pf0 ch0 _ hpend hnc hnp
            hpInv hpv (Or.inl rfl)
          exact ⟨hInv, hvc, by simp, by simp, by simp⟩
      · split at h
        · -- '*' catch-all
          rename_i hstar
          split at h
          · simp at h
          · rename_i hlen_eq
            split at h
            · simp at h
            · split at h
              · simp at h
              · rename_i hnotbad
                simp [hsp1, hsp2, Node.setPfx, Node.dflt, Node.setNodeType,
                  Node.add_child, Node.setChildren, Node.setWild,
                  Node.setPriority, Node.setValue] at h
                subst h
                have hpfhead : pfxArg.head? = some bstar := by
                  rw [hb]
                  congr 1
                  rw [List.get?_eq_getElem?, ← List.head?_eq_getElem?, hb] at hc0get
                  injection hc0get with hc0get
                  rw [hwhead] at hstar
                  injection hstar with hstar
                  exact hc0get.trans hstar
                have hpflen : 2 ≤ pfxArg.length := by
                  simp only [Nat.zero_add, Decidable.not_not] at hlen_eq
                  rw [← hlen_eq]
                  omega
                obtain ⟨hcInv, hcv⟩ := catchAllInv pfxArg v hpfhead hpflen
                obtain ⟨hInv, hvc⟩ := addWildInv p0 i0 t0 v0 pf0 ch0 _ hpend hnc hnp
                  hcInv hcv (Or.inr rfl)
                exact ⟨hInv, hvc, by simp, by simp, by simp⟩
        · rename_i hncolon hnstar
          exfalso
          rw [hwhead] at hncolon hnstar
          rcases hc0wild with rfl | rfl
          · exact hncolon rfl
          · exact hnstar rfl

/-! ### List utilities for the insertion proof -/

theorem head?_eq_headD {α : Type} (l : List α) (d : α) (h : l ≠ []) :
    l.head? = some (l.headD d) := by
  cases l with
  | nil => exact absurd rfl h
  | cons a t => rfl

theorem getElem?_dropLast' {α : Type} (l : List α) (k : Nat) (hk : k < l.length - 1) :
    l.dropLast[k]? = l[k]? := by
  rw [List.dropLast_eq_take, List.getElem?_take, if_pos hk]

theorem set_middle_append {α : Type} (A : List α) (a b : α) (B : List α) :
    ((A ++ a :: B).set A.length b) = A ++ b :: B := by
  induction A with
  | nil => rfl
  | cons x t ih => simp only [List.cons_append, List.length_cons, List.set_cons_succ, ih]

theorem mem_of_getElem?_eq {α : Type} {l : List α} {k : Nat} {a : α}
    (h : l[k]? = some a) : a ∈ l := by
  induction l generalizing k with
  | nil => simp at h
  | cons x t ih =>
    cases k with
    | zero => simp at h; simp [h]
    | succ j =>
      rw [List.getElem?_cons_succ] at h
      exact List.mem_cons_of_mem x (ih h)

/-! ### `commonPrefixLen` characterization -/

theorem commonPrefixLen_le_left : ∀ (a b : List Byte), commonPrefixLen a b ≤ a.length := by
  intro a
  induction a with
  | nil => intro b; cases b <;> simp [commonPrefixLen]
  | cons x t ih =>
    intro b
    cases b with
    | nil => simp [commonPrefixLen]
    | cons y s =>
      simp only [commonPrefixLen]
      split
      · simp only [List.length_cons]
        exact Nat.succ_le_succ (ih s)
      · simp

theorem commonPrefixLen_le_right : ∀ (a b : List Byte), commonPrefixLen a b ≤ b.length := by
  intro a
  induction a with
  | nil => intro b; cases b <;> simp [commonPrefixLen]
  | cons x t ih =>
    intro b
    cases b with
    | nil => simp [commonPrefixLen]
    | cons y s =>
      simp only [commonPrefixLen]
      split
      · simp only [List.length_cons]
        exact Nat.succ_le_succ (ih s)
      · simp

theorem commonPrefixLen_take_eq : ∀ (a b : List Byte),
    a.take (commonPrefixLen a b) = b.take (commonPrefixLen a b) := by
  intro a
  induction a with
  | nil => intro b; cases b <;> simp [commonPrefixLen]
  | cons x t ih =>
    intro b
    cases b with
    | nil => simp [commonPrefixLen]
    | cons y s =>
      simp only [commonPrefixLen]
      split
      · rename_i hxy
        simp only [List.take_succ_cons, hxy, ih s]
      · simp

theorem commonPrefixLen_of_prefix : ∀ (b a : List Byte), b <+: a →
    commonPrefixLen a b = b.length := by
  intro b
  induction b with
  | nil => intro a _; cases a <;> simp [commonPrefixLen]
  | cons y s ih =>
    intro a hpre
    obtain ⟨r, hr⟩ := hpre
    subst hr
    simp only [List.cons_append, commonPrefixLen, List.length_cons]
    rw [if_pos trivial]
    rw [ih (s.append r) ⟨r, rfl⟩]

theorem commonPrefixLen_pos (a b : List Byte) (c : Byte)
    (ha : a.head? = some c) (hb : b.head? = some c) : 1 ≤ commonPrefixLen a b := by
  cases a with
  | nil => simp at ha
  | cons x t =>
    cases b with
    | nil => simp at hb
    | cons y s =>
      simp only [List.head?_cons, Option.some.injEq] at ha hb
      subst ha
      subst hb
      simp only [commonPrefixLen]
      rw [if_pos trivial]
      omega

/-! ### Invariant transparencies and accessors -/

theorem localInvX_bump {n : Node T} : localInvX n.bump ↔ localInvX n := by
  cases n; exact Iff.rfl

theorem PendInv_bump (n : Node T) (h : InvS n) : PendInv n.bump := by
  rw [InvS_def] at h
  obtain ⟨⟨hpe, hX⟩, hL⟩ := h
  refine ⟨localInvX_bump.mpr hX, ?_, ?_⟩
  · simp [hpe]
  · simpa using hL

theorem statics_length_le (n : Node T) : (statics n).length ≤ n.children.length := by
  unfold statics
  split
  · simp only [List.length_dropLast]; omega
  · exact Nat.le_refl _

theorem statics_length_wild (n : Node T) (h : n.wild_child = true) :
    (statics n).length = n.children.length - 1 := by
  unfold statics
  rw [if_pos h, List.length_dropLast]

theorem statics_eq_children (n : Node T) (h : n.wild_child = false) :
    statics n = n.children := by
  unfold statics
  rw [h]
  simp

theorem statics_getElem? (n : Node T) (k : Nat) (hk : k < (statics n).length) :
    (statics n)[k]? = n.children[k]? := by
  unfold statics at hk ⊢
  split at hk
  · rename_i hw
    rw [if_pos hw]
    rw [List.length_dropLast] at hk
    exact getElem?_dropLast' _ _ hk
  · rename_i hw
    rw [if_neg hw]

theorem indicesMatch_spec {n : Node T} (h : indicesMatch n) :
    n.indices.length = (statics n).length ∧
    ∀ (k : Nat) (bk : Byte), n.indices[k]? = some bk →
      ∃ yk : Node T, n.children[k]? = some yk ∧ yk.pfx.head? = some bk := by
  unfold indicesMatch at h
  have hlen := h.length_eq
  rw [List.forall₂_iff_get] at h
  refine ⟨hlen, ?_⟩
  intro k bk hb
  have hk : k < n.indices.length := by
    by_contra hcon
    rw [List.getElem?_eq_none (by omega)] at hb
    simp at hb
  have hk2 : k < (statics n).length := by omega
  have hget := h.2 k hk hk2
  have hb' : n.indices.get ⟨k, hk⟩ = bk := by
    rw [List.getElem?_eq_getElem hk] at hb
    injection hb
  refine ⟨(statics n).get ⟨k, hk2⟩, ?_, ?_⟩
  · rw [← statics_getElem? n k hk2]
    exact List.getElem?_eq_getElem hk2
  · rw [← hb']
    exact hget

theorem WInvL_iff_forall {cs : List (Node T)} :
    WInvL cs ↔ ∀ c ∈ cs, WInv c := by
  induction cs with
  | nil => simp [WInvL]
  | cons a l ih => rw [WInvL]; simp [ih]

theorem WInv_def (n : Node T) : WInv n = (localInvX n ∧ WInvL n.children) := by
  cases n; rw [WInv]; rfl

theorem InvS_WInv : ∀ (n : Node T), InvS n → WInv n := by
  intro n
  induction n using node_size_induction with
  | _ n ih =>
    intro h
    rw [InvS_def] at h
    rw [WInv_def]
    refine ⟨h.1.2, ?_⟩
    rw [WInvL_iff_forall]
    rw [InvSL_iff_forall] at h
    intro c hc
    exact ih c hc (h.2 c hc).1

/-! ### The node split step preserves the pending invariant -/

theorem splitNode_pfx (cur : Node T) (common : Nat) (p : List Byte) :
    (cur.splitNode common p).pfx = p.take common := by
  simp [Node.splitNode]

theorem splitNode_wild (cur : Node T) (common : Nat) (p : List Byte) :
    (cur.splitNode common p).wild_child = false := by
  simp [Node.splitNode]

theorem splitNodePend (cur : Node T) (common : Nat) (pfxArg : List Byte)
    (hpend : PendInv cur) (hv1 : 1 ≤ vcount cur)
    (ht : cur.node_type = NodeType.Static ∨ cur.node_type = NodeType.Root)
    (hlt : common < cur.pfx.length)
    (hagree : pfxArg.take common = cur.pfx.take common) :
    PendInv (cur.splitNode common pfxArg) ∧
    vcount (cur.splitNode common pfxArg) = vcount cur := by
  cases cur with
  | mk p0 w0 i0 t0 v0 pf0 ch0 =>
  obtain ⟨hX, hpe, hIL⟩ := hpend
  obtain ⟨hinv2, htypes, hwc, hchain, htarm⟩ := hX
  simp only [Node.node_type_mk] at ht
  simp only [Node.pfx_mk] at hlt hagree
  simp only [Node.priority_mk, vcount_mk] at hpe
  simp only [vcount_mk] at hv1
  simp only [Node.children_mk] at hIL
  have hnw : noWildBytes pf0 := by
    rcases ht with h' | h' <;> (subst h'; exact htarm)
  have hsplit : (Node.mk p0 w0 i0 t0 v0 pf0 ch0).splitNode common pfxArg =
      Node.mk p0 false ((pf0.drop common).take 1) t0 none (pfxArg.take common)
        [Node.mk (p0 - 1) w0 i0 NodeType.Static v0 (pf0.drop common) ch0] := by
    simp [Node.splitNode, Node.setChildren, Node.setIndices, Node.setPfx,
      Node.setWild, Node.setValue]
  rw [hsplit]
  obtain ⟨hd, td, hdec⟩ : ∃ hd td, pf0.drop common = hd :: td := by
    cases hcase : pf0.drop common with
    | nil =>
      exfalso
      have : (pf0.drop common).length = 0 := by rw [hcase]; rfl
      rw [List.length_drop] at this
      omega
    | cons a b => exact ⟨a, b, rfl⟩
  have hchildInv : InvS (Node.mk (p0 - 1) w0 i0 NodeType.Static v0 (pf0.drop common) ch0) := by
    rw [InvS_def]
    refine ⟨⟨?_, ?_, ?_, ?_, ?_, ?_⟩, ?_⟩
    · simp only [Node.priority_mk, vcount_mk]
      omega
    · rcases ht with h' | h' <;> (subst h'; exact hinv2)
    · exact htypes
    · exact hwc
    · exact hchain
    · simp only [Node.node_type_mk, Node.pfx_mk]
      exact fun b hb => hnw b (List.drop_subset _ _ hb)
    · exact hIL
  have hchildv : vcount (Node.mk (p0 - 1) w0 i0 NodeType.Static v0 (pf0.drop common) ch0) =
      (if v0.isSome then 1 else 0) + vcountL ch0 := by
    simp only [vcount_mk]
  refine ⟨⟨⟨?_, ?_, ?_, ?_, ?_⟩, ?_, ?_⟩, ?_⟩
  · -- invariant 2: the single index byte heads the single child
    have hgoal : indicesMatch (Node.mk p0 false ((pf0.drop common).take 1) t0 none
        (pfxArg.take common)
        [Node.mk (p0 - 1) w0 i0 NodeType.Static v0 (pf0.drop common) ch0]) := by
      unfold indicesMatch
      simp only [Node.indices_mk, statics, Node.wild_child_mk, Node.children_mk]
      rw [if_neg (by simp)]
      rw [hdec]
      simp only [List.take_succ_cons, List.take_zero]
      refine List.Forall₂.cons ?_ List.Forall₂.nil
      simp [hdec]
    rcases ht with h' | h' <;> (subst h'; exact hgoal)
  · intro c hc
    simp only [statics, Node.wild_child_mk, Node.children_mk] at hc
    rw [if_neg (by simp)] at hc
    simp at hc
    subst hc
    rfl
  · intro hcon
    simp at hcon
  · simp only [statics, Node.wild_child_mk, Node.children_mk]
    rw [if_neg (by simp)]
    exact List.chain'_singleton _
  · rcases ht with h' | h' <;>
    · subst h'
      simp only [Node.node_type_mk, Node.pfx_mk]
      rw [hagree]
      exact fun b hb => hnw b (List.take_subset _ _ hb)
  · simp only [Node.priority_mk, vcount_mk, vcountL_cons, vcountL_nil, hchildv,
      Option.isSome_none, show (if (false : Bool) = true then (1:Nat) else 0) = 0 from rfl]
    omega
  · simp only [Node.children_mk]
    rw [InvSL_iff_forall]
    intro c hc
    simp at hc
    subst hc
    refine ⟨hchildInv, ?_⟩
    rw [hchildv]
    omega
  · simp only [vcount_mk, vcountL_cons, vcountL_nil, hchildv, Option.isSome_none,
      show (if (false : Bool) = true then (1:Nat) else 0) = 0 from rfl]
    omega

theorem maybeSplitPend (cur : Node T) (pfxArg : List Byte)
    (hpend : PendInv cur) (hv1 : 1 ≤ vcount cur)
    (hnc : cur.node_type ≠ NodeType.CatchAll)
    (hpp : cur.node_type = NodeType.Param → cur.pfx <+: pfxArg) :
    PendInv (Node.maybeSplit cur (commonPrefixLen pfxArg cur.pfx) pfxArg) ∧
    vcount (Node.maybeSplit cur (commonPrefixLen pfxArg cur.pfx) pfxArg) = vcount cur ∧
    (∀ b : Byte, pfxArg.head? = some b → cur.pfx.head? = some b →
      (Node.maybeSplit cur (commonPrefixLen pfxArg cur.pfx) pfxArg).pfx.head? = some b) := by
  unfold Node.maybeSplit
  split
  · rename_i hlt
    have ht : cur.node_type = NodeType.Static ∨ cur.node_type = NodeType.Root := by
      cases hcase : cur.node_type with
      | Static => exact Or.inl rfl
      | Root => exact Or.inr rfl
      | CatchAll => exact absurd hcase hnc
      | Param =>
        exfalso
        have := commonPrefixLen_of_prefix cur.pfx pfxArg (hpp hcase)
        omega
    obtain ⟨h1, h2⟩ := splitNodePend cur _ pfxArg hpend hv1 ht hlt
      (commonPrefixLen_take_eq pfxArg cur.pfx)
    refine ⟨h1, h2, ?_⟩
    intro b hb1 hb2
    rw [splitNode_pfx]
    rw [List.head?_take]
    have hpos := commonPrefixLen_pos pfxArg cur.pfx b hb1 hb2
    rw [if_neg (by omega)]
    exact hb1
  · exact ⟨hpend, rfl, fun b _ hb => hb⟩

/-! ### Index-based access utilities -/

theorem lt_length_of_getElem? {α : Type} {l : List α} {k : Nat} {a : α}
    (h : l[k]? = some a) : k < l.length := by
  by_contra hcon
  rw [List.getElem?_eq_none (by omega)] at h
  simp at h

theorem getElem?_some_get {α : Type} {l : List α} {k : Nat} {a : α}
    (h : l[k]? = some a) (hk : k < l.length) : l.get ⟨k, hk⟩ = a := by
  rw [List.get_eq_getElem]
  rw [List.getElem?_eq_getElem hk] at h
  injection h

theorem exists_getElem?_of_mem {α : Type} {l : List α} {a : α} (h : a ∈ l) :
    ∃ k : Nat, l[k]? = some a := by
  obtain ⟨⟨k, hk⟩, hget⟩ := List.mem_iff_get.mp h
  refine ⟨k, ?_⟩
  rw [List.getElem?_eq_getElem hk, ← hget, List.get_eq_getElem]

theorem forall₂_of_getElem? {α β : Type} {R : α → β → Prop} {l₁ : List α} {l₂ : List β}
    (hlen : l₁.length = l₂.length)
    (h : ∀ (k : Nat) (a : α) (b : β), l₁[k]? = some a → l₂[k]? = some b → R a b) :
    List.Forall₂ R l₁ l₂ := by
  rw [List.forall₂_iff_get]
  refine ⟨hlen, ?_⟩
  intro k hk1 hk2
  apply h k
  · rw [List.getElem?_eq_getElem hk1, List.get_eq_getElem]
  · rw [List.getElem?_eq_getElem hk2, List.get_eq_getElem]

theorem forall₂_rel {α β : Type} {R : α → β → Prop} {l₁ : List α} {l₂ : List β}
    (h : List.Forall₂ R l₁ l₂) {k : Nat} {a : α} {b : β}
    (ha : l₁[k]? = some a) (hb : l₂[k]? = some b) : R a b := by
  rw [List.forall₂_iff_get] at h
  have hk1 := lt_length_of_getElem? ha
  have hk2 := lt_length_of_getElem? hb
  have h0 := h.2 k hk1 hk2
  rw [getElem?_some_get ha hk1, getElem?_some_get hb hk2] at h0
  exact h0

theorem chain'_of_getElem? {α : Type} {R : α → α → Prop} {l : List α}
    (h : ∀ (k : Nat) (a b : α), l[k]? = some a → l[k+1]? = some b → R a b) :
    List.Chain' R l := by
  rw [List.chain'_iff_get]
  intro k hk
  apply h k
  · rw [List.getElem?_eq_getElem (show k < l.length by omega), List.get_eq_getElem]
  · rw [List.getElem?_eq_getElem (show k + 1 < l.length by omega), List.get_eq_getElem]

theorem chain'_rel {α : Type} {R : α → α → Prop} {l : List α} (h : List.Chain' R l)
    {k : Nat} {a b : α} (ha : l[k]? = some a) (hb : l[k+1]? = some b) : R a b := by
  rw [List.chain'_iff_get] at h
  have hk1 := lt_length_of_getElem? hb
  have h0 := h k (by omega)
  rw [getElem?_some_get ha (by omega), getElem?_some_get hb hk1] at h0
  exact h0

theorem rot_set {α : Type} (cs : List α) (x y : α) (u i : Nat) (hu : u ≤ i)
    (hi : i < cs.length) :
    (cs.take u ++ x :: ((cs.drop u).take (i - u)) ++ cs.drop (i+1)).set u y =
      cs.take u ++ y :: ((cs.drop u).take (i - u)) ++ cs.drop (i+1) := by
  apply List.ext_getElem?
  intro k
  rw [List.getElem?_set]
  by_cases hk : u = k
  · subst hk
    rw [if_pos rfl]
    rw [rot_length cs x u i hu hi]
    rw [if_pos (by omega)]
    rw [rot_getElem? cs y u i u hu hi]
    rw [if_neg (by omega), if_pos rfl]
  · rw [if_neg hk]
    rw [rot_getElem? cs x u i k hu hi, rot_getElem? cs y u i k hu hi]
    by_cases h1 : k < u
    · rw [if_pos h1, if_pos h1]
    · rw [if_neg h1, if_neg h1]
      rw [if_neg (show ¬ (k = u) from fun h => hk h.symm),
        if_neg (show ¬ (k = u) from fun h => hk h.symm)]

/-! ### Reattaching a re-inserted child through `update_child_priority` -/

/-- The shared correctness argument for the two `'walk'` branches that call
`update_child_priority` and then replace the moved child with the node
returned by a recursive insertion: the structural invariant is restored
around the rotated child lists. -/
theorem reattachInv (n : Node T) (i : Nat) (x c' : Node T) (next : Byte)
    (hx : n.children[i]? = some x)
    (hidx : n.indices[i]? = some next)
    (hlen : n.indices.length = (statics n).length)
    (hstat : i < (statics n).length)
    (hpairs : ∀ (k : Nat) (bk : Byte) (yk : Node T), k ≠ i → n.indices[k]? = some bk →
      n.children[k]? = some yk → yk.pfx.head? = some bk ∧ yk.node_type = NodeType.Static)
    (hmem : ∀ (k : Nat) (y : Node T), k ≠ i → n.children[k]? = some y →
      InvS y ∧ 1 ≤ vcount y)
    (hchain : List.Chain' (fun a b : Node T => b.priority ≤ a.priority) (statics n))
    (hw : n.wild_child = true → ∃ w, n.children.getLast? = some w ∧
      (w.node_type = NodeType.Param ∨ w.node_type = NodeType.CatchAll))
    (hta2 : n.node_type = NodeType.Static ∨ n.node_type = NodeType.Root →
      noWildBytes n.pfx)
    (htaP : n.node_type = NodeType.Param → n.pfx.head? = some bcolon ∧
      2 ≤ n.pfx.length ∧ n.wild_child = false ∧ n.children.length ≤ 1 ∧ next = bslash)
    (hnc : n.node_type ≠ NodeType.CatchAll)
    (hpe : n.priority = vcount n + 1)
    (hc' : InvS c') (hcv : vcount c' = vcount x + 1) (hcp : c'.priority = x.priority + 1)
    (hct : c'.node_type = NodeType.Static) (hch : c'.pfx.head? = some next) :
    InvS ((n.update_child_priority i).1.setChildAt (n.update_child_priority i).2 c') ∧
    vcount ((n.update_child_priority i).1.setChildAt (n.update_child_priority i).2 c') =
      vcount n + 1 ∧
    ((n.update_child_priority i).1.setChildAt (n.update_child_priority i).2 c').priority =
      n.priority ∧
    ((n.update_child_priority i).1.setChildAt (n.update_child_priority i).2 c').node_type =
      n.node_type ∧
    ((n.update_child_priority i).1.setChildAt (n.update_child_priority i).2 c').pfx =
      n.pfx := by
  obtain ⟨u, hu, h2, h3, hIdx, h4, h5⟩ := update_child_priority_spec n i x hx
  have hilen : i < n.children.length := lt_length_of_getElem? hx
  have hblen : i < n.indices.length := lt_length_of_getElem? hidx
  have hidxrot := hIdx next hidx
  set t := (n.update_child_priority i).1.setChildAt (n.update_child_priority i).2 c' with ht
  have htch : t.children = n.children.take u ++ c' :: ((n.children.drop u).take (i - u))
      ++ n.children.drop (i+1) := by
    rw [ht]
    simp only [Node.children_setChildAt]
    rw [h3, h2]
    exact rot_set n.children x.bump c' u i hu hilen
  have htidx : t.indices = n.indices.take u ++ next :: ((n.indices.drop u).take (i - u))
      ++ n.indices.drop (i+1) := by
    rw [ht]
    simp only [Node.indices_setChildAt]
    exact hidxrot
  have hcg : ∀ k : Nat, t.children[k]? =
      if k < u then n.children[k]? else if k = u then some c'
      else if k ≤ i then n.children[k-1]? else n.children[k]? := by
    intro k
    rw [htch]
    exact rot_getElem? n.children c' u i k hu hilen
  have hig : ∀ k : Nat, t.indices[k]? =
      if k < u then n.indices[k]? else if k = u then some next
      else if k ≤ i then n.indices[k-1]? else n.indices[k]? := by
    intro k
    rw [htidx]
    exact rot_getElem? n.indices next u i k hu hblen
  have hclen : t.children.length = n.children.length := by
    rw [htch]; exact rot_length n.children c' u i hu hilen
  have hilen2 : t.indices.length = n.indices.length := by
    rw [htidx]; exact rot_length n.indices next u i hu hblen
  have htw : t.wild_child = n.wild_child := by rw [ht]; simp
  have htpr : t.priority = n.priority := by rw [ht]; simp
  have htty : t.node_type = n.node_type := by rw [ht]; simp
  have htpf : t.pfx = n.pfx := by rw [ht]; simp
  have htv : t.value = n.value := by rw [ht]; simp
  have hstl : (statics t).length = (statics n).length := by
    unfold statics
    rw [htw]
    split <;> simp [hclen]
  have hstg : ∀ k : Nat, k < (statics t).length → (statics t)[k]? = t.children[k]? :=
    fun k hk => statics_getElem? t k hk
  have hsng : ∀ k : Nat, k < (statics n).length → (statics n)[k]? = n.children[k]? :=
    fun k hk => statics_getElem? n k hk
  -- value count
  have hxi : n.children[i] = x := by
    rw [List.getElem?_eq_getElem hilen] at hx
    injection hx
  have htake : n.children.take u ++ (n.children.drop u).take (i - u) =
      n.children.take i := by
    rw [← List.take_add]
    congr 1
    omega
  have hvcn : vcountL n.children = vcountL (n.children.take u) +
      vcountL ((n.children.drop u).take (i - u)) + vcount x +
      vcountL (n.children.drop (i+1)) := by
    conv_lhs => rw [← List.take_append_drop i n.children]
    rw [List.drop_eq_getElem_cons hilen, hxi, vcountL_append, vcountL_cons, ← htake,
      vcountL_append]
    omega
  have hvt : vcount t = vcount n + 1 := by
    rw [vcount_children t, vcount_children n, htch, htv]
    simp only [vcountL_append, vcountL_cons]
    omega
  -- invariant 2
  have him : indicesMatch t := by
    unfold indicesMatch
    apply forall₂_of_getElem?
    · rw [hilen2, hlen, hstl]
    · intro k bk yk hbk hyk
      have hks : k < (statics t).length := lt_length_of_getElem? hyk
      rw [hstg k hks] at hyk
      rw [hig k] at hbk
      rw [hcg k] at hyk
      by_cases b1 : k < u
      · rw [if_pos b1] at hbk hyk
        exact (hpairs k bk yk (by omega) hbk hyk).1
      · rw [if_neg b1] at hbk hyk
        by_cases b2 : k = u
        · rw [if_pos b2] at hbk hyk
          injection hbk with hbk
          injection hyk with hyk
          subst hbk
          subst hyk
          exact hch
        · rw [if_neg b2] at hbk hyk
          by_cases b3 : k ≤ i
          · rw [if_pos b3] at hbk hyk
            exact (hpairs (k-1) bk yk (by omega) hbk hyk).1
          · rw [if_neg b3] at hbk hyk
            exact (hpairs k bk yk (by omega) hbk hyk).1
  -- static children keep type `Static`
  have hsty : ∀ c ∈ statics t, c.node_type = NodeType.Static := by
    intro c hcmem
    obtain ⟨k, hkc⟩ := exists_getElem?_of_mem hcmem
    have hks := lt_length_of_getElem? hkc
    rw [hstg k hks] at hkc
    rw [hcg k] at hkc
    have hkidx : k < n.indices.length := by
      rw [hlen, ← hstl]
      exact hks
    by_cases b1 : k < u
    · rw [if_pos b1] at hkc
      obtain ⟨bk, hbk⟩ : ∃ bk, n.indices[k]? = some bk :=
        ⟨_, List.getElem?_eq_getElem (by omega)⟩
      exact (hpairs k bk c (by omega) hbk hkc).2
    · rw [if_neg b1] at hkc
      by_cases b2 : k = u
      · rw [if_pos b2] at hkc
        injection hkc with hkc
        subst hkc
        exact hct
      · rw [if_neg b2] at hkc
        by_cases b3 : k ≤ i
        · rw [if_pos b3] at hkc
          obtain ⟨bk, hbk⟩ : ∃ bk, n.indices[k-1]? = some bk :=
            ⟨_, List.getElem?_eq_getElem (by omega)⟩
          exact (hpairs (k-1) bk c (by omega) hbk hkc).2
        · rw [if_neg b3] at hkc
          obtain ⟨bk, hbk⟩ : ∃ bk, n.indices[k]? = some bk :=
            ⟨_, List.getElem?_eq_getElem (by omega)⟩
          exact (hpairs k bk c (by omega) hbk hkc).2
  -- wildcard arm
  have hwild : t.wild_child = true → ∃ w, t.children.getLast? = some w ∧
      (w.node_type = NodeType.Param ∨ w.node_type = NodeType.CatchAll) := by
    intro hwt
    rw [htw] at hwt
    obtain ⟨w, hwlast, hwty⟩ := hw hwt
    refine ⟨w, ?_, hwty⟩
    rw [List.getLast?_eq_getElem?] at hwlast ⊢
    rw [hclen, hcg (n.children.length - 1)]
    have hi2 : i < n.children.length - 1 := by
      have := statics_length_wild n hwt
      omega
    rw [if_neg (by omega), if_neg (by omega), if_neg (by omega)]
    exact hwlast
  -- priority ordering of the statics
  have hold : ∀ (k1 : Nat) (y z : Node T), k1 + 1 < (statics n).length →
      n.children[k1]? = some y → n.children[k1+1]? = some z →
      z.priority ≤ y.priority := by
    intro k1 y z hk1 hy hz
    exact chain'_rel hchain (k := k1)
      (by rw [hsng k1 (by omega)]; exact hy)
      (by rw [hsng (k1+1) hk1]; exact hz)
  have hold2 : ∀ (k1 : Nat) (y z : Node T), k1 + 2 < (statics n).length →
      n.children[k1]? = some y → n.children[k1+2]? = some z →
      z.priority ≤ y.priority := by
    intro k1 y z hk2 hy hz
    have hmlt : k1 + 1 < n.children.length := by
      have := statics_length_le n
      omega
    obtain ⟨m, hm⟩ : ∃ m, n.children[k1+1]? = some m :=
      ⟨_, List.getElem?_eq_getElem hmlt⟩
    exact le_trans
      (hold (k1+1) m z (by omega) hm (by rw [show k1 + 1 + 1 = k1 + 2 by omega]; exact hz))
      (hold k1 y m (by omega) hy hm)
  have hcha : List.Chain' (fun a b : Node T => b.priority ≤ a.priority) (statics t) := by
    apply chain'_of_getElem?
    intro k a b hka hkb
    have hkb1 := lt_length_of_getElem? hkb
    have hka1 := lt_length_of_getElem? hka
    rw [hstg _ hka1] at hka
    rw [hstg _ hkb1] at hkb
    rw [hcg k] at hka
    rw [hcg (k+1)] at hkb
    have hksn : k + 1 < (statics n).length := by rw [← hstl]; exact hkb1
    by_cases b1 : k + 1 < u
    · rw [if_pos (by omega)] at hka
      rw [if_pos b1] at hkb
      exact hold k a b (by omega) hka hkb
    · by_cases b2 : k + 1 = u
      · rw [if_pos (by omega)] at hka
        rw [if_neg b1, if_pos b2] at hkb
        injection hkb with hkb
        subst hkb
        have h5a := h5 a (by omega) (by rw [show u - 1 = k by omega]; exact hka)
        rw [hcp]
        omega
      · by_cases b3 : k = u
        · rw [if_neg (by omega), if_pos b3] at hka
          injection hka with hka
          subst hka
          rw [if_neg b1, if_neg (by omega)] at hkb
          by_cases b4 : k + 1 ≤ i
          · rw [if_pos b4] at hkb
            have hkb' : n.children[k]? = some b := by
              rw [show k + 1 - 1 = k by omega] at hkb
              exact hkb
            have h4a := h4 k b (by omega) (by omega) hkb'
            rw [hcp]
            omega
          · rw [if_neg b4] at hkb
            have hui : u = i := by omega
            have hb' := hold i x b (by omega)
              hx (by rw [show i + 1 = k + 1 by omega]; exact hkb)
            rw [hcp]
            omega
        · rw [if_neg (by omega), if_neg b3] at hka
          by_cases b4 : k ≤ i
          · rw [if_pos b4] at hka
            by_cases b5 : k + 1 ≤ i
            · rw [if_neg b1, if_neg (by omega), if_pos b5] at hkb
              have hkb' : n.children[k-1+1]? = some b := by
                rw [show k - 1 + 1 = k by omega]
                rw [show k + 1 - 1 = k by omega] at hkb
                exact hkb
              exact hold (k-1) a b (by omega) hka hkb'
            · rw [if_neg b1, if_neg (by omega), if_neg b5] at hkb
              have hkb' : n.children[k-1+2]? = some b := by
                rw [show k - 1 + 2 = k + 1 by omega]
                exact hkb
              exact hold2 (k-1) a b (by omega) hka hkb'
          · rw [if_neg b4] at hka
            rw [if_neg b1, if_neg (by omega), if_neg (by omega)] at hkb
            exact hold k a b (by omega) hka hkb
  -- children invariants
  have hIL : InvSL t.children := by
    rw [InvSL_iff_forall]
    intro c hcmem
    obtain ⟨k, hkc⟩ := exists_getElem?_of_mem hcmem
    rw [hcg k] at hkc
    by_cases b1 : k < u
    · rw [if_pos b1] at hkc
      exact hmem k c (by omega) hkc
    · rw [if_neg b1] at hkc
      by_cases b2 : k = u
      · rw [if_pos b2] at hkc
        injection hkc with hkc
        subst hkc
        exact ⟨hc', by omega⟩
      · rw [if_neg b2] at hkc
        by_cases b3 : k ≤ i
        · rw [if_pos b3] at hkc
          exact hmem (k-1) c (by omega) hkc
        · rw [if_neg b3] at hkc
          exact hmem k c (by omega) hkc
  refine ⟨?_, hvt, htpr, htty, htpf⟩
  rw [InvS_def]
  refine ⟨⟨?_, ?_, hsty, hwild, hcha, ?_⟩, hIL⟩
  · rw [htpr, hpe, hvt]
  · -- invariant-2 arm
    rw [htty]
    cases hcase : n.node_type with
    | Param =>
      have hP := htaP hcase
      exact ⟨by rw [hclen]; exact hP.2.2.2.1, Or.inr him⟩
    | Static => exact him
    | Root => exact him
    | CatchAll => exact absurd hcase hnc
  · -- node-type arm
    rw [htty]
    cases hcase : n.node_type with
    | Static =>
      rw [htpf]
      exact hta2 (Or.inl hcase)
    | Root =>
      rw [htpf]
      exact hta2 (Or.inr hcase)
    | CatchAll => exact absurd hcase hnc
    | Param =>
      obtain ⟨hcolon, hl2, hwf, hle1, hnextsl⟩ := htaP hcase
      refine ⟨by rw [htpf]; exact hcolon, by rw [htpf]; exact hl2,
        by rw [htw]; exact hwf, ?_⟩
      have hlen1 : n.children.length = 1 := by omega
      have hi0 : i = 0 := by omega
      have hu0 : u = 0 := by omega
      obtain ⟨a, ha⟩ := List.length_eq_one.mp hlen1
      have hax : a = x := by
        rw [ha, hi0] at hx
        simp at hx
        exact hx
      have htc1 : t.children = [c'] := by
        rw [htch, hu0, hi0, ha, hax]
        simp
      rw [htc1]
      intro c hc
      simp at hc
      subst hc
      rw [hch, hnextsl]

/-! ### Small glue lemmas for the `'walk'` induction -/

theorem statics_setValue (n : Node T) (v : Option T) :
    statics (n.setValue v) = statics n := by
  cases n; rfl

theorem indicesMatch_setValue {n : Node T} {v : Option T} :
    indicesMatch (n.setValue v) ↔ indicesMatch n := by
  cases n; exact Iff.rfl

theorem statics_subset (n : Node T) : statics n ⊆ n.children := by
  unfold statics
  split
  · exact List.dropLast_subset _
  · exact fun a ha => ha

theorem eq_dropLast_concat_of_getLast? {α : Type} {l : List α} {a : α}
    (h : l.getLast? = some a) : l = l.dropLast ++ [a] := by
  have hne : l ≠ [] := by
    intro hc
    subst hc
    simp at h
  have hcat := List.dropLast_append_getLast hne
  rw [List.getLast?_eq_getLast l hne] at h
  injection h with h
  rw [h] at hcat
  exact hcat.symm

theorem getElem?_append_length {α : Type} (A : List α) (a : α) (B : List α) :
    (A ++ a :: B)[A.length]? = some a := by
  rw [List.getElem?_append, if_neg (by omega), Nat.sub_self]
  simp

theorem vcount_dflt : vcount (Node.dflt : Node T) = 0 := by
  simp [Node.dflt]

theorem freshNode_dflt_bump : FreshNode (Node.dflt.bump : Node T) := by
  refine ⟨rfl, rfl, rfl, rfl, rfl, rfl, Or.inl rfl⟩

theorem vcount_setValue_some (n : Node T) (v : T) :
    vcount (n.setValue (some v)) = 1 + vcountL n.children := by
  cases n; simp [vcount, Node.setValue]

theorem vcount_eq_of_value_none (n : Node T) (h : n.value = none) :
    vcount n = vcountL n.children := by
  cases n
  simp only [Node.value_mk] at h
  simp [vcount, h]

/-! ### The `'walk'` loop of `insert` preserves the invariant -/

theorem walkOk : ∀ (fuel : Nat) (cur : Node T) (pfxArg route : List Byte) (v : T)
    (t : Node T),
    Node.walkF fuel cur pfxArg route v = some (t, none) →
    PendInv cur → 1 ≤ vcount cur →
    cur.node_type ≠ NodeType.CatchAll →
    (cur.node_type = NodeType.Param → cur.pfx <+: pfxArg ∧
      (pfxArg.length = cur.pfx.length ∨ pfxArg.get? cur.pfx.length = some bslash)) →
    InvS t ∧ vcount t = vcount cur + 1 ∧ t.priority = cur.priority ∧
    t.node_type = cur.node_type ∧
    (∀ b : Byte, pfxArg.head? = some b → cur.pfx.head? = some b →
      t.pfx.head? = some b) := by
  intro fuel
  induction fuel with
  | zero =>
    intro cur pfxArg route v t h hpend hv1 hnc hpp
    simp [Node.walkF] at h
  | succ fuel ih =>
    intro cur pfxArg route v t h hpend hv1 hnc hpp
    simp only [Node.walkF] at h
    obtain ⟨hpend1, hvc1, hhead1⟩ := maybeSplitPend cur pfxArg hpend hv1 hnc
      (fun hP => (hpp hP).1)
    set common := commonPrefixLen pfxArg cur.pfx with hcommon
    set cur1 := Node.maybeSplit cur common pfxArg with hcur1
    have hpr1 : cur1.priority = cur.priority := by rw [hcur1]; simp
    have hty1 : cur1.node_type = cur.node_type := by rw [hcur1]; simp
    have hnc1 : cur1.node_type ≠ NodeType.CatchAll := by rw [hty1]; exact hnc
    have hpp1 : cur1.node_type = NodeType.Param → cur1 = cur := by
      intro hP
      have hno : ¬ (common < cur.pfx.length) := by
        have hPcur : cur.node_type = NodeType.Param := by rw [← hty1]; exact hP
        have := commonPrefixLen_of_prefix cur.pfx pfxArg (hpp hPcur).1
        omega
      rw [hcur1]
      unfold Node.maybeSplit
      rw [if_neg hno]
    split at h
    · -- the path continues past this node
      rename_i hclt
      set rest := pfxArg.drop common with hrest
      set nxt := rest.headD 0 with hnxt
      have hrestne : rest ≠ [] := by
        rw [hrest]
        intro hcon
        have hlz : (pfxArg.drop common).length = 0 := by rw [hcon]; rfl
        rw [List.length_drop] at hlz
        omega
      have hrhead : rest.head? = some nxt := head?_eq_headD rest 0 hrestne
      have hnxtget : pfxArg.get? common = some nxt := by
        rw [List.get?_eq_getElem?, ← List.head?_drop, ← hrest]
        exact hrhead
      have hPslash : cur1.node_type = NodeType.Param → nxt = bslash := by
        intro hP
        have hPcur : cur.node_type = NodeType.Param := by rw [← hty1]; exact hP
        obtain ⟨hpre, hor⟩ := hpp hPcur
        have hcpl : common = cur.pfx.length := by
          rw [hcommon]
          exact commonPrefixLen_of_prefix cur.pfx pfxArg hpre
        rcases hor with heq | hsl
        · omega
        · rw [hcpl] at hnxtget
          rw [hsl] at hnxtget
          injection hnxtget with hnxtget
          exact hnxtget.symm
      split at h
      · -- Branch A: `/` after a parameter with a single continuation child
        rename_i hAcond
        obtain ⟨hPt, hnsl, hlen1⟩ := hAcond
        split at h
        · rename_i c heqc
          split at h
          · simp at h
          · rename_i c' oe heqw
            simp only [Option.some.injEq, Prod.mk.injEq] at h
            obtain ⟨ht', hoe⟩ := h
            subst hoe
            subst ht'
            obtain ⟨hX1, hpe1, hIL1⟩ := hpend1
            obtain ⟨hinv2, htypes, hwcX, hchainX, htarm⟩ := hX1
            rw [hPt] at htarm hinv2
            obtain ⟨hcolon, hl2, hwf, hchead⟩ := htarm
            have hcmem : c ∈ cur1.children := by rw [heqc]; simp
            have hcInv : InvS c ∧ 1 ≤ vcount c := (InvSL_iff_forall.mp hIL1) c hcmem
            have hcty : c.node_type = NodeType.Static := by
              apply htypes
              rw [statics_eq_children cur1 hwf]
              exact hcmem
            have hchd : c.pfx.head? = some bslash := hchead c hcmem
            obtain ⟨hc'Inv, hc'v, hc'p, hc'ty, hc'h⟩ :=
              ih c.bump rest route v c' heqw (PendInv_bump c hcInv.1)
                (by simpa using hcInv.2)
                (by simp [hcty])
                (by intro hPf; simp [hcty] at hPf)
            have hc'head : c'.pfx.head? = some bslash := by
              apply hc'h bslash
              · rw [hrhead, hnsl]
              · simpa using hchd
            have hvcur1 : vcount cur1 = (if cur1.value.isSome then 1 else 0) + vcount c := by
              have hx := vcount_children cur1
              rw [heqc] at hx
              simpa using hx
            refine ⟨?_, ?_, by simp [hpr1], by simp [hty1],
              fun b hb1 hb2 => by simp only [Node.pfx_setChildren]; exact hhead1 b hb1 hb2⟩
            · rw [InvS_def]
              refine ⟨⟨?_, ?_, ?_, ?_, ?_, ?_⟩, ?_⟩
              · simp only [Node.priority_setChildren, vcount_setChildren, vcountL_cons,
                  vcountL_nil]
                rw [hc'v]
                simp only [vcount_bump]
                omega
              · simp only [Node.node_type_setChildren]
                rw [hPt]
                refine ⟨by simp, ?_⟩
                rcases hinv2.2 with hidxnil | hidxm
                · exact Or.inl (by simpa using hidxnil)
                · right
                  have hidx1 : ∃ b0, cur1.indices = [b0] ∧ c.pfx.head? = some b0 := by
                    unfold indicesMatch at hidxm
                    have hl := hidxm.length_eq
                    rw [statics_eq_children cur1 hwf, heqc] at hl
                    simp at hl
                    obtain ⟨b0, hb0⟩ := List.length_eq_one.mp hl
                    refine ⟨b0, hb0, ?_⟩
                    apply forall₂_rel hidxm (k := 0)
                    · rw [hb0]; rfl
                    · rw [statics_eq_children cur1 hwf, heqc]; rfl
                  obtain ⟨b0, hb0, hcb0⟩ := hidx1
                  have hb0sl : b0 = bslash := by
                    rw [hchd] at hcb0
                    injection hcb0 with hcb0
                    exact hcb0.symm
                  unfold indicesMatch
                  rw [statics_eq_children _ (by simpa using hwf)]
                  simp only [Node.indices_setChildren, Node.children_setChildren]
                  rw [hb0]
                  exact List.Forall₂.cons (by rw [hc'head, hb0sl]) List.Forall₂.nil
              · intro z hz
                rw [statics_eq_children _ (by simpa using hwf)] at hz
                simp at hz
                subst hz
                rw [hc'ty]
                simpa using hcty
              · intro hcon
                simp only [Node.wild_child_setChildren] at hcon
                rw [hwf] at hcon
                exact absurd hcon (by simp)
              · rw [statics_eq_children _ (by simpa using hwf)]
                simp only [Node.children_setChildren]
                exact List.chain'_singleton _
              · simp only [Node.node_type_setChildren]
                rw [hPt]
                refine ⟨by simpa using hcolon, by simpa using hl2, by simpa using hwf, ?_⟩
                intro z hz
                simp only [Node.children_setChildren] at hz
                simp at hz
                subst hz
                exact hc'head
              · simp only [Node.children_setChildren]
                rw [InvSL_iff_forall]
                intro z hz
                simp at hz
                subst hz
                refine ⟨hc'Inv, ?_⟩
                rw [hc'v]
                omega
            · rw [← hvc1]
              simp only [vcount_setChildren, vcountL_cons, vcountL_nil]
              rw [hc'v]
              simp only [vcount_bump]
              omega
        · -- impossible: `children.length = 1` but the match fell through
          simp at h
      · rename_i hnotA
        split at h
        · -- Branch B: a static child matches the next byte
          rename_i i hfind
          obtain ⟨hX1, hpe1, hIL1⟩ := hpend1
          obtain ⟨hinv2, htypes, hwcX, hchainX, htarm⟩ := hX1
          obtain ⟨hilt, hidxeq⟩ := List.findIdx?_eq_some_iff_findIdx_eq.mp hfind
          have hnexti : cur1.indices[i]? = some nxt := by
            have h0 := @List.findIdx_getElem _ (fun c => decide (c = nxt))
              cur1.indices (by rw [hidxeq]; exact hilt)
            simp only [hidxeq, decide_eq_true_eq] at h0
            rw [List.getElem?_eq_getElem hilt, h0]
          have him1 : indicesMatch cur1 := by
            cases hcase : cur1.node_type with
            | Param =>
              have h2' := hinv2
              rw [hcase] at h2'
              rcases h2'.2 with hnil | hm2
              · exfalso
                rw [hnil] at hilt
                simp at hilt
              · exact hm2
            | Static =>
              have h2' := hinv2
              rw [hcase] at h2'
              exact h2'
            | Root =>
              have h2' := hinv2
              rw [hcase] at h2'
              exact h2'
            | CatchAll => exact absurd hcase hnc1
          obtain ⟨hlenm, hidxspec⟩ := indicesMatch_spec him1
          obtain ⟨x, hxg, hxhead⟩ := hidxspec i nxt hnexti
          have hxty : x.node_type = NodeType.Static := by
            apply htypes
            apply mem_of_getElem?_eq (l := statics cur1) (k := i)
            rw [statics_getElem? _ _ (by omega)]
            exact hxg
          have hxInv : InvS x ∧ 1 ≤ vcount x :=
            (InvSL_iff_forall.mp hIL1) x (mem_of_getElem?_eq hxg)
          obtain ⟨u, hu, h2s, h3s, hIdxr, h4r, h5r⟩ :=
            update_child_priority_spec cur1 i x hxg
          split at h
          · simp at h
          · rename_i c hcg2
            have hcex : c = x.bump := by
              rw [List.get?_eq_getElem?, h2s, h3s] at hcg2
              rw [rot_getElem? cur1.children x.bump u i u hu
                (lt_length_of_getElem? hxg)] at hcg2
              rw [if_neg (by omega), if_pos rfl] at hcg2
              injection hcg2 with hcg2
              exact hcg2.symm
            subst hcex
            split at h
            · simp at h
            · rename_i c' oe heqw
              simp only [Option.some.injEq, Prod.mk.injEq] at h
              obtain ⟨ht', hoe⟩ := h
              subst hoe
              subst ht'
              obtain ⟨hc'Inv, hc'v, hc'p, hc'ty, hc'h⟩ :=
                ih x.bump rest route v c' heqw (PendInv_bump x hxInv.1)
                  (by simpa using hxInv.2)
                  (by simp [hxty])
                  (by intro hPf; simp [hxty] at hPf)
              have hre := reattachInv cur1 i x c' nxt hxg hnexti hlenm (by omega)
                (by
                  intro k bk yk hk hbk hyk
                  obtain ⟨yk', hyk', hhd⟩ := hidxspec k bk hbk
                  rw [hyk'] at hyk
                  injection hyk with hyk
                  subst hyk
                  refine ⟨hhd, ?_⟩
                  apply htypes
                  apply mem_of_getElem?_eq (l := statics cur1) (k := k)
                  rw [statics_getElem? _ _ (by
                    have := lt_length_of_getElem? hbk
                    omega)]
                  exact hyk')
                (by
                  intro k y hk hky
                  exact (InvSL_iff_forall.mp hIL1) y (mem_of_getElem?_eq hky))
                hchainX hwcX
                (by
                  intro hSR
                  rcases hSR with h' | h' <;>
                  · have ht' := htarm
                    rw [h'] at ht'
                    exact ht')
                (by
                  intro hP
                  have ht' := htarm
                  have h2' := hinv2
                  rw [hP] at ht' h2'
                  exact ⟨ht'.1, ht'.2.1, ht'.2.2.1, h2'.1, hPslash hP⟩)
                hnc1 hpe1 hc'Inv
                (by rw [hc'v]; simp)
                (by rw [hc'p]; simp)
                (by rw [hc'ty]; simp [hxty])
                (by
                  apply hc'h nxt hrhead
                  simpa using hxhead)
              obtain ⟨hreInv, hrev, hrep, hrety, hrepf⟩ := hre
              exact ⟨hreInv, by rw [hrev, hvc1], by rw [hrep, hpr1],
                by rw [hrety, hty1],
                fun b hb1 hb2 => by rw [hrepf]; exact hhead1 b hb1 hb2⟩
        · rename_i hfindnone
          split at h
          · -- Branch C: create a fresh static child
            rename_i hCcond
            obtain ⟨hnw2, -⟩ := hCcond
            push_neg at hnw2
            obtain ⟨hnwc, hnws⟩ := hnw2
            obtain ⟨hX1, hpe1, hIL1⟩ := hpend1
            obtain ⟨hinv2, htypes, hwcX, hchainX, htarm⟩ := hX1
            set n2 := cur1.setIndices (cur1.indices ++ [nxt]) with hn2
            have hm : ∃ wtail : List (Node T),
                (n2.add_child Node.dflt).1.children = statics cur1 ++ Node.dflt :: wtail ∧
                (n2.add_child Node.dflt).2 = (statics cur1).length ∧
                (wtail = [] ∧ cur1.wild_child = false ∨
                 ∃ w, wtail = [w] ∧ cur1.wild_child = true ∧
                   cur1.children.getLast? = some w) := by
              by_cases hw : cur1.wild_child = true
              · obtain ⟨w, hwl, hwty⟩ := hwcX hw
                have hdec := eq_dropLast_concat_of_getLast? hwl
                have hstatw : statics cur1 = cur1.children.dropLast := by
                  unfold statics
                  rw [if_pos hw]
                obtain ⟨hc, hi⟩ := add_child_spec_wild n2 Node.dflt
                  cur1.children.dropLast w
                  (by rw [hn2]; simpa using hw)
                  (by rw [hn2]; simpa using hdec)
                refine ⟨[w], ?_, ?_, Or.inr ⟨w, rfl, hw, hwl⟩⟩
                · rw [hc, hstatw]
                · rw [hi, hstatw]
              · have hwf' : cur1.wild_child = false := by
                  cases hcase : cur1.wild_child
                  · rfl
                  · exact absurd hcase hw
                obtain ⟨hc, hi⟩ := add_child_spec_push n2 Node.dflt
                  (by
                    rw [hn2]
                    simp only [Node.wild_child_setIndices]
                    rw [hwf']
                    simp)
                refine ⟨[], ?_, ?_, Or.inl ⟨rfl, hwf'⟩⟩
                · rw [hc, statics_eq_children cur1 hwf', hn2]; simp
                · rw [hi, statics_eq_children cur1 hwf', hn2]; simp
            obtain ⟨wtail, hch3, hidx3v, hwcase⟩ := hm
            rw [hidx3v] at h
            set n3 := (n2.add_child Node.dflt).1 with hn3
            have hidx3n : n3.indices = cur1.indices ++ [nxt] := by
              rw [hn3, hn2]; simp
            have hty3 : n3.node_type = cur1.node_type := by rw [hn3, hn2]; simp
            have hpf3 : n3.pfx = cur1.pfx := by rw [hn3, hn2]; simp
            have hpr3 : n3.priority = cur1.priority := by rw [hn3, hn2]; simp
            have hwi3 : n3.wild_child = cur1.wild_child := by rw [hn3, hn2]; simp
            have hvc3 : vcount n3 = vcount cur1 := by
              rw [hn3, vcount_add_child, vcount_dflt, hn2]
              simp
            have hnc3 : n3.node_type ≠ NodeType.CatchAll := by
              rw [hty3]; exact hnc1
            have hPempty : cur1.node_type = NodeType.Param → cur1.children = [] := by
              intro hP
              have hsl := hPslash hP
              have h2' := hinv2
              rw [hP] at h2'
              rcases Nat.lt_or_ge cur1.children.length 1 with h' | h'
              · exact List.eq_nil_of_length_eq_zero (by omega)
              · exact absurd ⟨hP, hsl, by omega⟩ hnotA
            have hcore : cur1.indices.length = (statics cur1).length ∧
                ∀ (k : Nat) (bk : Byte) (yk : Node T),
                  cur1.indices[k]? = some bk → cur1.children[k]? = some yk →
                  yk.pfx.head? = some bk ∧ yk.node_type = NodeType.Static := by
              cases hcase : cur1.node_type with
              | CatchAll => exact absurd hcase hnc1
              | Param =>
                have hemp := hPempty hcase
                have h2' := hinv2
                rw [hcase] at h2'
                have hsle0 : (statics cur1).length = 0 := by
                  have h9 := statics_length_le cur1
                  rw [hemp] at h9
                  simp only [List.length_nil] at h9
                  omega
                have hidx0 : cur1.indices = [] := by
                  rcases h2'.2 with hnil | hm2
                  · exact hnil
                  · have hl := (indicesMatch_spec hm2).1
                    exact List.eq_nil_of_length_eq_zero (by omega)
                constructor
                · rw [hidx0]
                  simp only [List.length_nil]
                  omega
                · intro k bk yk hbk hyk
                  rw [hidx0] at hbk
                  simp at hbk
              | Static =>
                have h2' := hinv2
                rw [hcase] at h2'
                obtain ⟨hl, hsp⟩ := indicesMatch_spec h2'
                refine ⟨hl, ?_⟩
                intro k bk yk hbk hyk
                obtain ⟨yk', hyk', hhd⟩ := hsp k bk hbk
                rw [hyk'] at hyk
                injection hyk with hyk
                subst hyk
                refine ⟨hhd, ?_⟩
                apply htypes
                apply mem_of_getElem?_eq (l := statics cur1) (k := k)
                rw [statics_getElem? _ _ (by
                  have := lt_length_of_getElem? hbk
                  omega)]
                exact hyk'
              | Root =>
                have h2' := hinv2
                rw [hcase] at h2'
                obtain ⟨hl, hsp⟩ := indicesMatch_spec h2'
                refine ⟨hl, ?_⟩
                intro k bk yk hbk hyk
                obtain ⟨yk', hyk', hhd⟩ := hsp k bk hbk
                rw [hyk'] at hyk
                injection hyk with hyk
                subst hyk
                refine ⟨hhd, ?_⟩
                apply htypes
                apply mem_of_getElem?_eq (l := statics cur1) (k := k)
                rw [statics_getElem? _ _ (by
                  have := lt_length_of_getElem? hbk
                  omega)]
                exact hyk'
            have hstat3 : statics n3 = statics cur1 ++ [Node.dflt] := by
              rcases hwcase with ⟨hwt, hwf'⟩ | ⟨w, hwt, hw, hwl⟩
              · subst hwt
                rw [statics_eq_children n3 (by rw [hwi3]; exact hwf'), hch3]
              · subst hwt
                have : statics n3 = n3.children.dropLast := by
                  unfold statics
                  rw [if_pos (by rw [hwi3]; exact hw)]
                rw [this, hch3]
                rw [show statics cur1 ++ Node.dflt :: [w] =
                  (statics cur1 ++ [Node.dflt]) ++ [w] by simp]
                rw [List.dropLast_concat]
            have hxg3 : n3.children[(statics cur1).length]? = some Node.dflt := by
              rw [hch3]
              exact getElem?_append_length _ _ _
            have hidxg3 : n3.indices[(statics cur1).length]? = some nxt := by
              rw [hidx3n, ← hcore.1]
              exact getElem?_append_length _ _ _
            have hlen3 : n3.indices.length = (statics n3).length := by
              rw [hidx3n, hstat3]
              simp [hcore.1]
            have hstat3lt : (statics cur1).length < (statics n3).length := by
              rw [hstat3]
              simp
            have hpairs3 : ∀ (k : Nat) (bk : Byte) (yk : Node T),
                k ≠ (statics cur1).length → n3.indices[k]? = some bk →
                n3.children[k]? = some yk →
                yk.pfx.head? = some bk ∧ yk.node_type = NodeType.Static := by
              intro k bk yk hk hbk hyk
              rw [hidx3n] at hbk
              rw [hch3] at hyk
              have hkl : k < cur1.indices.length + 1 := by
                have := lt_length_of_getElem? hbk
                simpa using this
              have hkm : k < (statics cur1).length := by
                rw [← hcore.1]
                omega
              rw [List.getElem?_append, if_pos (by omega)] at hbk
              rw [List.getElem?_append, if_pos (by omega)] at hyk
              rw [statics_getElem? _ _ (by omega)] at hyk
              exact hcore.2 k bk yk hbk hyk
            have hmem3 : ∀ (k : Nat) (y : Node T), k ≠ (statics cur1).length →
                n3.children[k]? = some y → InvS y ∧ 1 ≤ vcount y := by
              intro k y hk hky
              rw [hch3] at hky
              have hymem : y ∈ cur1.children := by
                by_cases hkm : k < (statics cur1).length
                · rw [List.getElem?_append, if_pos (by omega)] at hky
                  exact statics_subset cur1 (mem_of_getElem?_eq hky)
                · rw [List.getElem?_append, if_neg (by omega)] at hky
                  rcases hwcase with ⟨hwt, -⟩ | ⟨w, hwt, -, hwl⟩
                  · subst hwt
                    exfalso
                    rw [show k - (statics cur1).length =
                      (k - (statics cur1).length - 1) + 1 by omega] at hky
                    simp at hky
                  · subst hwt
                    rw [show k - (statics cur1).length =
                      (k - (statics cur1).length - 1) + 1 by omega] at hky
                    rw [List.getElem?_cons_succ] at hky
                    have hj := lt_length_of_getElem? hky
                    simp at hj
                    rw [show k - (statics cur1).length - 1 = 0 by omega] at hky
                    simp at hky
                    subst hky
                    have hdec := eq_dropLast_concat_of_getLast? hwl
                    rw [hdec]
                    simp
              exact (InvSL_iff_forall.mp hIL1) y hymem
            have hchain3 : List.Chain' (fun a b : Node T => b.priority ≤ a.priority)
                (statics n3) := by
              rw [hstat3, List.chain'_append]
              refine ⟨hchainX, List.chain'_singleton _, ?_⟩
              intro a _ y hy
              simp at hy
              subst hy
              have hz : (Node.dflt : Node T).priority = 0 := rfl
              rw [hz]
              exact Nat.zero_le _
            have hw3 : n3.wild_child = true → ∃ w, n3.children.getLast? = some w ∧
                (w.node_type = NodeType.Param ∨ w.node_type = NodeType.CatchAll) := by
              intro hw3t
              rw [hwi3] at hw3t
              rcases hwcase with ⟨-, hwf'⟩ | ⟨w, hwt, hw, hwl⟩
              · rw [hwf'] at hw3t
                exact absurd hw3t (by simp)
              · subst hwt
                obtain ⟨w', hwl', hwty'⟩ := hwcX hw
                rw [hwl] at hwl'
                injection hwl' with hwl'
                refine ⟨w, ?_, by rw [← hwl'] at hwty'; exact hwty'⟩
                rw [hch3]
                rw [show statics cur1 ++ Node.dflt :: [w] =
                  (statics cur1 ++ [Node.dflt]) ++ [w] by simp]
                rw [List.getLast?_concat]
            have hta23 : n3.node_type = NodeType.Static ∨ n3.node_type = NodeType.Root →
                noWildBytes n3.pfx := by
              intro hSR
              rw [hty3] at hSR
              rw [hpf3]
              rcases hSR with h' | h' <;>
              · have ht' := htarm
                rw [h'] at ht'
                exact ht'
            have htaP3 : n3.node_type = NodeType.Param → n3.pfx.head? = some bcolon ∧
                2 ≤ n3.pfx.length ∧ n3.wild_child = false ∧ n3.children.length ≤ 1 ∧
                nxt = bslash := by
              intro hP3
              rw [hty3] at hP3
              have ht' := htarm
              rw [hP3] at ht'
              have hemp := hPempty hP3
              have hstat0 : statics cur1 = [] := by
                have h9 := statics_length_le cur1
                rw [hemp] at h9
                simp only [List.length_nil] at h9
                exact List.eq_nil_of_length_eq_zero (by omega)
              have hwt0 : wtail = [] := by
                rcases hwcase with ⟨hwt, -⟩ | ⟨w, hwt, hw, -⟩
                · exact hwt
                · rw [ht'.2.2.1] at hw
                  exact absurd hw (by simp)
              refine ⟨by rw [hpf3]; exact ht'.1, by rw [hpf3]; exact ht'.2.1,
                by rw [hwi3]; exact ht'.2.2.1, ?_, hPslash hP3⟩
              rw [hch3, hstat0, hwt0]
              simp
            have hpe3 : n3.priority = vcount n3 + 1 := by
              rw [hpr3, hvc3]
              exact hpe1
            obtain ⟨u, hu, h2s, h3s, hIdxr, h4r, h5r⟩ :=
              update_child_priority_spec n3 (statics cur1).length Node.dflt hxg3
            split at h
            · simp at h
            · rename_i c hcg2
              have hcex : c = Node.dflt.bump := by
                rw [List.get?_eq_getElem?, h2s, h3s] at hcg2
                rw [rot_getElem? n3.children Node.dflt.bump u (statics cur1).length u hu
                  (lt_length_of_getElem? hxg3)] at hcg2
                rw [if_neg (by omega), if_pos rfl] at hcg2
                injection hcg2 with hcg2
                exact hcg2.symm
              subst hcex
              split at h
              · simp at h
              · rename_i c' oe heqw
                simp only [Option.some.injEq, Prod.mk.injEq] at h
                obtain ⟨ht', hoe⟩ := h
                subst hoe
                subst ht'
                obtain ⟨hc'Inv, hc'v1, hc'p1, hc'tyf, hc'hf⟩ :=
                  insertChildOkFresh (rest.length + 1) Node.dflt.bump rest route v c'
                    heqw freshNode_dflt_bump
                have hre := reattachInv n3 (statics cur1).length Node.dflt c' nxt
                  hxg3 hidxg3 hlen3 hstat3lt hpairs3 hmem3 hchain3 hw3 hta23 htaP3
                  hnc3 hpe3 hc'Inv
                  (by rw [hc'v1, vcount_dflt])
                  (by rw [hc'p1]; rfl)
                  (by rw [hc'tyf]; rfl)
                  (hc'hf nxt hrhead hnwc hnws)
                obtain ⟨hreInv, hrev, hrep, hrety, hrepf⟩ := hre
                exact ⟨hreInv, by rw [hrev, hvc3, hvc1], by rw [hrep, hpr3, hpr1],
                  by rw [hrety, hty3, hty1],
                  fun b hb1 hb2 => by rw [hrepf, hpf3]; exact hhead1 b hb1 hb2⟩
          · rename_i hCneg
            have hnbw : nxt = bcolon ∨ nxt = bstar := by
              by_contra hcon
              push_neg at hcon
              exact hCneg ⟨by tauto, hnc1⟩
            split at h
            · -- Branch D: descend into the existing wildcard child
              rename_i hw1
              obtain ⟨hX1, hpe1, hIL1⟩ := hpend1
              obtain ⟨hinv2, htypes, hwcX, hchainX, htarm⟩ := hX1
              obtain ⟨w0, hwl, hwty0⟩ := hwcX hw1
              have hnP1 : cur1.node_type ≠ NodeType.Param := by
                intro hP
                have ht' := htarm
                rw [hP] at ht'
                rw [ht'.2.2.1] at hw1
                simp at hw1
              split at h
              · simp at h
              · rename_i wc0 hwcg
                rw [hwl] at hwcg
                injection hwcg with hwcg
                subst hwcg
                split at h
                · simp at h
                · rename_i hguard
                  push_neg at hguard
                  obtain ⟨hg1, hg2, hg3, hg4⟩ := hguard
                  have hPw : w0.node_type = NodeType.Param := by
                    rcases hwty0 with hP | hCA
                    · exact hP
                    · exfalso
                      apply hg3
                      simpa using hCA
                  have hwInv : InvS w0 ∧ 1 ≤ vcount w0 := by
                    apply (InvSL_iff_forall.mp hIL1) w0
                    have hdec := eq_dropLast_concat_of_getLast? hwl
                    rw [hdec]
                    simp
                  split at h
                  · simp at h
                  · rename_i wc' oe heqw
                    set cur2 := cur1.setChildAt (cur1.children.length - 1) w0.bump
                      with hcur2
                    simp only [Option.some.injEq, Prod.mk.injEq] at h
                    obtain ⟨ht', hoe⟩ := h
                    subst hoe
                    subst ht'
                    obtain ⟨hc'Inv, hc'v, hc'p, hc'ty, hc'h⟩ :=
                      ih w0.bump rest route v wc' heqw (PendInv_bump w0 hwInv.1)
                        (by simpa using hwInv.2)
                        hg3
                        (by
                          intro hPb
                          constructor
                          · rw [hg2]
                            exact List.take_prefix _ _
                          · by_cases hlt' : w0.bump.pfx.length < rest.length
                            · exact Or.inr (hg4 hlt')
                            · exact Or.inl (by omega))
                    have hdec := eq_dropLast_concat_of_getLast? hwl
                    have hchne : cur1.children ≠ [] := by
                      intro hc
                      rw [hc] at hwl
                      simp at hwl
                    have htch : (cur2.setChildAt (cur2.children.length - 1) wc').children =
                        cur1.children.dropLast ++ [wc'] := by
                      rw [hcur2]
                      simp only [Node.children_setChildAt, List.length_set]
                      rw [List.set_set]
                      conv_lhs => rw [hdec]
                      rw [show (cur1.children.dropLast ++ [w0]).length - 1 =
                        cur1.children.dropLast.length by simp]
                      exact set_middle_append _ _ _ _
                    have hty2 : (cur2.setChildAt (cur2.children.length - 1) wc').node_type =
                        cur1.node_type := by
                      rw [hcur2]; simp
                    have hpr2 : (cur2.setChildAt (cur2.children.length - 1) wc').priority =
                        cur1.priority := by
                      rw [hcur2]; simp
                    have hpf2 : (cur2.setChildAt (cur2.children.length - 1) wc').pfx =
                        cur1.pfx := by
                      rw [hcur2]; simp
                    have hvl2 : (cur2.setChildAt (cur2.children.length - 1) wc').value =
                        cur1.value := by
                      rw [hcur2]; simp
                    have hid2 : (cur2.setChildAt (cur2.children.length - 1) wc').indices =
                        cur1.indices := by
                      rw [hcur2]; simp
                    have hw2 : (cur2.setChildAt (cur2.children.length - 1) wc').wild_child =
                        true := by
                      rw [hcur2]
                      simp only [Node.wild_child_setChildAt]
                      exact hw1
                    have hstA : statics cur1 = cur1.children.dropLast := by
                      unfold statics
                      rw [if_pos hw1]
                    have hstt2 : statics (cur2.setChildAt (cur2.children.length - 1) wc') =
                        cur1.children.dropLast := by
                      unfold statics
                      rw [if_pos hw2, htch, List.dropLast_concat]
                    have hvcnt : vcount (cur2.setChildAt (cur2.children.length - 1) wc') =
                        vcount cur1 + 1 := by
                      rw [vcount_children _, htch, hvl2, vcount_children cur1]
                      conv_rhs => rw [hdec]
                      simp only [vcountL_append, vcountL_cons, vcountL_nil]
                      have hv' : vcount wc' = vcount w0 + 1 := by
                        rw [hc'v]
                        simp
                      omega
                    refine ⟨?_, by rw [hvcnt, hvc1], by rw [hpr2, hpr1],
                      by rw [hty2, hty1],
                      fun b hb1 hb2 => by rw [hpf2]; exact hhead1 b hb1 hb2⟩
                    rw [InvS_def]
                    refine ⟨⟨?_, ?_, ?_, ?_, ?_, ?_⟩, ?_⟩
                    · rw [hpr2, hvcnt]
                      exact hpe1
                    · rw [hty2]
                      cases hcase : cur1.node_type with
                      | Param => exact absurd hcase hnP1
                      | CatchAll => exact absurd hcase hnc1
                      | Static =>
                        have h2' := hinv2
                        rw [hcase] at h2'
                        unfold indicesMatch
                        rw [hid2, hstt2, ← hstA]
                        exact h2'
                      | Root =>
                        have h2' := hinv2
                        rw [hcase] at h2'
                        unfold indicesMatch
                        rw [hid2, hstt2, ← hstA]
                        exact h2'
                    · intro z hz
                      rw [hstt2] at hz
                      apply htypes
                      rw [hstA]
                      exact hz
                    · intro _
                      refine ⟨wc', ?_, ?_⟩
                      · rw [htch, List.getLast?_concat]
                      · left
                        rw [hc'ty]
                        simpa using hPw
                    · rw [hstt2, ← hstA]
                      exact hchainX
                    · rw [hty2]
                      cases hcase : cur1.node_type with
                      | Param => exact absurd hcase hnP1
                      | CatchAll => exact absurd hcase hnc1
                      | Static =>
                        have ht' := htarm
                        rw [hcase] at ht'
                        rw [hpf2]
                        exact ht'
                      | Root =>
                        have ht' := htarm
                        rw [hcase] at ht'
                        rw [hpf2]
                        exact ht'
                    · rw [InvSL_iff_forall]
                      intro z hz
                      rw [htch] at hz
                      rcases List.mem_append.mp hz with hz | hz
                      · exact (InvSL_iff_forall.mp hIL1) z
                          (List.dropLast_subset _ hz)
                      · simp at hz
                        subst hz
                        refine ⟨hc'Inv, ?_⟩
                        rw [hc'v]
                        omega
            · -- Branch E: create the wildcard child via `insert_child`
              rename_i hwfalse
              have hwf : cur1.wild_child = false := by
                cases hcase : cur1.wild_child
                · rfl
                · exact absurd hcase hwfalse
              have hnP1 : cur1.node_type ≠ NodeType.Param := by
                intro hP
                have hx := hPslash hP
                rcases hnbw with h' | h' <;>
                  (rw [hx] at h'; simp [bslash, bcolon, bstar] at h')
              obtain ⟨hInv, hvc', hpr', hty', hpf'⟩ :=
                insertChildOkWild (rest.length+1) cur1 rest route v t nxt h hrhead
                  hnbw hwf hnc1 hnP1 hpend1
              exact ⟨hInv, by rw [hvc', hvc1], by rw [hpr', hpr1], by rw [hty', hty1],
                fun b hb1 hb2 => by rw [hpf']; exact hhead1 b hb1 hb2⟩
    · -- exact match: store the value in this node
      rename_i hcge
      split at h
      · simp at h
      · rename_i hvnone
        simp only [Option.some.injEq, Prod.mk.injEq] at h
        obtain ⟨ht', -⟩ := h
        subst ht'
        have hvn : cur1.value = none := by
          cases hv : cur1.value with
          | none => rfl
          | some w =>
            rw [hv] at hvnone
            simp at hvnone
        obtain ⟨hX1, hpe1, hIL1⟩ := hpend1
        obtain ⟨hinv2, htypes, hwcX, hchainX, htarm⟩ := hX1
        refine ⟨?_, ?_, by rw [← hpr1]; simp, by rw [← hty1]; simp,
          fun b hb1 hb2 => by simp only [Node.pfx_setValue]; exact hhead1 b hb1 hb2⟩
        · rw [InvS_def]
          refine ⟨⟨?_, ?_, ?_, ?_, ?_, ?_⟩, ?_⟩
          · simp only [Node.priority_setValue]
            rw [vcount_setValue_some]
            rw [vcount_eq_of_value_none cur1 hvn] at hpe1
            omega
          · simp only [Node.node_type_setValue]
            cases hcase : cur1.node_type with
            | Param =>
              rw [hcase] at hinv2
              refine ⟨by simpa using hinv2.1, ?_⟩
              rcases hinv2.2 with hnil | hmm2
              · exact Or.inl (by simpa using hnil)
              · exact Or.inr (indicesMatch_setValue.mpr hmm2)
            | Static =>
              rw [hcase] at hinv2
              exact indicesMatch_setValue.mpr hinv2
            | Root =>
              rw [hcase] at hinv2
              exact indicesMatch_setValue.mpr hinv2
            | CatchAll => exact absurd hcase hnc1
          · intro z hz
            rw [statics_setValue] at hz
            exact htypes z hz
          · intro hcon
            simp only [Node.wild_child_setValue] at hcon
            obtain ⟨w, hwl, hwt⟩ := hwcX hcon
            exact ⟨w, by simpa using hwl, hwt⟩
          · rw [statics_setValue]
            exact hchainX
          · simp only [Node.node_type_setValue]
            cases hcase : cur1.node_type with
            | Static =>
              rw [hcase] at htarm
              simpa using htarm
            | Root =>
              rw [hcase] at htarm
              simpa using htarm
            | Param =>
              rw [hcase] at htarm
              refine ⟨by simpa using htarm.1, by simpa using htarm.2.1,
                by simpa using htarm.2.2.1, ?_⟩
              intro z hz
              simp only [Node.children_setValue] at hz
              exact htarm.2.2.2 z hz
            | CatchAll => exact absurd hcase hnc1
          · simp only [Node.children_setValue]
            exact hIL1
        · rw [← hvc1, vcount_setValue_some, vcount_eq_of_value_none cur1 hvn]
          omega

/-! ### `insert` preserves the invariant on nonempty routes -/

theorem insertIdx_ne_nil {α : Type} (l : List α) (k : Nat) (a : α) (hl : l ≠ []) :
    l.insertIdx k a ≠ [] := by
  cases l with
  | nil => exact absurd rfl hl
  | cons x tl =>
    cases k with
    | zero => simp [List.insertIdx]
    | succ j =>
      rw [List.insertIdx_succ_cons]
      simp

theorem add_child_children_ne (n c : Node T) : (n.add_child c).1.children ≠ [] := by
  simp only [Node.add_child]
  split
  · rename_i hcond
    simp only [Node.children_setChildren]
    exact insertIdx_ne_nil _ _ _ (List.length_pos.mp hcond.2)
  · simp only [Node.children_setChildren]
    simp

theorem set_ne_nil {α : Type} {l : List α} (h : l ≠ []) (i : Nat) (a : α) :
    l.set i a ≠ [] := by
  cases l with
  | nil => exact absurd rfl h
  | cons x tl => cases i <;> simp

theorem insertChildF_ne_empty :
    ∀ (fuel : Nat) (cur : Node T) (p r : List Byte) (v : T) (t : Node T),
      Node.insertChildF fuel cur p r v = some (t, none) → p ≠ [] →
      t.pfx ≠ [] ∨ t.children ≠ [] := by
  intro fuel cur p r v t h hp
  cases fuel with
  | zero => simp [Node.insertChildF] at h
  | succ fuel =>
    simp only [Node.insertChildF] at h
    split at h
    · simp at h
    · simp only [Option.some.injEq, Prod.mk.injEq] at h
      obtain ⟨ht, -⟩ := h
      subst ht
      left
      simpa using hp
    · rename_i w wi hfw
      obtain ⟨c0, hc0get, hc0wild, hwhead, hbefore, hw1, hwle, hweq, hslash⟩ :=
        find_wildcard_some hfw
      split at h
      · simp at h
      · split at h
        · -- regular route parameter
          split at h
          · simp at h
          · rename_i pNode hpg
            split at h
            · split at h
              · simp at h
              · rename_i g hgg
                split at h
                · simp at h
                · rename_i g' oe heq
                  simp only [Option.some.injEq, Prod.mk.injEq] at h
                  obtain ⟨ht, -⟩ := h
                  subst ht
                  right
                  simp only [Node.children_setChildAt, Node.children_setWild]
                  exact set_ne_nil (add_child_children_ne _ _) _ _
            · simp only [Option.some.injEq, Prod.mk.injEq] at h
              obtain ⟨ht, -⟩ := h
              subst ht
              right
              simp only [Node.children_setChildAt, Node.children_setWild]
              exact set_ne_nil (add_child_children_ne _ _) _ _
        · split at h
          · -- catch-all
            split at h
            · simp at h
            · split at h
              · simp at h
              · split at h
                · simp at h
                · simp only [Option.some.injEq, Prod.mk.injEq] at h
                  obtain ⟨ht, -⟩ := h
                  subst ht
                  right
                  simp only [Node.children_setWild]
                  exact add_child_children_ne _ _
          · -- unreachable: the token starts with `:` or `*`
            rename_i hncolon hnstar
            exfalso
            rw [hwhead] at hncolon hnstar
            rcases hc0wild with rfl | rfl
            · exact hncolon rfl
            · exact hnstar rfl

theorem statics_setNodeType (n : Node T) (ty : NodeType) :
    statics (n.setNodeType ty) = statics n := by
  cases n; rfl

theorem indicesMatch_setNodeType {n : Node T} {ty : NodeType} :
    indicesMatch (n.setNodeType ty) ↔ indicesMatch n := by
  cases n; exact Iff.rfl

theorem InvS_setNodeType_Root (t : Node T) (h : InvS t)
    (hty : t.node_type = NodeType.Static) :
    InvS (t.setNodeType NodeType.Root) := by
  rw [InvS_def] at h ⊢
  obtain ⟨⟨hpe, hinv2, htypes, hwc, hchain, htarm⟩, hIL⟩ := h
  rw [hty] at hinv2 htarm
  refine ⟨⟨?_, ?_, ?_, ?_, ?_, ?_⟩, ?_⟩
  · simpa using hpe
  · simp only [Node.node_type_setNodeType]
    exact indicesMatch_setNodeType.mpr hinv2
  · intro z hz
    rw [statics_setNodeType] at hz
    exact htypes z hz
  · intro hcon
    simp only [Node.wild_child_setNodeType] at hcon
    obtain ⟨w, h1, h2⟩ := hwc hcon
    exact ⟨w, by simpa using h1, h2⟩
  · rw [statics_setNodeType]
    exact hchain
  · simp only [Node.node_type_setNodeType, Node.pfx_setNodeType]
    exact htarm
  · simpa using hIL

theorem invS_dflt : InvS (Node.dflt : Node T) := by
  rw [InvS_def]
  refine ⟨⟨?_, ?_, ?_, ?_, ?_, ?_⟩, ?_⟩
  · rfl
  · simp only [Node.dflt, Node.node_type_mk]
    unfold indicesMatch
    simp [statics, Node.dflt]
  · intro z hz
    simp [statics, Node.dflt] at hz
  · intro hcon
    simp [Node.dflt] at hcon
  · simp [statics, Node.dflt]
  · simp only [Node.dflt, Node.node_type_mk, Node.pfx_mk]
    intro b hb
    simp at hb
  · simp [Node.dflt, InvSL]

theorem insert_ok (n t : Node T) (r : List Byte) (v : T)
    (h : Node.insert n r v = some (t, none)) (hr : r ≠ [])
    (hn : InvS n ∧ (n = Node.dflt ∨ (n.node_type = NodeType.Root ∧ 1 ≤ vcount n ∧
      ¬(n.pfx = [] ∧ n.children = [])))) :
    InvS t ∧ t.node_type = NodeType.Root ∧ 1 ≤ vcount t ∧
    ¬(t.pfx = [] ∧ t.children = []) := by
  obtain ⟨hInv, hcase⟩ := hn
  simp only [Node.insert] at h
  split at h
  · rename_i hcond
    obtain ⟨hpfx, hchE⟩ := hcond
    have hch : n.bump.children = [] := by
      rwa [List.isEmpty_iff] at hchE
    have hdflt : n = Node.dflt := by
      rcases hcase with h' | ⟨-, -, hne⟩
      · exact h'
      · exfalso
        apply hne
        exact ⟨by simpa using hpfx, by simpa using hch⟩
    subst hdflt
    split at h
    · simp at h
    · simp at h
    · rename_i t0 heq
      simp only [Option.some.injEq, Prod.mk.injEq] at h
      obtain ⟨ht, -⟩ := h
      subst ht
      obtain ⟨ht0Inv, ht0v, ht0p, ht0ty, -⟩ :=
        insertChildOkFresh (r.length + 1) Node.dflt.bump r r v t0 heq freshNode_dflt_bump
      have htyS : t0.node_type = NodeType.Static := by rw [ht0ty]; rfl
      refine ⟨InvS_setNodeType_Root t0 ht0Inv htyS, by simp, ?_, ?_⟩
      · rw [vcount_setNodeType, ht0v]
      · intro hcon
        obtain ⟨h1, h2⟩ := hcon
        simp only [Node.pfx_setNodeType, Node.children_setNodeType] at h1 h2
        rcases insertChildF_ne_empty (r.length + 1) Node.dflt.bump r r v t0 heq hr
          with h' | h'
        · exact h' h1
        · exact h' h2
  · rename_i hcond
    have hnd : n ≠ Node.dflt := by
      intro hd
      subst hd
      exact hcond ⟨rfl, rfl⟩
    rcases hcase with h' | ⟨hty, hv1, hne⟩
    · exact absurd h' hnd
    · obtain ⟨hIt, hvt, hpt, htyt, -⟩ := walkOk _ n.bump r r v t h (PendInv_bump n hInv)
        (by simpa using hv1)
        (by simp [hty])
        (by intro hP; simp [hty] at hP)
      refine ⟨hIt, by rw [htyt]; simpa using hty, by rw [hvt]; omega, ?_⟩
      intro hcon
      obtain ⟨h1, h2⟩ := hcon
      have hv2 : 2 ≤ vcount t := by
        rw [hvt]
        simp only [vcount_bump]
        omega
      have hle : vcount t ≤ 1 := by
        have h9 := vcount_children t
        rw [h2] at h9
        simp only [vcountL_nil] at h9
        by_cases hb : t.value.isSome = true
        · simp [hb] at h9
          omega
        · simp [hb] at h9
          omega
      omega

theorem builtFromNE_P : ∀ {t : Node T}, BuiltFromNE t → InvS t ∧ (t = Node.dflt ∨
    (t.node_type = NodeType.Root ∧ 1 ≤ vcount t ∧
      ¬(t.pfx = [] ∧ t.children = []))) := by
  intro t h
  induction h with
  | base => exact ⟨invS_dflt, Or.inl rfl⟩
  | step r v hr hb hins ih =>
    obtain ⟨h1, h2, h3, h4⟩ := insert_ok _ _ r v hins hr ih
    exact ⟨h1, Or.inr ⟨h2, h3, h4⟩⟩

theorem builtFromNE_invS {t : Node T} (h : BuiltFromNE t) : InvS t :=
  (builtFromNE_P h).1

/-! ### The priority-free invariant `WInv` is preserved by every successful
insertion, empty routes included.  The lemmas below mirror the `InvS`
preservation proof with all priority/value-count obligations dropped. -/

theorem WInv_bump {n : Node T} : WInv n.bump ↔ WInv n := by
  cases n; exact Iff.rfl

theorem WInv_setNodeType_Root (t : Node T) (h : WInv t)
    (hty : t.node_type = NodeType.Static ∨ t.node_type = NodeType.Root) :
    WInv (t.setNodeType NodeType.Root) := by
  rw [WInv_def] at h ⊢
  obtain ⟨⟨hinv2, htypes, hwc, hchain, htarm⟩, hIL⟩ := h
  refine ⟨⟨?_, ?_, ?_, ?_, ?_⟩, ?_⟩
  · simp only [Node.node_type_setNodeType]
    apply indicesMatch_setNodeType.mpr
    rcases hty with h' | h' <;> (rw [h'] at hinv2; exact hinv2)
  · intro z hz
    rw [statics_setNodeType] at hz
    exact htypes z hz
  · intro hcon
    simp only [Node.wild_child_setNodeType] at hcon
    obtain ⟨w, h1, h2⟩ := hwc hcon
    exact ⟨w, by simpa using h1, h2⟩
  · rw [statics_setNodeType]
    exact hchain
  · simp only [Node.node_type_setNodeType, Node.pfx_setNodeType]
    rcases hty with h' | h' <;> (rw [h'] at htarm; exact htarm)
  · simpa using hIL

/-- Weak analogue of `addWildInv`: appending a structurally sound wildcard
child preserves `WInv` without any priority bookkeeping. -/
theorem addWildW (p0 : Nat) (i0 : List Byte) (t0 : NodeType) (v0 : Option T)
    (pf0 : List Byte) (ch0 : List (Node T)) (wnode : Node T)
    (hX : localInvX (Node.mk p0 false i0 t0 v0 pf0 ch0)) (hIL : WInvL ch0)
    (hnc : t0 ≠ NodeType.CatchAll) (hnp : t0 ≠ NodeType.Param)
    (hwInv : WInv wnode)
    (hwt : wnode.node_type = NodeType.Param ∨ wnode.node_type = NodeType.CatchAll) :
    WInv (Node.mk p0 true i0 t0 v0 pf0 (ch0 ++ [wnode])) := by
  obtain ⟨hinv2, htypes, hwc, hchain, htypearm⟩ := hX
  have ht0 : t0 = NodeType.Static ∨ t0 = NodeType.Root := by
    cases t0 <;> simp_all
  have hstat0 : statics (Node.mk p0 false i0 t0 v0 pf0 ch0) = ch0 := by
    simp [statics]
  have hstat1 : statics (Node.mk p0 true i0 t0 v0 pf0 (ch0 ++ [wnode])) = ch0 := by
    simp [statics]
  rw [WInv_def]
  refine ⟨⟨?_, ?_, ?_, ?_, ?_⟩, ?_⟩
  · rcases ht0 with h' | h' <;>
    · subst h'
      simp only [Node.node_type_mk] at hinv2 ⊢
      simp only [indicesMatch, Node.indices_mk] at hinv2 ⊢
      rw [hstat1]
      rw [hstat0] at hinv2
      exact hinv2
  · rw [hstat1]
    rw [hstat0] at htypes
    exact htypes
  · intro _
    exact ⟨wnode, by simp, hwt⟩
  · rw [hstat1]
    rw [hstat0] at hchain
    exact hchain
  · rcases ht0 with h' | h' <;>
    · subst h'
      simp only [Node.node_type_mk] at htypearm ⊢
      simpa using htypearm
  · simp only [Node.children_mk]
    rw [WInvL_iff_forall]
    rw [WInvL_iff_forall] at hIL
    intro cc hcc
    rcases List.mem_append.mp hcc with hcc | hcc
    · exact hIL cc hcc
    · simp at hcc
      subst hcc
      exact hwInv

/-- Weak analogue of `insertChildOkWild`. -/
theorem insertChildWildW (fuel : Nat) (cur : Node T) (pfxArg route : List Byte)
    (v : T) (t : Node T) (b : Byte)
    (h : Node.insertChildF fuel cur pfxArg route v = some (t, none))
    (hb : pfxArg.head? = some b) (hbw : b = bcolon ∨ b = bstar)
    (hwild : cur.wild_child = false)
    (hnc : cur.node_type ≠ NodeType.CatchAll) (hnp : cur.node_type ≠ NodeType.Param)
    (hW : WInv cur) :
    WInv t ∧ t.node_type = cur.node_type ∧ t.pfx = cur.pfx := by
  cases fuel with
  | zero => simp [Node.insertChildF] at h
  | succ fuel =>
  cases cur with
  | mk p0 w0 i0 t0 v0 pf0 ch0 =>
  simp only [Node.wild_child_mk] at hwild
  subst hwild
  simp only [Node.node_type_mk] at hnc hnp
  rw [WInv_def] at hW
  obtain ⟨hX, hIL⟩ := hW
  simp only [Node.children_mk] at hIL
  simp only [Node.insertChildF] at h
  split at h
  · simp at h
  · rename_i hfw
    exfalso
    have hnw := find_wildcard_none hfw
    have hmem : b ∈ pfxArg := by
      cases pfxArg with
      | nil => simp at hb
      | cons a rest => simp at hb; simp [hb]
    have := hnw b hmem
    rcases hbw with rfl | rfl
    · exact this.1 rfl
    · exact this.2 rfl
  · rename_i w wi hfw
    obtain ⟨c0, hc0get, hc0wild, hwhead, hbefore, hw1, hwle, hweq, hslash⟩ :=
      find_wildcard_some hfw
    have hwi0 : wi = 0 := by
      by_contra hne
      have hposwi : 0 < wi := by omega
      have hmem : b ∈ pfxArg.take wi := by
        cases pfxArg with
        | nil => simp at hb
        | cons a rest =>
          simp at hb
          subst hb
          cases wi with
          | zero => omega
          | succ k => simp
      have := hbefore b hmem
      rcases hbw with rfl | rfl
      · exact this.1 rfl
      · exact this.2 rfl
    subst hwi0
    have hsp1 : (Node.stripWildPrefix (Node.mk p0 false i0 t0 v0 pf0 ch0) pfxArg 0).1 =
        Node.mk p0 false i0 t0 v0 pf0 ch0 := by
      simp [Node.stripWildPrefix]
    have hsp2 : (Node.stripWildPrefix (Node.mk p0 false i0 t0 v0 pf0 ch0) pfxArg 0).2 =
        pfxArg := by
      simp [Node.stripWildPrefix]
    split at h
    · simp at h
    · rename_i hwlen
      split at h
      · -- ':' parameter
        rename_i hcolon
        simp [hsp1, hsp2, Node.setPfx, Node.dflt, Node.setNodeType, Node.add_child,
          Node.setChildren, Node.setWild, Node.bump, Node.setPriority,
          Node.setChildAt, Node.setValue, List.get?_eq_getElem?,
          List.getElem?_concat_length] at h
        split at h
        · rename_i hcont
          split at h
          · simp at h
          · rename_i g' oe hrec
            simp only [Option.some.injEq, Prod.mk.injEq] at h
            obtain ⟨ht, hoe⟩ := h
            subst hoe
            subst ht
            obtain ⟨hgInv, hgv, hgp, hgt, hghead⟩ :=
              insertChildOkFresh fuel _ _ route v g' hrec
                ⟨rfl, rfl, rfl, rfl, rfl, rfl, Or.inl rfl⟩
            have hg'head : g'.pfx.head? = some bslash := by
              apply hghead
              · rw [List.head?_drop]
                have := hslash (by omega)
                rw [List.get?_eq_getElem?] at this
                simpa using this
              · decide
              · decide
            obtain ⟨hpInv, hpv⟩ := paramChainInv w g' hcolon hwlen hgInv hgv
              (by simpa using hgt) hg'head
            have hInv := addWildW p0 i0 t0 v0 pf0 ch0 _ hX hIL hnc hnp
              (InvS_WInv _ hpInv) (Or.inl rfl)
            exact ⟨hInv, by simp, by simp⟩
        · simp only [Option.some.injEq, Prod.mk.injEq] at h
          obtain ⟨ht, -⟩ := h
          subst ht
          obtain ⟨hpInv, hpv⟩ := paramLeafInv w v hcolon hwlen
          have hInv := addWildW p0 i0 t0 v0 pf0 ch0 _ hX hIL hnc hnp
            (InvS_WInv _ hpInv) (Or.inl rfl)
          exact ⟨hInv, by simp, by simp⟩
      · split at h
        · -- '*' catch-all
          rename_i hstar
          split at h
          · simp at h
          · rename_i hlen_eq
            split at h
            · simp at h
            · split at h
              · simp at h
              · rename_i hnotbad
                simp [hsp1, hsp2, Node.setPfx, Node.dflt, Node.setNodeType,
                  Node.add_child, Node.setChildren, Node.setWild,
                  Node.setPriority, Node.setValue] at h
                subst h
                have hpfhead : pfxArg.head? = some bstar := by
                  rw [hb]
                  congr 1
                  rw [List.get?_eq_getElem?, ← List.head?_eq_getElem?, hb] at hc0get
                  injection hc0get with hc0get
                  rw [hwhead] at hstar
                  injection hstar with hstar
                  exact hc0get.trans hstar
                have hpflen : 2 ≤ pfxArg.length := by
                  simp only [Nat.zero_add, Decidable.not_not] at hlen_eq
                  rw [← hlen_eq]
                  omega
                obtain ⟨hcInv, hcv⟩ := catchAllInv pfxArg v hpfhead hpflen
                have hInv := addWildW p0 i0 t0 v0 pf0 ch0 _ hX hIL hnc hnp
                  (InvS_WInv _ hcInv) (Or.inr rfl)
                exact ⟨hInv, by simp, by simp⟩
        · rename_i hncolon hnstar
          exfalso
          rw [hwhead] at hncolon hnstar
          rcases hc0wild with rfl | rfl
          · exact hncolon rfl
          · exact hnstar rfl

/-- Weak analogue of `insertChildOkFresh`: `insert_child` on any node with
no children, no indices, no wildcard flag and an empty prefix (the shape of
the root whenever the `prefix.is_empty && children.is_empty` branch of
`insert` fires, value and priority arbitrary). -/
theorem insertChildFreshW (fuel : Nat) (cur : Node T) (pfxArg route : List Byte)
    (v : T) (t : Node T)
    (h : Node.insertChildF fuel cur pfxArg route v = some (t, none))
    (hch : cur.children = []) (hidx : cur.indices = []) (hwild : cur.wild_child = false)
    (hpfx : cur.pfx = [])
    (htype : cur.node_type = NodeType.Static ∨ cur.node_type = NodeType.Root) :
    WInv t ∧ t.node_type = cur.node_type := by
  cases fuel with
  | zero => simp [Node.insertChildF] at h
  | succ fuel =>
  cases cur with
  | mk p0 w0 i0 t0 v0 pf0 ch0 =>
  simp only [Node.children_mk, Node.indices_mk, Node.wild_child_mk, Node.pfx_mk,
    Node.node_type_mk] at hch hidx hwild hpfx htype
  subst hch hidx hwild hpfx
  simp only [Node.insertChildF] at h
  split at h
  · simp at h
  · -- no wildcard: the value lands here
    rename_i hfw
    have hnw : noWildBytes pfxArg := find_wildcard_none hfw
    simp only [Option.some.injEq, Prod.mk.injEq] at h
    obtain ⟨ht, -⟩ := h
    subst ht
    simp only [Node.setValue, Node.setPfx]
    refine ⟨?_, by simp⟩
    rw [WInv_def]
    refine ⟨⟨?_, ?_, ?_, ?_, ?_⟩, ?_⟩
    · rcases htype with h' | h' <;>
        simp [h', indicesMatch, statics, List.Forall₂.nil]
    · intro c hc; simp [statics] at hc
    · simp
    · simp [statics]
    · rcases htype with h' | h' <;> simp [h', hnw]
    · simp [WInvL]
  · -- a wildcard was found
    rename_i w wi hfw
    obtain ⟨c0, hc0get, hc0wild, hwhead, hbefore, hw1, hwle, hweq, hslash⟩ :=
      find_wildcard_some hfw
    have hsp1 : (Node.stripWildPrefix (Node.mk p0 false [] t0 v0 [] []) pfxArg wi).1 =
        Node.mk p0 false [] t0 v0 (pfxArg.take wi) [] := by
      simp only [Node.stripWildPrefix]
      split
      · simp [Node.setPfx]
      · rename_i h0
        have h0' : wi = 0 := by omega
        subst h0'
        simp
    have hsp2 : (Node.stripWildPrefix (Node.mk p0 false [] t0 v0 [] []) pfxArg wi).2 =
        pfxArg.drop wi := by
      simp only [Node.stripWildPrefix]
      split
      · simp
      · rename_i h0
        have h0' : wi = 0 := by omega
        subst h0'
        simp
    have hPFnw : noWildBytes (List.take wi pfxArg) := hbefore
    split at h
    · simp at h
    · rename_i hwlen
      split at h
      · -- ':' parameter
        rename_i hcolon
        simp [hsp1, hsp2, Node.setPfx, Node.dflt,
          Node.setNodeType, Node.add_child, Node.setChildren, Node.setWild,
          Node.bump, Node.setPriority, Node.setChildAt,
          Node.setValue, List.get?_cons_zero] at h
        split at h
        · -- the route continues past the parameter
          rename_i hcont
          split at h
          · simp at h
          · rename_i g' oe hrec
            simp only [Option.some.injEq, Prod.mk.injEq] at h
            obtain ⟨ht, hoe⟩ := h
            subst hoe
            subst ht
            obtain ⟨hgInv, hgv, hgp, hgt, hghead⟩ :=
              insertChildOkFresh fuel _ _ _ _ _ hrec
                ⟨rfl, rfl, rfl, rfl, rfl, rfl, Or.inl rfl⟩
            have hg'head : g'.pfx.head? = some bslash := by
              apply hghead
              · rw [List.head?_drop]
                have := hslash (by omega)
                rw [List.get?_eq_getElem?] at this
                exact this
              · decide
              · decide
            obtain ⟨hpInv, -⟩ := paramChainInv w g' hcolon hwlen hgInv hgv
              (by simpa using hgt) hg'head
            refine ⟨?_, by simp⟩
            rw [WInv_def]
            refine ⟨⟨?_, ?_, ?_, ?_, ?_⟩, ?_⟩
            · rcases htype with h' | h' <;>
                simp [h', indicesMatch, statics, List.Forall₂.nil]
            · intro c hc; simp [statics] at hc
            · intro _
              exact ⟨Node.mk 1 false [] NodeType.Param none w [g'], by simp, Or.inl rfl⟩
            · simp [statics]
            · rcases htype with h' | h' <;> simp [h', hPFnw]
            · rw [WInvL_iff_forall]
              intro c hc
              simp at hc
              subst hc
              exact InvS_WInv _ hpInv
        · -- the parameter ends the route
          simp only [Option.some.injEq, Prod.mk.injEq] at h
          obtain ⟨ht, -⟩ := h
          subst ht
          obtain ⟨hpInv, -⟩ := paramLeafInv w v hcolon hwlen
          refine ⟨?_, by simp⟩
          rw [WInv_def]
          refine ⟨⟨?_, ?_, ?_, ?_, ?_⟩, ?_⟩
          · rcases htype with h' | h' <;>
              simp [h', indicesMatch, statics, List.Forall₂.nil]
          · intro c hc; simp [statics] at hc
          · intro _
            exact ⟨Node.mk 1 false [] NodeType.Param (some v) w [], by simp, Or.inl rfl⟩
          · simp [statics]
          · rcases htype with h' | h' <;> simp [h', hPFnw]
          · rw [WInvL_iff_forall]
            intro c hc
            simp at hc
            subst hc
            exact InvS_WInv _ hpInv
      · split at h
        · -- '*' catch-all
          rename_i hstar
          split at h
          · simp at h
          · rename_i hlen_eq
            split at h
            · simp at h
            · split at h
              · simp at h
              · rename_i hnotbad
                simp [hsp1, hsp2, Node.setPfx, Node.dflt,
                  Node.setNodeType, Node.add_child, Node.setChildren,
                  Node.setWild, Node.setPriority, Node.setValue] at h
                subst h
                have hdrophead : (List.drop wi pfxArg).head? = some bstar := by
                  rw [List.head?_drop]
                  rw [List.get?_eq_getElem?] at hc0get
                  rw [hc0get]
                  congr 1
                  rw [hwhead] at hstar
                  injection hstar
                have hdroplen : 2 ≤ (List.drop wi pfxArg).length := by
                  simp
                  omega
                obtain ⟨hcInv, -⟩ := catchAllInv (List.drop wi pfxArg) v hdrophead hdroplen
                refine ⟨?_, by simp⟩
                rw [WInv_def]
                refine ⟨⟨?_, ?_, ?_, ?_, ?_⟩, ?_⟩
                · rcases htype with h' | h' <;>
                    simp [h', indicesMatch, statics, List.Forall₂.nil]
                · intro c hc; simp [statics] at hc
                · intro _
                  exact ⟨Node.mk 1 false [] NodeType.CatchAll (some v) (List.drop wi pfxArg) [],
                    by simp, Or.inr rfl⟩
                · simp [statics]
                · rcases htype with h' | h' <;> simp [h', hbefore]
                · rw [WInvL_iff_forall]
                  intro c hc
                  simp at hc
                  subst hc
                  exact InvS_WInv _ hcInv
        · rename_i hncolon hnstar
          exfalso
          rw [hwhead] at hncolon hnstar
          rcases hc0wild with rfl | rfl
          · exact hncolon rfl
          · exact hnstar rfl

/-- Weak analogue of `splitNodePend`. -/
theorem splitNodeW (cur : Node T) (common : Nat) (pfxArg : List Byte)
    (hw : WInv cur)
    (ht : cur.node_type = NodeType.Static ∨ cur.node_type = NodeType.Root)
    (hlt : common < cur.pfx.length)
    (hagree : pfxArg.take common = cur.pfx.take common) :
    WInv (cur.splitNode common pfxArg) := by
  cases cur with
  | mk p0 w0 i0 t0 v0 pf0 ch0 =>
  rw [WInv_def] at hw
  obtain ⟨hX, hIL⟩ := hw
  obtain ⟨hinv2, htypes, hwc, hchain, htarm⟩ := hX
  simp only [Node.node_type_mk] at ht
  simp only [Node.pfx_mk] at hlt hagree
  simp only [Node.children_mk] at hIL
  have hnw : noWildBytes pf0 := by
    rcases ht with h' | h' <;> (subst h'; exact htarm)
  have hsplit : (Node.mk p0 w0 i0 t0 v0 pf0 ch0).splitNode common pfxArg =
      Node.mk p0 false ((pf0.drop common).take 1) t0 none (pfxArg.take common)
        [Node.mk (p0 - 1) w0 i0 NodeType.Static v0 (pf0.drop common) ch0] := by
    simp [Node.splitNode, Node.setChildren, Node.setIndices, Node.setPfx,
      Node.setWild, Node.setValue]
  rw [hsplit]
  obtain ⟨hd, td, hdec⟩ : ∃ hd td, pf0.drop common = hd :: td := by
    cases hcase : pf0.drop common with
    | nil =>
      exfalso
      have hz : (pf0.drop common).length = 0 := by rw [hcase]; rfl
      rw [List.length_drop] at hz
      omega
    | cons a b => exact ⟨a, b, rfl⟩
  have hchildInv : WInv (Node.mk (p0 - 1) w0 i0 NodeType.Static v0 (pf0.drop common) ch0) := by
    rw [WInv_def]
    refine ⟨⟨?_, ?_, ?_, ?_, ?_⟩, ?_⟩
    · rcases ht with h' | h' <;> (subst h'; exact hinv2)
    · exact htypes
    · exact hwc
    · exact hchain
    · simp only [Node.node_type_mk, Node.pfx_mk]
      exact fun b hb => hnw b (List.drop_subset _ _ hb)
    · exact hIL
  rw [WInv_def]
  refine ⟨⟨?_, ?_, ?_, ?_, ?_⟩, ?_⟩
  · have hgoal : indicesMatch (Node.mk p0 false ((pf0.drop common).take 1) t0 none
        (pfxArg.take common)
        [Node.mk (p0 - 1) w0 i0 NodeType.Static v0 (pf0.drop common) ch0]) := by
      unfold indicesMatch
      simp only [Node.indices_mk, statics, Node.wild_child_mk, Node.children_mk]
      rw [if_neg (by simp)]
      rw [hdec]
      simp only [List.take_succ_cons, List.take_zero]
      refine List.Forall₂.cons ?_ List.Forall₂.nil
      simp [hdec]
    rcases ht with h' | h' <;> (subst h'; exact hgoal)
  · intro c hc
    simp only [statics, Node.wild_child_mk, Node.children_mk] at hc
    rw [if_neg (by simp)] at hc
    simp at hc
    subst hc
    rfl
  · intro hcon
    simp at hcon
  · simp only [statics, Node.wild_child_mk, Node.children_mk]
    rw [if_neg (by simp)]
    exact List.chain'_singleton _
  · rcases ht with h' | h' <;>
    · subst h'
      simp only [Node.node_type_mk, Node.pfx_mk]
      rw [hagree]
      exact fun b hb => hnw b (List.take_subset _ _ hb)
  · simp only [Node.children_mk]
    rw [WInvL_iff_forall]
    intro c hc
    simp at hc
    subst hc
    exact hchildInv

/-- Weak analogue of `maybeSplitPend`. -/
theorem maybeSplitW (cur : Node T) (pfxArg : List Byte)
    (hw : WInv cur)
    (hnc : cur.node_type ≠ NodeType.CatchAll)
    (hpp : cur.node_type = NodeType.Param → cur.pfx <+: pfxArg) :
    WInv (Node.maybeSplit cur (commonPrefixLen pfxArg cur.pfx) pfxArg) ∧
    (∀ b : Byte, pfxArg.head? = some b → cur.pfx.head? = some b →
      (Node.maybeSplit cur (commonPrefixLen pfxArg cur.pfx) pfxArg).pfx.head? = some b) := by
  unfold Node.maybeSplit
  split
  · rename_i hlt
    have ht : cur.node_type = NodeType.Static ∨ cur.node_type = NodeType.Root := by
      cases hcase : cur.node_type with
      | Static => exact Or.inl rfl
      | Root => exact Or.inr rfl
      | CatchAll => exact absurd hcase hnc
      | Param =>
        exfalso
        have := commonPrefixLen_of_prefix cur.pfx pfxArg (hpp hcase)
        omega
    refine ⟨splitNodeW cur _ pfxArg hw ht hlt (commonPrefixLen_take_eq pfxArg cur.pfx), ?_⟩
    intro b hb1 hb2
    rw [splitNode_pfx]
    rw [List.head?_take]
    have hpos := commonPrefixLen_pos pfxArg cur.pfx b hb1 hb2
    rw [if_neg (by omega)]
    exact hb1
  · exact ⟨hw, fun b _ hb => hb⟩

/-- Weak analogue of `reattachInv`. -/
theorem reattachW (n : Node T) (i : Nat) (x c' : Node T) (next : Byte)
    (hx : n.children[i]? = some x)
    (hidx : n.indices[i]? = some next)
    (hlen : n.indices.length = (statics n).length)
    (hstat : i < (statics n).length)
    (hpairs : ∀ (k : Nat) (bk : Byte) (yk : Node T), k ≠ i → n.indices[k]? = some bk →
      n.children[k]? = some yk → yk.pfx.head? = some bk ∧ yk.node_type = NodeType.Static)
    (hmem : ∀ (k : Nat) (y : Node T), k ≠ i → n.children[k]? = some y → WInv y)
    (hchain : List.Chain' (fun a b : Node T => b.priority ≤ a.priority) (statics n))
    (hw : n.wild_child = true → ∃ w, n.children.getLast? = some w ∧
      (w.node_type = NodeType.Param ∨ w.node_type = NodeType.CatchAll))
    (hta2 : n.node_type = NodeType.Static ∨ n.node_type = NodeType.Root →
      noWildBytes n.pfx)
    (htaP : n.node_type = NodeType.Param → n.pfx.head? = some bcolon ∧
      2 ≤ n.pfx.length ∧ n.wild_child = false ∧ n.children.length ≤ 1 ∧ next = bslash)
    (hnc : n.node_type ≠ NodeType.CatchAll)
    (hc' : WInv c') (hcp : c'.priority = x.priority + 1)
    (hct : c'.node_type = NodeType.Static) (hch : c'.pfx.head? = some next) :
    WInv ((n.update_child_priority i).1.setChildAt (n.update_child_priority i).2 c') ∧
    ((n.update_child_priority i).1.setChildAt (n.update_child_priority i).2 c').node_type =
      n.node_type ∧
    ((n.update_child_priority i).1.setChildAt (n.update_child_priority i).2 c').pfx =
      n.pfx := by
  obtain ⟨u, hu, h2, h3, hIdx, h4, h5⟩ := update_child_priority_spec n i x hx
  have hilen : i < n.children.length := lt_length_of_getElem? hx
  have hblen : i < n.indices.length := lt_length_of_getElem? hidx
  have hidxrot := hIdx next hidx
  set t := (n.update_child_priority i).1.setChildAt (n.update_child_priority i).2 c' with ht
  have htch : t.children = n.children.take u ++ c' :: ((n.children.drop u).take (i - u))
      ++ n.children.drop (i+1) := by
    rw [ht]
    simp only [Node.children_setChildAt]
    rw [h3, h2]
    exact rot_set n.children x.bump c' u i hu hilen
  have htidx : t.indices = n.indices.take u ++ next :: ((n.indices.drop u).take (i - u))
      ++ n.indices.drop (i+1) := by
    rw [ht]
    simp only [Node.indices_setChildAt]
    exact hidxrot
  have hcg : ∀ k : Nat, t.children[k]? =
      if k < u then n.children[k]? else if k = u then some c'
      else if k ≤ i then n.children[k-1]? else n.children[k]? := by
    intro k
    rw [htch]
    exact rot_getElem? n.children c' u i k hu hilen
  have hig : ∀ k : Nat, t.indices[k]? =
      if k < u then n.indices[k]? else if k = u then some next
      else if k ≤ i then n.indices[k-1]? else n.indices[k]? := by
    intro k
    rw [htidx]
    exact rot_getElem? n.indices next u i k hu hblen
  have hclen : t.children.length = n.children.length := by
    rw [htch]; exact rot_length n.children c' u i hu hilen
  have hilen2 : t.indices.length = n.indices.length := by
    rw [htidx]; exact rot_length n.indices next u i hu hblen
  have htw : t.wild_child = n.wild_child := by rw [ht]; simp
  have htty : t.node_type = n.node_type := by rw [ht]; simp
  have htpf : t.pfx = n.pfx := by rw [ht]; simp
  have hstl : (statics t).length = (statics n).length := by
    unfold statics
    rw [htw]
    split <;> simp [hclen]
  have hstg : ∀ k : Nat, k < (statics t).length → (statics t)[k]? = t.children[k]? :=
    fun k hk => statics_getElem? t k hk
  have hsng : ∀ k : Nat, k < (statics n).length → (statics n)[k]? = n.children[k]? :=
    fun k hk => statics_getElem? n k hk
  have him : indicesMatch t := by
    unfold indicesMatch
    apply forall₂_of_getElem?
    · rw [hilen2, hlen, hstl]
    · intro k bk yk hbk hyk
      have hks : k < (statics t).length := lt_length_of_getElem? hyk
      rw [hstg k hks] at hyk
      rw [hig k] at hbk
      rw [hcg k] at hyk
      by_cases b1 : k < u
      · rw [if_pos b1] at hbk hyk
        exact (hpairs k bk yk (by omega) hbk hyk).1
      · rw [if_neg b1] at hbk hyk
        by_cases b2 : k = u
        · rw [if_pos b2] at hbk hyk
          injection hbk with hbk
          injection hyk with hyk
          subst hbk
          subst hyk
          exact hch
        · rw [if_neg b2] at hbk hyk
          by_cases b3 : k ≤ i
          · rw [if_pos b3] at hbk hyk
            exact (hpairs (k-1) bk yk (by omega) hbk hyk).1
          · rw [if_neg b3] at hbk hyk
            exact (hpairs k bk yk (by omega) hbk hyk).1
  have hsty : ∀ c ∈ statics t, c.node_type = NodeType.Static := by
    intro c hcmem
    obtain ⟨k, hkc⟩ := exists_getElem?_of_mem hcmem
    have hks := lt_length_of_getElem? hkc
    rw [hstg k hks] at hkc
    rw [hcg k] at hkc
    have hkidx : k < n.indices.length := by
      rw [hlen, ← hstl]
      exact hks
    by_cases b1 : k < u
    · rw [if_pos b1] at hkc
      obtain ⟨bk, hbk⟩ : ∃ bk, n.indices[k]? = some bk :=
        ⟨_, List.getElem?_eq_getElem (by omega)⟩
      exact (hpairs k bk c (by omega) hbk hkc).2
    · rw [if_neg b1] at hkc
      by_cases b2 : k = u
      · rw [if_pos b2] at hkc
        injection hkc with hkc
        subst hkc
        exact hct
      · rw [if_neg b2] at hkc
        by_cases b3 : k ≤ i
        · rw [if_pos b3] at hkc
          obtain ⟨bk, hbk⟩ : ∃ bk, n.indices[k-1]? = some bk :=
            ⟨_, List.getElem?_eq_getElem (by omega)⟩
          exact (hpairs (k-1) bk c (by omega) hbk hkc).2
        · rw [if_neg b3] at hkc
          obtain ⟨bk, hbk⟩ : ∃ bk, n.indices[k]? = some bk :=
            ⟨_, List.getElem?_eq_getElem (by omega)⟩
          exact (hpairs k bk c (by omega) hbk hkc).2
  have hwild : t.wild_child = true → ∃ w, t.children.getLast? = some w ∧
      (w.node_type = NodeType.Param ∨ w.node_type = NodeType.CatchAll) := by
    intro hwt
    rw [htw] at hwt
    obtain ⟨w, hwlast, hwty⟩ := hw hwt
    refine ⟨w, ?_, hwty⟩
    rw [List.getLast?_eq_getElem?] at hwlast ⊢
    rw [hclen, hcg (n.children.length - 1)]
    have hi2 : i < n.children.length - 1 := by
      have := statics_length_wild n hwt
      omega
    rw [if_neg (by omega), if_neg (by omega), if_neg (by omega)]
    exact hwlast
  have hold : ∀ (k1 : Nat) (y z : Node T), k1 + 1 < (statics n).length →
      n.children[k1]? = some y → n.children[k1+1]? = some z →
      z.priority ≤ y.priority := by
    intro k1 y z hk1 hy hz
    exact chain'_rel hchain (k := k1)
      (by rw [hsng k1 (by omega)]; exact hy)
      (by rw [hsng (k1+1) hk1]; exact hz)
  have hold2 : ∀ (k1 : Nat) (y z : Node T), k1 + 2 < (statics n).length →
      n.children[k1]? = some y → n.children[k1+2]? = some z →
      z.priority ≤ y.priority := by
    intro k1 y z hk2 hy hz
    have hmlt : k1 + 1 < n.children.length := by
      have := statics_length_le n
      omega
    obtain ⟨m, hm⟩ : ∃ m, n.children[k1+1]? = some m :=
      ⟨_, List.getElem?_eq_getElem hmlt⟩
    exact le_trans
      (hold (k1+1) m z (by omega) hm (by rw [show k1 + 1 + 1 = k1 + 2 by omega]; exact hz))
      (hold k1 y m (by omega) hy hm)
  have hcha : List.Chain' (fun a b : Node T => b.priority ≤ a.priority) (statics t) := by
    apply chain'_of_getElem?
    intro k a b hka hkb
    have hkb1 := lt_length_of_getElem? hkb
    have hka1 := lt_length_of_getElem? hka
    rw [hstg _ hka1] at hka
    rw [hstg _ hkb1] at hkb
    rw [hcg k] at hka
    rw [hcg (k+1)] at hkb
    have hksn : k + 1 < (statics n).length := by rw [← hstl]; exact hkb1
    by_cases b1 : k + 1 < u
    · rw [if_pos (by omega)] at hka
      rw [if_pos b1] at hkb
      exact hold k a b (by omega) hka hkb
    · by_cases b2 : k + 1 = u
      · rw [if_pos (by omega)] at hka
        rw [if_neg b1, if_pos b2] at hkb
        injection hkb with hkb
        subst hkb
        have h5a := h5 a (by omega) (by rw [show u - 1 = k by omega]; exact hka)
        rw [hcp]
        omega
      · by_cases b3 : k = u
        · rw [if_neg (by omega), if_pos b3] at hka
          injection hka with hka
          subst hka
          rw [if_neg b1, if_neg (by omega)] at hkb
          by_cases b4 : k + 1 ≤ i
          · rw [if_pos b4] at hkb
            have hkb' : n.children[k]? = some b := by
              rw [show k + 1 - 1 = k by omega] at hkb
              exact hkb
            have h4a := h4 k b (by omega) (by omega) hkb'
            rw [hcp]
            omega
          · rw [if_neg b4] at hkb
            have hui : u = i := by omega
            have hb' := hold i x b (by omega)
              hx (by rw [show i + 1 = k + 1 by omega]; exact hkb)
            rw [hcp]
            omega
        · rw [if_neg (by omega), if_neg b3] at hka
          by_cases b4 : k ≤ i
          · rw [if_pos b4] at hka
            by_cases b5 : k + 1 ≤ i
            · rw [if_neg b1, if_neg (by omega), if_pos b5] at hkb
              have hkb' : n.children[k-1+1]? = some b := by
                rw [show k - 1 + 1 = k by omega]
                rw [show k + 1 - 1 = k by omega] at hkb
                exact hkb
              exact hold (k-1) a b (by omega) hka hkb'
            · rw [if_neg b1, if_neg (by omega), if_neg b5] at hkb
              have hkb' : n.children[k-1+2]? = some b := by
                rw [show k - 1 + 2 = k + 1 by omega]
                exact hkb
              exact hold2 (k-1) a b (by omega) hka hkb'
          · rw [if_neg b4] at hka
            rw [if_neg b1, if_neg (by omega), if_neg (by omega)] at hkb
            exact hold k a b (by omega) hka hkb
  have hIL : WInvL t.children := by
    rw [WInvL_iff_forall]
    intro c hcmem
    obtain ⟨k, hkc⟩ := exists_getElem?_of_mem hcmem
    rw [hcg k] at hkc
    by_cases b1 : k < u
    · rw [if_pos b1] at hkc
      exact hmem k c (by omega) hkc
    · rw [if_neg b1] at hkc
      by_cases b2 : k = u
      · rw [if_pos b2] at hkc
        injection hkc with hkc
        subst hkc
        exact hc'
      · rw [if_neg b2] at hkc
        by_cases b3 : k ≤ i
        · rw [if_pos b3] at hkc
          exact hmem (k-1) c (by omega) hkc
        · rw [if_neg b3] at hkc
          exact hmem k c (by omega) hkc
  refine ⟨?_, htty, htpf⟩
  rw [WInv_def]
  refine ⟨⟨?_, hsty, hwild, hcha, ?_⟩, hIL⟩
  · rw [htty]
    cases hcase : n.node_type with
    | Param =>
      have hP := htaP hcase
      exact ⟨by rw [hclen]; exact hP.2.2.2.1, Or.inr him⟩
    | Static => exact him
    | Root => exact him
    | CatchAll => exact absurd hcase hnc
  · rw [htty]
    cases hcase : n.node_type with
    | Static =>
      rw [htpf]
      exact hta2 (Or.inl hcase)
    | Root =>
      rw [htpf]
      exact hta2 (Or.inr hcase)
    | CatchAll => exact absurd hcase hnc
    | Param =>
      obtain ⟨hcolon, hl2, hwf, hle1, hnextsl⟩ := htaP hcase
      refine ⟨by rw [htpf]; exact hcolon, by rw [htpf]; exact hl2,
        by rw [htw]; exact hwf, ?_⟩
      have hlen1 : n.children.length = 1 := by omega
      have hi0 : i = 0 := by omega
      have hu0 : u = 0 := by omega
      obtain ⟨a, ha⟩ := List.length_eq_one.mp hlen1
      have hax : a = x := by
        rw [ha, hi0] at hx
        simp at hx
        exact hx
      have htc1 : t.children = [c'] := by
        rw [htch, hu0, hi0, ha, hax]
        simp
      rw [htc1]
      intro c hc
      simp at hc
      subst hc
      rw [hch, hnextsl]

/-- Weak analogue of `walkOk`: the `'walk'` loop preserves the priority-free
structural invariant on any node, with no assumptions on priorities or
stored values. -/
theorem walkW : ∀ (fuel : Nat) (cur : Node T) (pfxArg route : List Byte) (v : T)
    (t : Node T),
    Node.walkF fuel cur pfxArg route v = some (t, none) →
    WInv cur →
    cur.node_type ≠ NodeType.CatchAll →
    (cur.node_type = NodeType.Param → cur.pfx <+: pfxArg ∧
      (pfxArg.length = cur.pfx.length ∨ pfxArg.get? cur.pfx.length = some bslash)) →
    WInv t ∧ t.node_type = cur.node_type ∧
    (∀ b : Byte, pfxArg.head? = some b → cur.pfx.head? = some b →
      t.pfx.head? = some b) := by
  intro fuel
  induction fuel with
  | zero =>
    intro cur pfxArg route v t h hwv hnc hpp
    simp [Node.walkF] at h
  | succ fuel ih =>
    intro cur pfxArg route v t h hwv hnc hpp
    simp only [Node.walkF] at h
    obtain ⟨hw1v, hhead1⟩ := maybeSplitW cur pfxArg hwv hnc (fun hP => (hpp hP).1)
    set common := commonPrefixLen pfxArg cur.pfx with hcommon
    set cur1 := Node.maybeSplit cur common pfxArg with hcur1
    have hty1 : cur1.node_type = cur.node_type := by rw [hcur1]; simp
    have hnc1 : cur1.node_type ≠ NodeType.CatchAll := by rw [hty1]; exact hnc
    have hpp1 : cur1.node_type = NodeType.Param → cur1 = cur := by
      intro hP
      have hno : ¬ (common < cur.pfx.length) := by
        have hPcur : cur.node_type = NodeType.Param := by rw [← hty1]; exact hP
        have := commonPrefixLen_of_prefix cur.pfx pfxArg (hpp hPcur).1
        omega
      rw [hcur1]
      unfold Node.maybeSplit
      rw [if_neg hno]
    split at h
    · -- the path continues past this node
      rename_i hclt
      set rest := pfxArg.drop common with hrest
      set nxt := rest.headD 0 with hnxt
      have hrestne : rest ≠ [] := by
        rw [hrest]
        intro hcon
        have hlz : (pfxArg.drop common).length = 0 := by rw [hcon]; rfl
        rw [List.length_drop] at hlz
        omega
      have hrhead : rest.head? = some nxt := head?_eq_headD rest 0 hrestne
      have hnxtget : pfxArg.get? common = some nxt := by
        rw [List.get?_eq_getElem?, ← List.head?_drop, ← hrest]
        exact hrhead
      have hPslash : cur1.node_type = NodeType.Param → nxt = bslash := by
        intro hP
        have hPcur : cur.node_type = NodeType.Param := by rw [← hty1]; exact hP
        obtain ⟨hpre, hor⟩ := hpp hPcur
        have hcpl : common = cur.pfx.length := by
          rw [hcommon]
          exact commonPrefixLen_of_prefix cur.pfx pfxArg hpre
        rcases hor with heq | hsl
        · omega
        · rw [hcpl] at hnxtget
          rw [hsl] at hnxtget
          injection hnxtget with hnxtget
          exact hnxtget.symm
      split at h
      · -- Branch A: `/` after a parameter with a single continuation child
        rename_i hAcond
        obtain ⟨hPt, hnsl, hlen1⟩ := hAcond
        split at h
        · rename_i c heqc
          split at h
          · simp at h
          · rename_i c' oe heqw
            simp only [Option.some.injEq, Prod.mk.injEq] at h
            obtain ⟨ht', hoe⟩ := h
            subst hoe
            subst ht'
            have hw1' := hw1v
            rw [WInv_def] at hw1'
            obtain ⟨⟨hinv2, htypes, hwcX, hchainX, htarm⟩, hIL1⟩ := hw1'
            rw [hPt] at htarm hinv2
            obtain ⟨hcolon, hl2, hwf, hchead⟩ := htarm
            have hcmem : c ∈ cur1.children := by rw [heqc]; simp
            have hcInv : WInv c := (WInvL_iff_forall.mp hIL1) c hcmem
            have hcty : c.node_type = NodeType.Static := by
              apply htypes
              rw [statics_eq_children cur1 hwf]
              exact hcmem
            have hchd : c.pfx.head? = some bslash := hchead c hcmem
            obtain ⟨hc'Inv, hc'ty, hc'h⟩ :=
              ih c.bump rest route v c' heqw (WInv_bump.mpr hcInv)
                (by simp [hcty])
                (by intro hPf; simp [hcty] at hPf)
            have hc'head : c'.pfx.head? = some bslash := by
              apply hc'h bslash
              · rw [hrhead, hnsl]
              · simpa using hchd
            refine ⟨?_, by simp [hty1],
              fun b hb1 hb2 => by simp only [Node.pfx_setChildren]; exact hhead1 b hb1 hb2⟩
            rw [WInv_def]
            refine ⟨⟨?_, ?_, ?_, ?_, ?_⟩, ?_⟩
            · simp only [Node.node_type_setChildren]
              rw [hPt]
              refine ⟨by simp, ?_⟩
              rcases hinv2.2 with hidxnil | hidxm
              · exact Or.inl (by simpa using hidxnil)
              · right
                have hidx1 : ∃ b0, cur1.indices = [b0] ∧ c.pfx.head? = some b0 := by
                  unfold indicesMatch at hidxm
                  have hl := hidxm.length_eq
                  rw [statics_eq_children cur1 hwf, heqc] at hl
                  simp at hl
                  obtain ⟨b0, hb0⟩ := List.length_eq_one.mp hl
                  refine ⟨b0, hb0, ?_⟩
                  apply forall₂_rel hidxm (k := 0)
                  · rw [hb0]; rfl
                  · rw [statics_eq_children cur1 hwf, heqc]; rfl
                obtain ⟨b0, hb0, hcb0⟩ := hidx1
                have hb0sl : b0 = bslash := by
                  rw [hchd] at hcb0
                  injection hcb0 with hcb0
                  exact hcb0.symm
                unfold indicesMatch
                rw [statics_eq_children _ (by simpa using hwf)]
                simp only [Node.indices_setChildren, Node.children_setChildren]
                rw [hb0]
                exact List.Forall₂.cons (by rw [hc'head, hb0sl]) List.Forall₂.nil
            · intro z hz
              rw [statics_eq_children _ (by simpa using hwf)] at hz
              simp at hz
              subst hz
              rw [hc'ty]
              simpa using hcty
            · intro hcon
              simp only [Node.wild_child_setChildren] at hcon
              rw [hwf] at hcon
              exact absurd hcon (by simp)
            · rw [statics_eq_children _ (by simpa using hwf)]
              simp only [Node.children_setChildren]
              exact List.chain'_singleton _
            · simp only [Node.node_type_setChildren]
              rw [hPt]
              refine ⟨by simpa using hcolon, by simpa using hl2, by simpa using hwf, ?_⟩
              intro z hz
              simp only [Node.children_setChildren] at hz
              simp at hz
              subst hz
              exact hc'head
            · simp only [Node.children_setChildren]
              rw [WInvL_iff_forall]
              intro z hz
              simp at hz
              subst hz
              exact hc'Inv
        · simp at h
      · rename_i hnotA
        split at h
        · -- Branch B: a static child matches the next byte
          rename_i i hfind
          have hw1' := hw1v
          rw [WInv_def] at hw1'
          obtain ⟨⟨hinv2, htypes, hwcX, hchainX, htarm⟩, hIL1⟩ := hw1'
          obtain ⟨hilt, hidxeq⟩ := List.findIdx?_eq_some_iff_findIdx_eq.mp hfind
          have hnexti : cur1.indices[i]? = some nxt := by
            have h0 := @List.findIdx_getElem _ (fun c => decide (c = nxt))
              cur1.indices (by rw [hidxeq]; exact hilt)
            simp only [hidxeq, decide_eq_true_eq] at h0
            rw [List.getElem?_eq_getElem hilt, h0]
          have him1 : indicesMatch cur1 := by
            cases hcase : cur1.node_type with
            | Param =>
              have h2' := hinv2
              rw [hcase] at h2'
              rcases h2'.2 with hnil | hm2
              · exfalso
                rw [hnil] at hilt
                simp at hilt
              · exact hm2
            | Static =>
              have h2' := hinv2
              rw [hcase] at h2'
              exact h2'
            | Root =>
              have h2' := hinv2
              rw [hcase] at h2'
              exact h2'
            | CatchAll => exact absurd hcase hnc1
          obtain ⟨hlenm, hidxspec⟩ := indicesMatch_spec him1
          obtain ⟨x, hxg, hxhead⟩ := hidxspec i nxt hnexti
          have hxty : x.node_type = NodeType.Static := by
            apply htypes
            apply mem_of_getElem?_eq (l := statics cur1) (k := i)
            rw [statics_getElem? _ _ (by omega)]
            exact hxg
          have hxInv : WInv x :=
            (WInvL_iff_forall.mp hIL1) x (mem_of_getElem?_eq hxg)
          obtain ⟨u, hu, h2s, h3s, hIdxr, h4r, h5r⟩ :=
            update_child_priority_spec cur1 i x hxg
          split at h
          · simp at h
          · rename_i c hcg2
            have hcex : c = x.bump := by
              rw [List.get?_eq_getElem?, h2s, h3s] at hcg2
              rw [rot_getElem? cur1.children x.bump u i u hu
                (lt_length_of_getElem? hxg)] at hcg2
              rw [if_neg (by omega), if_pos rfl] at hcg2
              injection hcg2 with hcg2
              exact hcg2.symm
            subst hcex
            split at h
            · simp at h
            · rename_i c' oe heqw
              simp only [Option.some.injEq, Prod.mk.injEq] at h
              obtain ⟨ht', hoe⟩ := h
              subst hoe
              subst ht'
              obtain ⟨hc'Inv, hc'ty, hc'h⟩ :=
                ih x.bump rest route v c' heqw (WInv_bump.mpr hxInv)
                  (by simp [hxty])
                  (by intro hPf; simp [hxty] at hPf)
              have hre := reattachW cur1 i x c' nxt hxg hnexti hlenm (by omega)
                (by
                  intro k bk yk hk hbk hyk
                  obtain ⟨yk', hyk', hhd⟩ := hidxspec k bk hbk
                  rw [hyk'] at hyk
                  injection hyk with hyk
                  subst hyk
                  refine ⟨hhd, ?_⟩
                  apply htypes
                  apply mem_of_getElem?_eq (l := statics cur1) (k := k)
                  rw [statics_getElem? _ _ (by
                    have := lt_length_of_getElem? hbk
                    omega)]
                  exact hyk')
                (by
                  intro k y hk hky
                  exact (WInvL_iff_forall.mp hIL1) y (mem_of_getElem?_eq hky))
                hchainX hwcX
                (by
                  intro hSR
                  rcases hSR with h' | h' <;>
                  · have ht' := htarm
                    rw [h'] at ht'
                    exact ht')
                (by
                  intro hP
                  have ht' := htarm
                  have h2' := hinv2
                  rw [hP] at ht' h2'
                  exact ⟨ht'.1, ht'.2.1, ht'.2.2.1, h2'.1, hPslash hP⟩)
                hnc1 hc'Inv
                (by
                  rw [Node.walkF_priority fuel x.bump rest route v c' none heqw]
                  simp)
                (by rw [hc'ty]; simp [hxty])
                (by
                  apply hc'h nxt hrhead
                  simpa using hxhead)
              obtain ⟨hreInv, hrety, hrepf⟩ := hre
              exact ⟨hreInv, by rw [hrety, hty1],
                fun b hb1 hb2 => by rw [hrepf]; exact hhead1 b hb1 hb2⟩
        · rename_i hfindnone
          split at h
          · -- Branch C: create a fresh static child
            rename_i hCcond
            obtain ⟨hnw2, -⟩ := hCcond
            push_neg at hnw2
            obtain ⟨hnwc, hnws⟩ := hnw2
            have hw1' := hw1v
            rw [WInv_def] at hw1'
            obtain ⟨⟨hinv2, htypes, hwcX, hchainX, htarm⟩, hIL1⟩ := hw1'
            set n2 := cur1.setIndices (cur1.indices ++ [nxt]) with hn2
            have hm : ∃ wtail : List (Node T),
                (n2.add_child Node.dflt).1.children = statics cur1 ++ Node.dflt :: wtail ∧
                (n2.add_child Node.dflt).2 = (statics cur1).length ∧
                (wtail = [] ∧ cur1.wild_child = false ∨
                 ∃ w, wtail = [w] ∧ cur1.wild_child = true ∧
                   cur1.children.getLast? = some w) := by
              by_cases hw : cur1.wild_child = true
              · obtain ⟨w, hwl, hwty⟩ := hwcX hw
                have hdec := eq_dropLast_concat_of_getLast? hwl
                have hstatw : statics cur1 = cur1.children.dropLast := by
                  unfold statics
                  rw [if_pos hw]
                obtain ⟨hc, hi⟩ := add_child_spec_wild n2 Node.dflt
                  cur1.children.dropLast w
                  (by rw [hn2]; simpa using hw)
                  (by rw [hn2]; simpa using hdec)
                refine ⟨[w], ?_, ?_, Or.inr ⟨w, rfl, hw, hwl⟩⟩
                · rw [hc, hstatw]
                · rw [hi, hstatw]
              · have hwf' : cur1.wild_child = false := by
                  cases hcase : cur1.wild_child
                  · rfl
                  · exact absurd hcase hw
                obtain ⟨hc, hi⟩ := add_child_spec_push n2 Node.dflt
                  (by
                    rw [hn2]
                    simp only [Node.wild_child_setIndices]
                    rw [hwf']
                    simp)
                refine ⟨[], ?_, ?_, Or.inl ⟨rfl, hwf'⟩⟩
                · rw [hc, statics_eq_children cur1 hwf', hn2]; simp
                · rw [hi, statics_eq_children cur1 hwf', hn2]; simp
            obtain ⟨wtail, hch3, hidx3v, hwcase⟩ := hm
            rw [hidx3v] at h
            set n3 := (n2.add_child Node.dflt).1 with hn3
            have hidx3n : n3.indices = cur1.indices ++ [nxt] := by
              rw [hn3, hn2]; simp
            have hty3 : n3.node_type = cur1.node_type := by rw [hn3, hn2]; simp
            have hpf3 : n3.pfx = cur1.pfx := by rw [hn3, hn2]; simp
            have hwi3 : n3.wild_child = cur1.wild_child := by rw [hn3, hn2]; simp
            have hnc3 : n3.node_type ≠ NodeType.CatchAll := by
              rw [hty3]; exact hnc1
            have hPempty : cur1.node_type = NodeType.Param → cur1.children = [] := by
              intro hP
              have hsl := hPslash hP
              have h2' := hinv2
              rw [hP] at h2'
              rcases Nat.lt_or_ge cur1.children.length 1 with h' | h'
              · exact List.eq_nil_of_length_eq_zero (by omega)
              · exact absurd ⟨hP, hsl, by omega⟩ hnotA
            have hcore : cur1.indices.length = (statics cur1).length ∧
                ∀ (k : Nat) (bk : Byte) (yk : Node T),
                  cur1.indices[k]? = some bk → cur1.children[k]? = some yk →
                  yk.pfx.head? = some bk ∧ yk.node_type = NodeType.Static := by
              cases hcase : cur1.node_type with
              | CatchAll => exact absurd hcase hnc1
              | Param =>
                have hemp := hPempty hcase
                have h2' := hinv2
                rw [hcase] at h2'
                have hsle0 : (statics cur1).length = 0 := by
                  have h9 := statics_length_le cur1
                  rw [hemp] at h9
                  simp only [List.length_nil] at h9
                  omega
                have hidx0 : cur1.indices = [] := by
                  rcases h2'.2 with hnil | hm2
                  · exact hnil
                  · have hl := (indicesMatch_spec hm2).1
                    exact List.eq_nil_of_length_eq_zero (by omega)
                constructor
                · rw [hidx0]
                  simp only [List.length_nil]
                  omega
                · intro k bk yk hbk hyk
                  rw [hidx0] at hbk
                  simp at hbk
              | Static =>
                have h2' := hinv2
                rw [hcase] at h2'
                obtain ⟨hl, hsp⟩ := indicesMatch_spec h2'
                refine ⟨hl, ?_⟩
                intro k bk yk hbk hyk
                obtain ⟨yk', hyk', hhd⟩ := hsp k bk hbk
                rw [hyk'] at hyk
                injection hyk with hyk
                subst hyk
                refine ⟨hhd, ?_⟩
                apply htypes
                apply mem_of_getElem?_eq (l := statics cur1) (k := k)
                rw [statics_getElem? _ _ (by
                  have := lt_length_of_getElem? hbk
                  omega)]
                exact hyk'
              | Root =>
                have h2' := hinv2
                rw [hcase] at h2'
                obtain ⟨hl, hsp⟩ := indicesMatch_spec h2'
                refine ⟨hl, ?_⟩
                intro k bk yk hbk hyk
                obtain ⟨yk', hyk', hhd⟩ := hsp k bk hbk
                rw [hyk'] at hyk
                injection hyk with hyk
                subst hyk
                refine ⟨hhd, ?_⟩
                apply htypes
                apply mem_of_getElem?_eq (l := statics cur1) (k := k)
                rw [statics_getElem? _ _ (by
                  have := lt_length_of_getElem? hbk
                  omega)]
                exact hyk'
            have hstat3 : statics n3 = statics cur1 ++ [Node.dflt] := by
              rcases hwcase with ⟨hwt, hwf'⟩ | ⟨w, hwt, hw, hwl⟩
              · subst hwt
                rw [statics_eq_children n3 (by rw [hwi3]; exact hwf'), hch3]
              · subst hwt
                have hse : statics n3 = n3.children.dropLast := by
                  unfold statics
                  rw [if_pos (by rw [hwi3]; exact hw)]
                rw [hse, hch3]
                rw [show statics cur1 ++ Node.dflt :: [w] =
                  (statics cur1 ++ [Node.dflt]) ++ [w] by simp]
                rw [List.dropLast_concat]
            have hxg3 : n3.children[(statics cur1).length]? = some Node.dflt := by
              rw [hch3]
              exact getElem?_append_length _ _ _
            have hidxg3 : n3.indices[(statics cur1).length]? = some nxt := by
              rw [hidx3n, ← hcore.1]
              exact getElem?_append_length _ _ _
            have hlen3 : n3.indices.length = (statics n3).length := by
              rw [hidx3n, hstat3]
              simp [hcore.1]
            have hstat3lt : (statics cur1).length < (statics n3).length := by
              rw [hstat3]
              simp
            have hpairs3 : ∀ (k : Nat) (bk : Byte) (yk : Node T),
                k ≠ (statics cur1).length → n3.indices[k]? = some bk →
                n3.children[k]? = some yk →
                yk.pfx.head? = some bk ∧ yk.node_type = NodeType.Static := by
              intro k bk yk hk hbk hyk
              rw [hidx3n] at hbk
              rw [hch3] at hyk
              have hkl : k < cur1.indices.length + 1 := by
                have := lt_length_of_getElem? hbk
                simpa using this
              have hkm : k < (statics cur1).length := by
                rw [← hcore.1]
                omega
              rw [List.getElem?_append, if_pos (by omega)] at hbk
              rw [List.getElem?_append, if_pos (by omega)] at hyk
              rw [statics_getElem? _ _ (by omega)] at hyk
              exact hcore.2 k bk yk hbk hyk
            have hmem3 : ∀ (k : Nat) (y : Node T), k ≠ (statics cur1).length →
                n3.children[k]? = some y → WInv y := by
              intro k y hk hky
              rw [hch3] at hky
              have hymem : y ∈ cur1.children := by
                by_cases hkm : k < (statics cur1).length
                · rw [List.getElem?_append, if_pos (by omega)] at hky
                  exact statics_subset cur1 (mem_of_getElem?_eq hky)
                · rw [List.getElem?_append, if_neg (by omega)] at hky
                  rcases hwcase with ⟨hwt, -⟩ | ⟨w, hwt, -, hwl⟩
                  · subst hwt
                    exfalso
                    rw [show k - (statics cur1).length =
                      (k - (statics cur1).length - 1) + 1 by omega] at hky
                    simp at hky
                  · subst hwt
                    rw [show k - (statics cur1).length =
                      (k - (statics cur1).length - 1) + 1 by omega] at hky
                    rw [List.getElem?_cons_succ] at hky
                    have hj := lt_length_of_getElem? hky
                    simp at hj
                    rw [show k - (statics cur1).length - 1 = 0 by omega] at hky
                    simp at hky
                    subst hky
                    have hdec := eq_dropLast_concat_of_getLast? hwl
                    rw [hdec]
                    simp
              exact (WInvL_iff_forall.mp hIL1) y hymem
            have hchain3 : List.Chain' (fun a b : Node T => b.priority ≤ a.priority)
                (statics n3) := by
              rw [hstat3, List.chain'_append]
              refine ⟨hchainX, List.chain'_singleton _, ?_⟩
              intro a _ y hy
              simp at hy
              subst hy
              have hz : (Node.dflt : Node T).priority = 0 := rfl
              rw [hz]
              exact Nat.zero_le _
            have hw3 : n3.wild_child = true → ∃ w, n3.children.getLast? = some w ∧
                (w.node_type = NodeType.Param ∨ w.node_type = NodeType.CatchAll) := by
              intro hw3t
              rw [hwi3] at hw3t
              rcases hwcase with ⟨-, hwf'⟩ | ⟨w, hwt, hw, hwl⟩
              · rw [hwf'] at hw3t
                exact absurd hw3t (by simp)
              · subst hwt
                obtain ⟨w', hwl', hwty'⟩ := hwcX hw
                rw [hwl] at hwl'
                injection hwl' with hwl'
                refine ⟨w, ?_, by rw [← hwl'] at hwty'; exact hwty'⟩
                rw [hch3]
                rw [show statics cur1 ++ Node.dflt :: [w] =
                  (statics cur1 ++ [Node.dflt]) ++ [w] by simp]
                rw [List.getLast?_concat]
            have hta23 : n3.node_type = NodeType.Static ∨ n3.node_type = NodeType.Root →
                noWildBytes n3.pfx := by
              intro hSR
              rw [hty3] at hSR
              rw [hpf3]
              rcases hSR with h' | h' <;>
              · have ht' := htarm
                rw [h'] at ht'
                exact ht'
            have htaP3 : n3.node_type = NodeType.Param → n3.pfx.head? = some bcolon ∧
                2 ≤ n3.pfx.length ∧ n3.wild_child = false ∧ n3.children.length ≤ 1 ∧
                nxt = bslash := by
              intro hP3
              rw [hty3] at hP3
              have ht' := htarm
              rw [hP3] at ht'
              have hemp := hPempty hP3
              have hstat0 : statics cur1 = [] := by
                have h9 := statics_length_le cur1
                rw [hemp] at h9
                simp only [List.length_nil] at h9
                exact List.eq_nil_of_length_eq_zero (by omega)
              have hwt0 : wtail = [] := by
                rcases hwcase with ⟨hwt, -⟩ | ⟨w, hwt, hw, -⟩
                · exact hwt
                · rw [ht'.2.2.1] at hw
                  exact absurd hw (by simp)
              refine ⟨by rw [hpf3]; exact ht'.1, by rw [hpf3]; exact ht'.2.1,
                by rw [hwi3]; exact ht'.2.2.1, ?_, hPslash hP3⟩
              rw [hch3, hstat0, hwt0]
              simp
            obtain ⟨u, hu, h2s, h3s, hIdxr, h4r, h5r⟩ :=
              update_child_priority_spec n3 (statics cur1).length Node.dflt hxg3
            split at h
            · simp at h
            · rename_i c hcg2
              have hcex : c = Node.dflt.bump := by
                rw [List.get?_eq_getElem?, h2s, h3s] at hcg2
                rw [rot_getElem? n3.children Node.dflt.bump u (statics cur1).length u hu
                  (lt_length_of_getElem? hxg3)] at hcg2
                rw [if_neg (by omega), if_pos rfl] at hcg2
                injection hcg2 with hcg2
                exact hcg2.symm
              subst hcex
              split at h
              · simp at h
              · rename_i c' oe heqw
                simp only [Option.some.injEq, Prod.mk.injEq] at h
                obtain ⟨ht', hoe⟩ := h
                subst hoe
                subst ht'
                obtain ⟨hc'Inv, hc'v1, hc'p1, hc'tyf, hc'hf⟩ :=
                  insertChildOkFresh (rest.length + 1) Node.dflt.bump rest route v c'
                    heqw freshNode_dflt_bump
                have hre := reattachW n3 (statics cur1).length Node.dflt c' nxt
                  hxg3 hidxg3 hlen3 hstat3lt hpairs3 hmem3 hchain3 hw3 hta23 htaP3
                  hnc3 (InvS_WInv _ hc'Inv)
                  (by rw [hc'p1]; rfl)
                  (by rw [hc'tyf]; rfl)
                  (hc'hf nxt hrhead hnwc hnws)
                obtain ⟨hreInv, hrety, hrepf⟩ := hre
                exact ⟨hreInv, by rw [hrety, hty3, hty1],
                  fun b hb1 hb2 => by rw [hrepf, hpf3]; exact hhead1 b hb1 hb2⟩
          · rename_i hCneg
            have hnbw : nxt = bcolon ∨ nxt = bstar := by
              by_contra hcon
              push_neg at hcon
              exact hCneg ⟨by tauto, hnc1⟩
            split at h
            · -- Branch D: descend into the existing wildcard child
              rename_i hw1
              have hw1' := hw1v
              rw [WInv_def] at hw1'
              obtain ⟨⟨hinv2, htypes, hwcX, hchainX, htarm⟩, hIL1⟩ := hw1'
              obtain ⟨w0, hwl, hwty0⟩ := hwcX hw1
              have hnP1 : cur1.node_type ≠ NodeType.Param := by
                intro hP
                have ht' := htarm
                rw [hP] at ht'
                rw [ht'.2.2.1] at hw1
                simp at hw1
              split at h
              · simp at h
              · rename_i wc0 hwcg
                rw [hwl] at hwcg
                injection hwcg with hwcg
                subst hwcg
                split at h
                · simp at h
                · rename_i hguard
                  push_neg at hguard
                  obtain ⟨hg1, hg2, hg3, hg4⟩ := hguard
                  have hPw : w0.node_type = NodeType.Param := by
                    rcases hwty0 with hP | hCA
                    · exact hP
                    · exfalso
                      apply hg3
                      simpa using hCA
                  have hwInv : WInv w0 := by
                    apply (WInvL_iff_forall.mp hIL1) w0
                    have hdec := eq_dropLast_concat_of_getLast? hwl
                    rw [hdec]
                    simp
                  split at h
                  · simp at h
                  · rename_i wc' oe heqw
                    set cur2 := cur1.setChildAt (cur1.children.length - 1) w0.bump
                      with hcur2
                    simp only [Option.some.injEq, Prod.mk.injEq] at h
                    obtain ⟨ht', hoe⟩ := h
                    subst hoe
                    subst ht'
                    obtain ⟨hc'Inv, hc'ty, hc'h⟩ :=
                      ih w0.bump rest route v wc' heqw (WInv_bump.mpr hwInv)
                        hg3
                        (by
                          intro hPb
                          constructor
                          · rw [hg2]
                            exact List.take_prefix _ _
                          · by_cases hlt' : w0.bump.pfx.length < rest.length
                            · exact Or.inr (hg4 hlt')
                            · exact Or.inl (by omega))
                    have hdec := eq_dropLast_concat_of_getLast? hwl
                    have htch : (cur2.setChildAt (cur2.children.length - 1) wc').children =
                        cur1.children.dropLast ++ [wc'] := by
                      rw [hcur2]
                      simp only [Node.children_setChildAt, List.length_set]
                      rw [List.set_set]
                      conv_lhs => rw [hdec]
                      rw [show (cur1.children.dropLast ++ [w0]).length - 1 =
                        cur1.children.dropLast.length by simp]
                      exact set_middle_append _ _ _ _
                    have hty2 : (cur2.setChildAt (cur2.children.length - 1) wc').node_type =
                        cur1.node_type := by
                      rw [hcur2]; simp
                    have hpf2 : (cur2.setChildAt (cur2.children.length - 1) wc').pfx =
                        cur1.pfx := by
                      rw [hcur2]; simp
                    have hid2 : (cur2.setChildAt (cur2.children.length - 1) wc').indices =
                        cur1.indices := by
                      rw [hcur2]; simp
                    have hw2 : (cur2.setChildAt (cur2.children.length - 1) wc').wild_child =
                        true := by
                      rw [hcur2]
                      simp only [Node.wild_child_setChildAt]
                      exact hw1
                    have hstA : statics cur1 = cur1.children.dropLast := by
                      unfold statics
                      rw [if_pos hw1]
                    have hstt2 : statics (cur2.setChildAt (cur2.children.length - 1) wc') =
                        cur1.children.dropLast := by
                      unfold statics
                      rw [if_pos hw2, htch, List.dropLast_concat]
                    refine ⟨?_, by rw [hty2, hty1],
                      fun b hb1 hb2 => by rw [hpf2]; exact hhead1 b hb1 hb2⟩
                    rw [WInv_def]
                    refine ⟨⟨?_, ?_, ?_, ?_, ?_⟩, ?_⟩
                    · rw [hty2]
                      cases hcase : cur1.node_type with
                      | Param => exact absurd hcase hnP1
                      | CatchAll => exact absurd hcase hnc1
                      | Static =>
                        have h2' := hinv2
                        rw [hcase] at h2'
                        unfold indicesMatch
                        rw [hid2, hstt2, ← hstA]
                        exact h2'
                      | Root =>
                        have h2' := hinv2
                        rw [hcase] at h2'
                        unfold indicesMatch
                        rw [hid2, hstt2, ← hstA]
                        exact h2'
                    · intro z hz
                      rw [hstt2] at hz
                      apply htypes
                      rw [hstA]
                      exact hz
                    · intro _
                      refine ⟨wc', ?_, ?_⟩
                      · rw [htch, List.getLast?_concat]
                      · left
                        rw [hc'ty]
                        simpa using hPw
                    · rw [hstt2, ← hstA]
                      exact hchainX
                    · rw [hty2]
                      cases hcase : cur1.node_type with
                      | Param => exact absurd hcase hnP1
                      | CatchAll => exact absurd hcase hnc1
                      | Static =>
                        have ht' := htarm
                        rw [hcase] at ht'
                        rw [hpf2]
                        exact ht'
                      | Root =>
                        have ht' := htarm
                        rw [hcase] at ht'
                        rw [hpf2]
                        exact ht'
                    · rw [WInvL_iff_forall]
                      intro z hz
                      rw [htch] at hz
                      rcases List.mem_append.mp hz with hz | hz
                      · exact (WInvL_iff_forall.mp hIL1) z
                          (List.dropLast_subset _ hz)
                      · simp at hz
                        subst hz
                        exact hc'Inv
            · -- Branch E: create the wildcard child via `insert_child`
              rename_i hwfalse
              have hwf : cur1.wild_child = false := by
                cases hcase : cur1.wild_child
                · rfl
                · exact absurd hcase hwfalse
              have hnP1 : cur1.node_type ≠ NodeType.Param := by
                intro hP
                have hx := hPslash hP
                rcases hnbw with h' | h' <;>
                  (rw [hx] at h'; simp [bslash, bcolon, bstar] at h')
              obtain ⟨hInv, hty', hpf'⟩ :=
                insertChildWildW (rest.length+1) cur1 rest route v t nxt h hrhead
                  hnbw hwf hnc1 hnP1 hw1v
              exact ⟨hInv, by rw [hty', hty1],
                fun b hb1 hb2 => by rw [hpf']; exact hhead1 b hb1 hb2⟩
    · -- exact match: store the value in this node
      rename_i hcge
      split at h
      · simp at h
      · rename_i hvnone
        simp only [Option.some.injEq, Prod.mk.injEq] at h
        obtain ⟨ht', -⟩ := h
        subst ht'
        have hw1' := hw1v
        rw [WInv_def] at hw1'
        obtain ⟨⟨hinv2, htypes, hwcX, hchainX, htarm⟩, hIL1⟩ := hw1'
        refine ⟨?_, by rw [← hty1]; simp,
          fun b hb1 hb2 => by simp only [Node.pfx_setValue]; exact hhead1 b hb1 hb2⟩
        rw [WInv_def]
        refine ⟨⟨?_, ?_, ?_, ?_, ?_⟩, ?_⟩
        · simp only [Node.node_type_setValue]
          cases hcase : cur1.node_type with
          | Param =>
            rw [hcase] at hinv2
            refine ⟨by simpa using hinv2.1, ?_⟩
            rcases hinv2.2 with hnil | hmm2
            · exact Or.inl (by simpa using hnil)
            · exact Or.inr (indicesMatch_setValue.mpr hmm2)
          | Static =>
            rw [hcase] at hinv2
            exact indicesMatch_setValue.mpr hinv2
          | Root =>
            rw [hcase] at hinv2
            exact indicesMatch_setValue.mpr hinv2
          | CatchAll => exact absurd hcase hnc1
        · intro z hz
          rw [statics_setValue] at hz
          exact htypes z hz
        · intro hcon
          simp only [Node.wild_child_setValue] at hcon
          obtain ⟨w, hwl, hwt⟩ := hwcX hcon
          exact ⟨w, by simpa using hwl, hwt⟩
        · rw [statics_setValue]
          exact hchainX
        · simp only [Node.node_type_setValue]
          cases hcase : cur1.node_type with
          | Static =>
            rw [hcase] at htarm
            simpa using htarm
          | Root =>
            rw [hcase] at htarm
            simpa using htarm
          | Param =>
            rw [hcase] at htarm
            refine ⟨by simpa using htarm.1, by simpa using htarm.2.1,
              by simpa using htarm.2.2.1, ?_⟩
            intro z hz
            simp only [Node.children_setValue] at hz
            exact htarm.2.2.2 z hz
          | CatchAll => exact absurd hcase hnc1
        · simp only [Node.children_setValue]
          exact hIL1

/-- Every successful `insert` — including of the empty route — preserves the
priority-free structural invariant and leaves the root with type `Root`. -/
theorem insert_W (n t : Node T) (r : List Byte) (v : T)
    (h : Node.insert n r v = some (t, none))
    (hn : WInv n ∧ (n = Node.dflt ∨ n.node_type = NodeType.Root)) :
    WInv t ∧ t.node_type = NodeType.Root := by
  obtain ⟨hInv, hcase⟩ := hn
  have hty : n.node_type = NodeType.Static ∨ n.node_type = NodeType.Root := by
    rcases hcase with h' | h'
    · subst h'; exact Or.inl rfl
    · exact Or.inr h'
  simp only [Node.insert] at h
  split at h
  · rename_i hcond
    obtain ⟨hpfx, hchE⟩ := hcond
    have hch : n.bump.children = [] := by rwa [List.isEmpty_iff] at hchE
    have hbInv : WInv n.bump := WInv_bump.mpr hInv
    have hb' := hbInv
    rw [WInv_def] at hb'
    obtain ⟨⟨hinv2, htypes, hwcX, hchainX, htarm⟩, hIL⟩ := hb'
    have hwf : n.bump.wild_child = false := by
      cases hcase2 : n.bump.wild_child
      · rfl
      · exfalso
        obtain ⟨w, hwl, -⟩ := hwcX hcase2
        rw [hch] at hwl
        simp at hwl
    have hstat0 : statics n.bump = [] := by
      have h9 := statics_length_le n.bump
      rw [hch] at h9
      simp only [List.length_nil] at h9
      exact List.eq_nil_of_length_eq_zero (by omega)
    have hidx : n.bump.indices = [] := by
      have him : indicesMatch n.bump := by
        cases hc : n.bump.node_type with
        | Static => rw [hc] at hinv2; exact hinv2
        | Root => rw [hc] at hinv2; exact hinv2
        | Param =>
          exfalso
          rw [Node.node_type_bump] at hc
          rcases hty with h' | h' <;> (rw [h'] at hc; simp at hc)
        | CatchAll =>
          exfalso
          rw [Node.node_type_bump] at hc
          rcases hty with h' | h' <;> (rw [h'] at hc; simp at hc)
      have hl := (indicesMatch_spec him).1
      rw [hstat0] at hl
      simp only [List.length_nil] at hl
      exact List.eq_nil_of_length_eq_zero hl
    split at h
    · simp at h
    · simp at h
    · rename_i t0 heq
      simp only [Option.some.injEq, Prod.mk.injEq] at h
      obtain ⟨ht, -⟩ := h
      subst ht
      obtain ⟨ht0Inv, ht0ty⟩ := insertChildFreshW (r.length + 1) n.bump r r v t0 heq
        hch hidx hwf hpfx (by rw [Node.node_type_bump]; exact hty)
      refine ⟨WInv_setNodeType_Root t0 ht0Inv ?_, by simp⟩
      rw [ht0ty, Node.node_type_bump]
      exact hty
  · rename_i hcond
    have hnd : n ≠ Node.dflt := by
      intro hd
      subst hd
      exact hcond ⟨rfl, rfl⟩
    have hroot : n.node_type = NodeType.Root := by
      rcases hcase with h' | h'
      · exact absurd h' hnd
      · exact h'
    obtain ⟨hIt, htyt, -⟩ := walkW _ n.bump r r v t h (WInv_bump.mpr hInv)
      (by rw [Node.node_type_bump, hroot]; simp)
      (by rw [Node.node_type_bump, hroot]; intro hP; simp at hP)
    refine ⟨hIt, ?_⟩
    rw [htyt, Node.node_type_bump]
    exact hroot

/-- A tree built by any sequence of successful insertions — empty routes
included — satisfies the priority-free structural invariant. -/
theorem builtFrom_WInv : ∀ {t : Node T}, BuiltFrom t → WInv t ∧
    (t = Node.dflt ∨ t.node_type = NodeType.Root) := by
  intro t h
  induction h with
  | base => exact ⟨InvS_WInv _ invS_dflt, Or.inl rfl⟩
  | step r v hb hins ih =>
    obtain ⟨h1, h2⟩ := insert_W _ _ r v hins ih
    exact ⟨h1, Or.inr h2⟩

/-- The pop loop of `try_backtrack!` only returns entries (and a remaining
stack) drawn from the original skipped stack. -/
theorem popMatching_sub : ∀ (sk : List (Skipped T)) (p : List Byte) (s : Skipped T)
    (st : List (Skipped T)), Node.popMatching sk p = some (s, st) →
    s ∈ sk ∧ ∀ x ∈ st, x ∈ sk := by
  intro sk
  induction sk with
  | nil => intro p s st h; simp [Node.popMatching] at h
  | cons a tl ih =>
    intro p s st h
    simp only [Node.popMatching] at h
    split at h
    · simp only [Option.some.injEq, Prod.mk.injEq] at h
      obtain ⟨h1, h2⟩ := h
      subst h1
      subst h2
      exact ⟨List.mem_cons_self a tl, fun x hx => List.mem_cons_of_mem a hx⟩
    · obtain ⟨h1, h2⟩ := ih p s st h
      exact ⟨List.mem_cons_of_mem a h1, fun x hx => List.mem_cons_of_mem a (h2 x hx)⟩

/-- Under the priority-free invariant, a node never has more index bytes
than children, so the `children[i]` access after a successful index search
is in bounds. -/
theorem WInv_indices_le {n : Node T} (h : WInv n) :
    n.indices.length ≤ n.children.length := by
  rw [WInv_def] at h
  obtain ⟨⟨hinv2, -, -, -, htarm⟩, -⟩ := h
  have hsl := statics_length_le n
  cases hc : n.node_type with
  | Static =>
    rw [hc] at hinv2
    have := (indicesMatch_spec hinv2).1
    omega
  | Root =>
    rw [hc] at hinv2
    have := (indicesMatch_spec hinv2).1
    omega
  | Param =>
    rw [hc] at hinv2
    rcases hinv2.2 with hnil | hm
    · rw [hnil]
      simp
    · have := (indicesMatch_spec hm).1
      omega
  | CatchAll =>
    rw [hc] at htarm
    rw [htarm.2.2.2.2.2]
    simp

/-- Every child of a weakly invariant node is weakly invariant. -/
theorem WInv_child {n c : Node T} (h : WInv n) (hc : c ∈ n.children) : WInv c := by
  rw [WInv_def] at h
  exact (WInvL_iff_forall.mp h.2) c hc

/-- The `'walk` loop of `Node::at` never reaches a panic site on a weakly
invariant node with a weakly invariant skipped stack: `rest[0]` is guarded
by the length test, `children[i]` is in bounds, `last().unwrap()` finds the
wildcard child, and the `unreachable!()` arm is excluded because the last
child is `Param` or `CatchAll` whenever `wild_child` is set. -/
theorem at_no_panic : ∀ (fuel : Nat) (cur : Node T) (path : List Byte)
    (params : Params) (bt : Bool) (skipped : List (Skipped T)),
    WInv cur → (∀ s ∈ skipped, WInv s.node) →
    Node.atWalkF fuel cur path params bt skipped ≠ some AtResult.panicked := by
  intro fuel
  induction fuel with
  | zero =>
    intro cur path params bt skipped hw hsk h
    simp [Node.atWalkF] at h
  | succ fuel ih =>
    intro cur path params bt skipped hw hsk h
    simp only [Node.atWalkF] at h
    have hw' := hw
    rw [WInv_def] at hw'
    obtain ⟨⟨-, -, hwcX, -, -⟩, -⟩ := hw'
    split at h
    · rename_i hcond
      obtain ⟨hlt, -⟩ := hcond
      split at h
      · rename_i hhd
        have hz : (path.drop cur.pfx.length).length = 0 := by
          rw [List.head?_eq_none_iff.mp hhd]
          rfl
        rw [List.length_drop] at hz
        omega
      · rename_i first hhd
        split at h
        · rename_i i hfi
          have hi : i < cur.indices.length := by
            by_cases hb : bt = true
            · rw [if_pos hb] at hfi
              simp at hfi
            · rw [if_neg hb] at hfi
              exact (List.findIdx?_eq_some_iff_findIdx_eq.mp hfi).1
          split at h
          · rename_i hg
            rw [List.get?_eq_getElem?, List.getElem?_eq_none_iff] at hg
            have := WInv_indices_le hw
            omega
          · rename_i c hg
            have hcmem : c ∈ cur.children := by
              rw [List.get?_eq_getElem?] at hg
              exact mem_of_getElem?_eq hg
            refine ih c _ params bt _ (WInv_child hw hcmem) ?_ h
            by_cases hwc : cur.wild_child = true
            · rw [if_pos hwc]
              intro s hs
              rcases List.mem_cons.mp hs with hs | hs
              · subst hs
                exact hw
              · exact hsk s hs
            · rw [if_neg hwc]
              exact hsk
        · split at h
          · split at h
            · rename_i s stack hpop
              obtain ⟨hs, hst⟩ := popMatching_sub _ _ _ _ hpop
              exact ih s.node _ _ true stack (hsk s hs)
                (fun x hx => hsk x (hst x hx)) h
            · simp at h
          · rename_i hwt
            have hwtrue : cur.wild_child = true := by
              cases hcw : cur.wild_child
              · exact absurd hcw hwt
              · rfl
            obtain ⟨w, hwl, hwty⟩ := hwcX hwtrue
            have hwmem : w ∈ cur.children := by
              have hdec := eq_dropLast_concat_of_getLast? hwl
              rw [hdec]
              simp
            split at h
            · rename_i hgl
              rw [hwl] at hgl
              simp at hgl
            · rename_i wc hgl
              rw [hwl] at hgl
              injection hgl with hgl
              subst hgl
              split at h
              · -- Param wildcard
                split at h
                · rename_i i hfi
                  split at h
                  · rename_i child heqc
                    have hchmem : child ∈ w.children := by
                      rw [heqc]
                      simp
                    exact ih child _ _ false skipped
                      (WInv_child (WInv_child hw hwmem) hchmem) hsk h
                  · simp at h
                · split at h
                  · simp at h
                  · split at h
                    · rename_i s stack hpop
                      obtain ⟨hs, hst⟩ := popMatching_sub _ _ _ _ hpop
                      exact ih s.node _ _ true stack (hsk s hs)
                        (fun x hx => hsk x (hst x hx)) h
                    · simp at h
              · -- CatchAll wildcard
                split at h
                · simp at h
                · simp at h
              · -- unreachable arm: excluded by the invariant
                rename_i hne1 hne2
                rcases hwty with h' | h'
                · exact hne1 h'
                · exact hne2 h'
    · split at h
      · split at h
        · simp at h
        · split at h
          · rename_i s stack hpop
            obtain ⟨hs, hst⟩ := popMatching_sub _ _ _ _ hpop
            exact ih s.node _ _ true stack (hsk s hs)
              (fun x hx => hsk x (hst x hx)) h
          · simp at h
      · split at h
        · rename_i s stack hpop
          obtain ⟨hs, hst⟩ := popMatching_sub _ _ _ _ hpop
          exact ih s.node _ _ true stack (hsk s hs)
            (fun x hx => hsk x (hst x hx)) h
        · simp at h

/-! ### Pattern substitution: how `subst`/`binds` decompose along the
wildcard structure that `find_wildcard` reports. -/

theorem subst_append (seg sfx pre q : List Byte) (h : noWildBytes pre) :
    subst seg sfx (pre ++ q) = pre ++ subst seg sfx q := by
  induction pre with
  | nil => simp
  | cons b rest ih =>
    have hb := h b (by simp)
    rw [List.cons_append, subst, if_neg hb.1, if_neg hb.2,
      ih (fun c hc => h c (by simp [hc]))]
    rfl

theorem binds_append (seg sfx pre q : List Byte) (h : noWildBytes pre) :
    binds seg sfx (pre ++ q) = binds seg sfx q := by
  induction pre with
  | nil => simp
  | cons b rest ih =>
    have hb := h b (by simp)
    rw [List.cons_append, binds, if_neg hb.1, if_neg hb.2,
      ih (fun c hc => h c (by simp [hc]))]

theorem substSkipName_append (seg sfx name q : List Byte)
    (h : ∀ c ∈ name, c ≠ bslash) :
    substSkipName seg sfx (name ++ q) = substSkipName seg sfx q := by
  induction name with
  | nil => simp
  | cons b rest ih =>
    rw [List.cons_append, substSkipName, if_neg (h b (by simp)),
      ih (fun c hc => h c (by simp [hc]))]

theorem bindsName_append (seg sfx name : List Byte) (h : ∀ c ∈ name, c ≠ bslash) :
    ∀ (q acc : List Byte),
    bindsName seg sfx (name ++ q) acc = bindsName seg sfx q (name.reverse ++ acc) := by
  induction name with
  | nil => intro q acc; simp
  | cons b rest ih =>
    intro q acc
    rw [List.cons_append, bindsName, if_neg (h b (by simp)),
      ih (fun c hc => h c (by simp [hc])) q (b :: acc)]
    congr 1
    simp

theorem substSkipName_slash (seg sfx q : List Byte)
    (hq : q = [] ∨ q.head? = some bslash) :
    substSkipName seg sfx q = subst seg sfx q := by
  rcases hq with rfl | hq
  · rw [substSkipName, subst]
  · cases q with
    | nil => simp at hq
    | cons b r =>
      have hb : b = bslash := by simpa using hq
      subst hb
      rw [substSkipName, if_pos rfl, subst, if_neg (by decide), if_neg (by decide)]

theorem bindsName_slash (seg sfx q : List Byte)
    (hq : q = [] ∨ q.head? = some bslash) (acc : List Byte) :
    bindsName seg sfx q acc = (acc.reverse, seg) :: binds seg sfx q := by
  rcases hq with rfl | hq
  · rw [bindsName, binds]
  · cases q with
    | nil => simp at hq
    | cons b r =>
      have hb : b = bslash := by simpa using hq
      subst hb
      rw [bindsName, if_pos rfl, binds, if_neg (by decide), if_neg (by decide)]

theorem subst_noWild (seg sfx p : List Byte) (h : noWildBytes p) :
    subst seg sfx p = p := by
  have h0 := subst_append seg sfx p [] h
  rw [List.append_nil] at h0
  rw [h0, subst, List.append_nil]

theorem binds_noWild (seg sfx p : List Byte) (h : noWildBytes p) :
    binds seg sfx p = [] := by
  have h0 := binds_append seg sfx p [] h
  rw [List.append_nil] at h0
  rw [h0, binds]

theorem subst_colon (seg sfx pre name q : List Byte) (hpre : noWildBytes pre)
    (hname : ∀ c ∈ name, c ≠ bslash) (hq : q = [] ∨ q.head? = some bslash) :
    subst seg sfx (pre ++ (bcolon :: name) ++ q) =
      pre ++ (seg ++ subst seg sfx q) := by
  rw [List.append_assoc, subst_append seg sfx pre _ hpre, List.cons_append, subst,
    if_pos rfl, substSkipName_append seg sfx name q hname,
    substSkipName_slash seg sfx q hq]

theorem binds_colon (seg sfx pre name q : List Byte) (hpre : noWildBytes pre)
    (hname : ∀ c ∈ name, c ≠ bslash) (hq : q = [] ∨ q.head? = some bslash) :
    binds seg sfx (pre ++ (bcolon :: name) ++ q) =
      (name, seg) :: binds seg sfx q := by
  rw [List.append_assoc, binds_append seg sfx pre _ hpre, List.cons_append, binds,
    if_pos rfl, bindsName_append seg sfx name hname q [],
    bindsName_slash seg sfx q hq]
  simp

theorem subst_star (seg sfx pre name : List Byte) (hpre : noWildBytes pre) :
    subst seg sfx (pre ++ bstar :: name) = pre ++ sfx := by
  rw [subst_append seg sfx pre _ hpre, subst, if_neg (by decide), if_pos rfl]

theorem binds_star (seg sfx pre name : List Byte) (hpre : noWildBytes pre) :
    binds seg sfx (pre ++ bstar :: name) = [(name, sfx)] := by
  rw [binds_append seg sfx pre _ hpre, binds, if_neg (by decide), if_pos rfl]

/-- The first `/` in `seg ++ / :: tail` is right after `seg` when `seg`
holds no slash. -/
theorem findIdx_slash_append (seg tail : List Byte) (h : ∀ c ∈ seg, c ≠ bslash) :
    List.findIdx? (fun c => c = bslash) (seg ++ bslash :: tail) =
      some seg.length := by
  rw [List.findIdx?_append,
    List.findIdx?_eq_none_iff.mpr (by intro x hx; simpa using h x hx),
    List.findIdx?_cons, if_pos (by simp)]
  simp

theorem findIdx_slash_none (seg : List Byte) (h : ∀ c ∈ seg, c ≠ bslash) :
    List.findIdx? (fun c => c = bslash) seg = none :=
  List.findIdx?_eq_none_iff.mpr (by intro x hx; simpa using h x hx)

/-- The name of the wildcard token reported by `find_wildcard` contains no
slash (the token is cut at the first `/`). -/
theorem find_wildcard_noSlash {p w : List Byte} {wi : Nat} {valid : Bool}
    (h : find_wildcard p = (some (w, wi), valid)) :
    ∀ c ∈ w.drop 1, c ≠ bslash := by
  simp only [find_wildcard] at h
  split at h
  · simp at h
  · rename_i start hfind
    split at h
    · rename_i e hsl
      obtain ⟨hel, heidx⟩ := List.findIdx?_eq_some_iff_findIdx_eq.mp hsl
      simp only [Prod.mk.injEq, Option.some.injEq] at h
      obtain ⟨⟨hw, -⟩, -⟩ := h
      subst hw
      intro c hc
      rw [List.drop_take, List.drop_drop] at hc
      have h1e : 1 + e - 1 = e := by omega
      rw [h1e] at hc
      rw [List.mem_take_iff_getElem] at hc
      obtain ⟨k, hk, rfl⟩ := hc
      have hk' : k < List.findIdx (fun c => decide (c = bslash)) (p.drop (start + 1)) := by
        rw [heidx]
        exact lt_of_lt_of_le hk (Nat.min_le_left _ _)
      have h2 := List.not_of_lt_findIdx hk'
      simpa using h2
    · rename_i hsl
      simp only [Prod.mk.injEq, Option.some.injEq] at h
      obtain ⟨⟨hw, -⟩, -⟩ := h
      subst hw
      intro c hc
      rw [List.drop_drop] at hc
      rw [List.findIdx?_eq_none_iff] at hsl
      have h2 := hsl c hc
      simpa using h2

theorem setNodeType_self {n : Node T} {ty : NodeType} (h : n.node_type = ty) :
    n.setNodeType ty = n := by
  cases n with
  | mk p w i t0 v pf c =>
    simp only [Node.node_type_mk] at h
    subst h
    rfl

theorem nsizeL_nil : Node.nsize.nsizeL ([] : List (Node T)) = 0 := rfl

theorem nsizeL_cons (n : Node T) (ns : List (Node T)) :
    Node.nsize.nsizeL (n :: ns) = Node.nsize n + Node.nsize.nsizeL ns := rfl

theorem nsize_mk (p : Nat) (w : Bool) (i : List Byte) (t : NodeType)
    (v : Option T) (pf : List Byte) (c : List (Node T)) :
    Node.nsize (Node.mk p w i t v pf c) = 1 + Node.nsize.nsizeL c := rfl

theorem nsize_setNodeType (n : Node T) (ty : NodeType) :
    Node.nsize (n.setNodeType ty) = Node.nsize n := by
  cases n
  rfl

/-! ### Single steps of `Node::at` on the chain nodes that a one-pattern
insertion produces. -/

/-- Walking a node whose wildcard `Param` child has a continuation child:
the segment up to the next `/` binds the parameter and the walk descends
into the continuation. -/
theorem atStep_param_mid (af : Nat) (pr p2 : Nat) (ty : NodeType)
    (pre name tail : List Byte) (g : Node T) (b : Byte) (l : List Byte)
    (hseg : ∀ c ∈ b :: l, c ≠ bslash)
    (params : Params) (bt : Bool) (sk : List (Skipped T)) :
    Node.atWalkF (af + 1)
      (Node.mk pr true [] ty none pre
        [Node.mk p2 false [] NodeType.Param none (bcolon :: name) [g]])
      (pre ++ ((b :: l) ++ (bslash :: tail))) params bt sk =
    Node.atWalkF af g (bslash :: tail) (params ++ [(name, b :: l)]) false sk := by
  have h1 : (pre ++ ((b :: l) ++ (bslash :: tail))).take pre.length = pre :=
    List.take_left _ _
  have h2 : (pre ++ ((b :: l) ++ (bslash :: tail))).drop pre.length =
      (b :: l) ++ (bslash :: tail) := List.drop_left _ _
  have h3 : pre.length < (pre ++ ((b :: l) ++ (bslash :: tail))).length := by
    simp
  have h4 := findIdx_slash_append (b :: l) tail hseg
  have h5 : ((b :: l) ++ (bslash :: tail)).take (b :: l).length = b :: l :=
    List.take_left _ _
  have h6 : ((b :: l) ++ (bslash :: tail)).drop (b :: l).length = bslash :: tail :=
    List.drop_left _ _
  simp only [Node.atWalkF, Node.pfx_mk, Node.children_mk, Node.indices_mk,
    Node.wild_child_mk, Node.node_type_mk, Node.value_mk]
  rw [if_pos ⟨h3, h1⟩, h2]
  rw [show ((b :: l) ++ (bslash :: tail)).head? = some b from rfl]
  simp only [List.findIdx?_nil, ite_self, List.getLast?_singleton, h4, h5, h6,
    Node.node_type_mk, Node.children_mk, Node.pfx_mk, List.drop_succ_cons,
    List.drop_zero]
  rw [if_neg (show ¬(true = false) from by decide)]

/-- Walking a node whose wildcard `Param` child ends the pattern: the whole
remaining segment binds the parameter and the stored value is returned. -/
theorem atStep_param_final (af : Nat) (pr p2 : Nat) (ty : NodeType)
    (pre name : List Byte) (v : T) (b : Byte) (l : List Byte)
    (hseg : ∀ c ∈ b :: l, c ≠ bslash)
    (params : Params) (bt : Bool) (sk : List (Skipped T)) :
    Node.atWalkF (af + 1)
      (Node.mk pr true [] ty none pre
        [Node.mk p2 false [] NodeType.Param (some v) (bcolon :: name) []])
      (pre ++ (b :: l)) params bt sk =
    some (AtResult.found v (params ++ [(name, b :: l)])) := by
  have h1 : (pre ++ (b :: l)).take pre.length = pre := List.take_left _ _
  have h2 : (pre ++ (b :: l)).drop pre.length = b :: l := List.drop_left _ _
  have h3 : pre.length < (pre ++ (b :: l)).length := by simp
  have h4 := findIdx_slash_none (b :: l) hseg
  simp only [Node.atWalkF, Node.pfx_mk, Node.children_mk, Node.indices_mk,
    Node.wild_child_mk, Node.node_type_mk, Node.value_mk]
  rw [if_pos ⟨h3, h1⟩, h2]
  rw [show (b :: l).head? = some b from rfl]
  simp only [List.findIdx?_nil, ite_self, List.getLast?_singleton, h4,
    Node.node_type_mk, Node.children_mk, Node.pfx_mk, Node.value_mk,
    List.drop_succ_cons, List.drop_zero]
  rw [if_neg (show ¬(true = false) from by decide)]

/-- Walking a node whose wildcard child is a `CatchAll`: the whole (non-empty)
remainder binds the parameter and the stored value is returned. -/
theorem atStep_catchall (af : Nat) (pr p2 : Nat) (ty : NodeType)
    (pre name : List Byte) (v : T) (b : Byte) (l : List Byte)
    (params : Params) (bt : Bool) (sk : List (Skipped T)) :
    Node.atWalkF (af + 1)
      (Node.mk pr true [] ty none pre
        [Node.mk p2 false [] NodeType.CatchAll (some v) (bstar :: name) []])
      (pre ++ (b :: l)) params bt sk =
    some (AtResult.found v (params ++ [(name, b :: l)])) := by
  have h1 : (pre ++ (b :: l)).take pre.length = pre := List.take_left _ _
  have h2 : (pre ++ (b :: l)).drop pre.length = b :: l := List.drop_left _ _
  have h3 : pre.length < (pre ++ (b :: l)).length := by simp
  simp only [Node.atWalkF, Node.pfx_mk, Node.children_mk, Node.indices_mk,
    Node.wild_child_mk, Node.node_type_mk, Node.value_mk]
  rw [if_pos ⟨h3, h1⟩, h2]
  rw [show (b :: l).head? = some b from rfl]
  simp only [List.findIdx?_nil, ite_self, List.getLast?_singleton,
    Node.node_type_mk, Node.children_mk, Node.pfx_mk, Node.value_mk,
    List.drop_succ_cons, List.drop_zero]
  rw [if_neg (show ¬(true = false) from by decide)]

/-- Walking a leaf whose prefix is exactly the remaining path returns its
value. -/
theorem atStep_leaf (af : Nat) (pr : Nat) (ty : NodeType) (pfx : List Byte)
    (v : T) (params : Params) (bt : Bool) (sk : List (Skipped T)) :
    Node.atWalkF (af + 1) (Node.mk pr false [] ty (some v) pfx []) pfx
      params bt sk = some (AtResult.found v params) := by
  simp only [Node.atWalkF, Node.pfx_mk, Node.children_mk, Node.indices_mk,
    Node.wild_child_mk, Node.node_type_mk, Node.value_mk]
  rw [if_neg (by intro hcon; exact absurd hcon.1 (by omega))]
  rw [if_pos trivial]

/-- Round-trip along the chain that `insert_child` builds on a fresh node:
matching the pattern with each `:name` replaced by `seg` and `*name`
replaced by `sfx` finds the inserted value with the expected bindings. -/
theorem roundtrip_chain (seg sfx : List Byte) (hseg : seg ≠ [])
    (hsegsl : ∀ c ∈ seg, c ≠ bslash) (hsfx : sfx ≠ []) :
    ∀ (fuel : Nat) (cur : Node T) (p route : List Byte) (v : T) (t : Node T),
      Node.insertChildF fuel cur p route v = some (t, none) →
      FreshNode cur →
      ∀ (ty : NodeType) (params : Params) (bt : Bool) (sk : List (Skipped T))
        (afuel : Nat), Node.nsize t + 1 ≤ afuel →
        Node.atWalkF afuel (t.setNodeType ty) (subst seg sfx p) params bt sk =
          some (AtResult.found v (params ++ binds seg sfx p)) := by
  obtain ⟨b0, l0, rfl⟩ := List.exists_cons_of_ne_nil hseg
  obtain ⟨c0s, l0s, rfl⟩ := List.exists_cons_of_ne_nil hsfx
  intro fuel
  induction fuel with
  | zero => intro cur p r v t h hf; simp [Node.insertChildF] at h
  | succ fuel ih =>
    intro cur p r v t h hf
    obtain ⟨hch, hidx, hval, hwild, hprio, hpfx, htype⟩ := hf
    cases cur with
    | mk p0 w0 i0 t0 v0 pf0 ch0 =>
    simp only [Node.priority_mk, Node.wild_child_mk, Node.indices_mk,
      Node.node_type_mk, Node.value_mk, Node.pfx_mk,
      Node.children_mk] at hch hidx hval hwild hprio hpfx htype
    subst hch hidx hval hwild hprio hpfx
    simp only [Node.insertChildF] at h
    split at h
    · simp at h
    · -- no wildcard: the pattern is matched literally
      rename_i hfw
      have hnw : noWildBytes p := find_wildcard_none hfw
      simp only [Option.some.injEq, Prod.mk.injEq] at h
      obtain ⟨ht, -⟩ := h
      subst ht
      intro ty params bt sk afuel hfuel
      rw [subst_noWild (b0 :: l0) (c0s :: l0s) p hnw,
        binds_noWild (b0 :: l0) (c0s :: l0s) p hnw, List.append_nil]
      cases afuel with
      | zero => exact absurd hfuel (by omega)
      | succ af => exact atStep_leaf af 1 ty p v params bt sk
    · -- a wildcard was found
      rename_i w wi hfw
      obtain ⟨c0, hc0get, hc0wild, hwhead, hbefore, hw1, hwle, hweq, hslash⟩ :=
        find_wildcard_some hfw
      have hnoslname := find_wildcard_noSlash hfw
      have hsp1 : (Node.stripWildPrefix (Node.mk 1 false [] t0 (none : Option T) [] []) p wi).1 =
          Node.mk 1 false [] t0 none (p.take wi) [] := by
        simp only [Node.stripWildPrefix]
        split
        · simp [Node.setPfx]
        · rename_i h0
          have h0' : wi = 0 := by omega
          subst h0'
          simp
      have hsp2 : (Node.stripWildPrefix (Node.mk 1 false [] t0 (none : Option T) [] []) p wi).2 =
          p.drop wi := by
        simp only [Node.stripWildPrefix]
        split
        · simp
        · rename_i h0
          have h0' : wi = 0 := by omega
          subst h0'
          simp
      split at h
      · simp at h
      · rename_i hwlen
        split at h
        · -- ':' parameter
          rename_i hcolon
          obtain ⟨name, rfl⟩ : ∃ name, w = bcolon :: name := by
            cases w with
            | nil => simp at hcolon
            | cons a tl =>
              have ha : a = bcolon := by simpa using hcolon
              exact ⟨tl, by rw [ha]⟩
          have hname_nosl : ∀ c ∈ name, c ≠ bslash := fun c hc =>
            hnoslname c (by simpa using hc)
          simp [hsp1, hsp2, Node.setPfx, Node.dflt,
            Node.setNodeType, Node.add_child, Node.setChildren, Node.setWild,
            Node.bump, Node.setPriority, Node.setChildAt,
            Node.setValue, List.get?_cons_zero, List.drop_drop] at h
          simp only [List.length_cons] at hwle hweq hslash
          have hdecomp : p = p.take wi ++ (bcolon :: name) ++
              p.drop (wi + (name.length + 1)) := by
            rw [List.append_assoc]
            conv_lhs => rw [← List.take_append_drop wi p]
            congr 1
            rw [hweq]
            conv_lhs => rw [← List.take_append_drop (name.length + 1) (p.drop wi)]
            congr 1
            rw [List.drop_drop]
          have hsuf : p.drop (wi + (name.length + 1)) = [] ∨
              (p.drop (wi + (name.length + 1))).head? = some bslash := by
            by_cases hcase : wi + (name.length + 1) < p.length
            · right
              have h9 := hslash hcase
              rw [List.get?_eq_getElem?] at h9
              rw [List.head?_drop]
              exact h9
            · left
              apply List.drop_eq_nil_of_le
              omega
          have hsubstP : subst (b0 :: l0) (c0s :: l0s) p =
              p.take wi ++ ((b0 :: l0) ++
                subst (b0 :: l0) (c0s :: l0s) (p.drop (wi + (name.length + 1)))) := by
            conv_lhs => rw [hdecomp]
            exact subst_colon (b0 :: l0) (c0s :: l0s) (p.take wi) name
              (p.drop (wi + (name.length + 1))) hbefore hname_nosl hsuf
          have hbindsP : binds (b0 :: l0) (c0s :: l0s) p =
              (name, b0 :: l0) ::
                binds (b0 :: l0) (c0s :: l0s) (p.drop (wi + (name.length + 1))) := by
            conv_lhs => rw [hdecomp]
            exact binds_colon (b0 :: l0) (c0s :: l0s) (p.take wi) name
              (p.drop (wi + (name.length + 1))) hbefore hname_nosl hsuf
          split at h
          · -- the route continues past the parameter
            rename_i hcont
            split at h
            · simp at h
            · rename_i g' oe hrec
              simp only [Option.some.injEq, Prod.mk.injEq] at h
              obtain ⟨ht, hoe⟩ := h
              subst hoe
              subst ht
              have hsufne : p.drop (wi + (name.length + 1)) ≠ [] := by
                intro hcon
                have h9 : (p.drop (wi + (name.length + 1))).length = 0 := by
                  rw [hcon]; rfl
                rw [List.length_drop] at h9
                omega
              obtain ⟨stail, hstail⟩ : ∃ stail,
                  p.drop (wi + (name.length + 1)) = bslash :: stail := by
                rcases hsuf with h' | h'
                · exact absurd h' hsufne
                · cases hq : p.drop (wi + (name.length + 1)) with
                  | nil => exact absurd hq hsufne
                  | cons a rr =>
                    rw [hq] at h'
                    have ha : a = bslash := by simpa using h'
                    exact ⟨rr, by rw [ha]⟩
              obtain ⟨-, -, -, hgt, -⟩ := insertChildOkFresh fuel _ _ r v g' hrec
                ⟨rfl, rfl, rfl, rfl, rfl, rfl, Or.inl rfl⟩
              simp only [Node.node_type_mk] at hgt
              intro ty params bt sk afuel hfuel
              rw [show ((Node.mk 1 true ([] : List Byte) t0 (none : Option T) (p.take wi)
                  [Node.mk 1 false [] NodeType.Param none (bcolon :: name) [g']]).setNodeType ty) =
                Node.mk 1 true [] ty none (p.take wi)
                  [Node.mk 1 false [] NodeType.Param none (bcolon :: name) [g']] from rfl]
              rw [hsubstP, hbindsP, hstail]
              have hsubsl : subst (b0 :: l0) (c0s :: l0s) (bslash :: stail) =
                  bslash :: subst (b0 :: l0) (c0s :: l0s) stail := by
                rw [subst, if_neg (by decide), if_neg (by decide)]
              have hbindsl : binds (b0 :: l0) (c0s :: l0s) (bslash :: stail) =
                  binds (b0 :: l0) (c0s :: l0s) stail := by
                rw [binds, if_neg (by decide), if_neg (by decide)]
              rw [hsubsl, hbindsl]
              cases afuel with
              | zero => exact absurd hfuel (by omega)
              | succ af =>
                rw [atStep_param_mid af 1 1 ty (p.take wi) name
                  (subst (b0 :: l0) (c0s :: l0s) stail) g' b0 l0 hsegsl params bt sk]
                have hns : Node.nsize (Node.mk 1 true ([] : List Byte) t0 (none : Option T)
                    (p.take wi)
                    [Node.mk 1 false [] NodeType.Param none (bcolon :: name) [g']]) =
                    2 + Node.nsize g' := by
                  rw [nsize_mk, nsizeL_cons, nsize_mk, nsizeL_cons, nsizeL_nil]
                  omega
                have happ := ih (Node.mk 1 false [] NodeType.Static none [] []) _ r v g'
                  hrec ⟨rfl, rfl, rfl, rfl, rfl, rfl, Or.inl rfl⟩ NodeType.Static
                  (params ++ [(name, b0 :: l0)]) false sk af
                  (by rw [hns] at hfuel; omega)
                rw [setNodeType_self hgt, hstail, hsubsl, hbindsl] at happ
                rw [happ]
                simp
          · -- the parameter ends the route
            rename_i hcont
            simp only [Option.some.injEq, Prod.mk.injEq] at h
            obtain ⟨ht, -⟩ := h
            subst ht
            have hsufnil : p.drop (wi + (name.length + 1)) = [] := by
              apply List.drop_eq_nil_of_le
              omega
            intro ty params bt sk afuel hfuel
            rw [show ((Node.mk 1 true ([] : List Byte) t0 (none : Option T) (p.take wi)
                [Node.mk 1 false [] NodeType.Param (some v) (bcolon :: name) []]).setNodeType ty) =
              Node.mk 1 true [] ty none (p.take wi)
                [Node.mk 1 false [] NodeType.Param (some v) (bcolon :: name) []] from rfl]
            rw [hsubstP, hbindsP, hsufnil]
            rw [show subst (b0 :: l0) (c0s :: l0s) [] = [] from by rw [subst]]
            rw [show binds (b0 :: l0) (c0s :: l0s) [] = [] from by rw [binds]]
            rw [List.append_nil]
            cases afuel with
            | zero => exact absurd hfuel (by omega)
            | succ af =>
              exact atStep_param_final af 1 1 ty (p.take wi) name v b0 l0 hsegsl
                params bt sk
        · split at h
          · -- '*' catch-all
            rename_i hstar
            split at h
            · simp at h
            · rename_i hlen_eq
              split at h
              · simp at h
              · split at h
                · simp at h
                · rename_i hnotbad
                  simp [hsp1, hsp2, Node.setPfx, Node.dflt,
                    Node.setNodeType, Node.add_child, Node.setChildren,
                    Node.setWild, Node.setPriority, Node.setValue] at h
                  subst h
                  obtain ⟨name, rfl⟩ : ∃ name, w = bstar :: name := by
                    cases w with
                    | nil => simp at hstar
                    | cons a tl =>
                      have ha : a = bstar := by simpa using hstar
                      exact ⟨tl, by rw [ha]⟩
                  push_neg at hlen_eq
                  simp only [List.length_cons] at hweq hlen_eq
                  have hdw : p.drop wi = bstar :: name := by
                    rw [List.take_of_length_le (by simp; omega)] at hweq
                    exact hweq.symm
                  have hdecomp2 : p = p.take wi ++ bstar :: name := by
                    conv_lhs => rw [← List.take_append_drop wi p]
                    rw [hdw]
                  have hsubstP2 : subst (b0 :: l0) (c0s :: l0s) p =
                      p.take wi ++ (c0s :: l0s) := by
                    conv_lhs => rw [hdecomp2]
                    exact subst_star (b0 :: l0) (c0s :: l0s) (p.take wi) name hbefore
                  have hbindsP2 : binds (b0 :: l0) (c0s :: l0s) p =
                      [(name, c0s :: l0s)] := by
                    conv_lhs => rw [hdecomp2]
                    exact binds_star (b0 :: l0) (c0s :: l0s) (p.take wi) name hbefore
                  intro ty params bt sk afuel hfuel
                  rw [hdw]
                  rw [show ((Node.mk 1 true ([] : List Byte) t0 (none : Option T) (p.take wi)
                      [Node.mk 1 false [] NodeType.CatchAll (some v) (bstar :: name) []]).setNodeType ty) =
                    Node.mk 1 true [] ty none (p.take wi)
                      [Node.mk 1 false [] NodeType.CatchAll (some v) (bstar :: name) []] from rfl]
                  rw [hsubstP2, hbindsP2]
                  cases afuel with
                  | zero => exact absurd hfuel (by omega)
                  | succ af =>
                    exact atStep_catchall af 1 1 ty (p.take wi) name v c0s l0s
                      params bt sk
          · -- impossible: the token starts with ':' or '*'
            rename_i hncolon hnstar
            exfalso
            rw [hwhead] at hncolon hnstar
            rcases hc0wild with rfl | rfl
            · exact hncolon rfl
            · exact hnstar rfl

/-- Claim C1: the spec demands `ExtraTrailingSlash` for `at("/home/")` and
`MissingTrailingSlash` for `at("/blog")` after inserting `/home` and
`/blog/` — and the doc example on `MatchError` in `error.rs` asserts the
same — but `Node::at` in `tree.rs` never produces a trailing-slash error:
both queries return `NotFound`. -/
theorem c1_trailing_slash_not_distinguished :
    insErrSeq [(bytes "/home", (1 : Nat)), (bytes "/blog/", 2)] = some none ∧
    matchSeq [(bytes "/home", (1 : Nat)), (bytes "/blog/", 2)] (bytes "/home/") =
      some (AtResult.failed MatchError.NotFound) ∧
    matchSeq [(bytes "/home", (1 : Nat)), (bytes "/blog/", 2)] (bytes "/blog") =
      some (AtResult.failed MatchError.NotFound) :=
  ⟨rfl, rfl, rfl⟩

/-- Claim C2: after `insert("/a/:x/c", X)` and `insert("/a/b/d", B)`, the
static branch wins on `/a/b/d`, and `/a/b/c` matches `X` with `x = "b"` by
backtracking to the skipped `:x` node. -/
theorem c2_backtracking :
    insErrSeq [(bytes "/a/:x/c", (10 : Nat)), (bytes "/a/b/d", 11)] = some none ∧
    matchSeq [(bytes "/a/:x/c", (10 : Nat)), (bytes "/a/b/d", 11)] (bytes "/a/b/d") =
      some (AtResult.found 11 []) ∧
    matchSeq [(bytes "/a/:x/c", (10 : Nat)), (bytes "/a/b/d", 11)] (bytes "/a/b/c") =
      some (AtResult.found 10 [(bytes "x", bytes "b")]) :=
  ⟨rfl, rfl, rfl⟩

/-- Claim C3, counterexample: the claim asserts `at("/a//c")` returns
`NotFound` after `insert("/a/:x/c", X)`, but the code matches it, binding
`x` to the empty string (the `Param` arm of `Node::at` never checks the
segment for emptiness when the pattern continues past the parameter). -/
theorem c3_counterexample :
    matchSeq [(bytes "/a/:x/c", (10 : Nat))] (bytes "/a//c") =
      some (AtResult.found 10 [(bytes "x", [])]) ∧
    matchSeq [(bytes "/a/:x/c", (10 : Nat))] (bytes "/a//c") ≠
      some (AtResult.failed MatchError.NotFound) :=
  ⟨rfl, by decide⟩

/-- Claim C3, amended: a `:name` parameter in final position only matches a
non-empty segment (`at("/a/")` fails after `insert("/a/:x")`), but a
mid-pattern `:name` can bind the empty segment: after
`insert("/a/:x/c", X)`, `at("/a//c")` returns `X` with `x = ""`. -/
theorem c3_amended :
    insErrSeq [(bytes "/a/:x/c", (10 : Nat))] = some none ∧
    matchSeq [(bytes "/a/:x/c", (10 : Nat))] (bytes "/a//c") =
      some (AtResult.found 10 [(bytes "x", [])]) ∧
    insErrSeq [(bytes "/a/:x", (20 : Nat))] = some none ∧
    matchSeq [(bytes "/a/:x", (20 : Nat))] (bytes "/a/") =
      some (AtResult.failed MatchError.NotFound) :=
  ⟨rfl, rfl, rfl, rfl⟩

/-- Claim C4, counterexample: the claim asserts `at("/static/")` returns `S`
with `path = ""` after `insert("/static/*path", S)`, but the catch-all child
is only reached when at least one byte follows the node prefix
`"/static/"`; the query returns `NotFound`. -/
theorem c4_counterexample :
    matchSeq [(bytes "/static/*path", (3 : Nat))] (bytes "/static/") =
      some (AtResult.failed MatchError.NotFound) ∧
    matchSeq [(bytes "/static/*path", (3 : Nat))] (bytes "/static/") ≠
      some (AtResult.found 3 [(bytes "path", [])]) :=
  ⟨rfl, by decide⟩

/-- Claim C4, amended: `*name` matches the *non-empty* remainder of the
path: `at("/static/")` returns `NotFound`, while `at("/static/a/b.css")`
returns `S` with `path = "a/b.css"`. -/
theorem c4_amended :
    insErrSeq [(bytes "/static/*path", (3 : Nat))] = some none ∧
    matchSeq [(bytes "/static/*path", (3 : Nat))] (bytes "/static/") =
      some (AtResult.failed MatchError.NotFound) ∧
    matchSeq [(bytes "/static/*path", (3 : Nat))] (bytes "/static/a/b.css") =
      some (AtResult.found 3 [(bytes "path", bytes "a/b.css")]) :=
  ⟨rfl, rfl, rfl⟩

/-- Claim C5, counterexample: the claim asserts that a pattern that is
exactly `*name` is legal, but `insert_child` rejects any whole-pattern
catch-all that does not start with `/`: `insert("*p", v)` fails with
`InvalidCatchAll`. -/
theorem c5_counterexample :
    insErrSeq [(bytes "*p", (9 : Nat))] = some (some InsertError.InvalidCatchAll) ∧
    insErrSeq [(bytes "*p", (9 : Nat))] ≠ some none :=
  ⟨rfl, by decide⟩

/-- Claim C5, amended: `InvalidCatchAll` is produced when bytes follow the
catch-all token (`/a/*p/b`), when the byte before `*` is not `/` (`/a*p`),
and when the whole pattern is `*name` without a leading `/` (`*p`); a
catch-all preceded by `/` such as `/*p` succeeds. -/
theorem c5_amended :
    insErrSeq [(bytes "/a/*p/b", (9 : Nat))] = some (some InsertError.InvalidCatchAll) ∧
    insErrSeq [(bytes "/a*p", (9 : Nat))] = some (some InsertError.InvalidCatchAll) ∧
    insErrSeq [(bytes "*p", (9 : Nat))] = some (some InsertError.InvalidCatchAll) ∧
    insErrSeq [(bytes "/*p", (9 : Nat))] = some none :=
  ⟨rfl, rfl, rfl, rfl⟩

/-- Claim C6: a conflicting insertion reports the previously inserted
colliding pattern with its original parameter names: after
`insert("/a/:x", X)`, `insert("/a/:y", Y)` fails with
`Conflict{with: "/a/:x"}` (and a duplicate static route reports itself). -/
theorem c6_conflict_reports_existing_route :
    insErrSeq [(bytes "/a/:x", (1 : Nat)), (bytes "/a/:y", 2)] =
      some (some (InsertError.Conflict (bytes "/a/:x"))) ∧
    insErrSeq [(bytes "/a", (1 : Nat)), (bytes "/a", 2)] =
      some (some (InsertError.Conflict (bytes "/a"))) :=
  ⟨rfl, rfl⟩

/-- The tree of `insert("/a/:x/c", 1)` is reachable by one successful
insertion of a nonempty route. -/
theorem builtFromNE_c7Tree : BuiltFromNE c7Tree :=
  BuiltFromNE.step (bytes "/a/:x/c") 1 (by decide) BuiltFromNE.base rfl

/-- Claim C7, counterexample: the tree reached by the single successful
insertion of `/a/:x/c` violates invariant 2 as stated — its `Param` node
`:x` has one (static) child `/c` but an empty `indices`, because the
continuation children that `insert_child` creates never receive an
`indices` entry. -/
theorem c7_counterexample :
    insertSeq Node.dflt [(bytes "/a/:x/c", (1 : Nat))] = some (c7Tree, none) ∧
    claimInv2B c7Tree = false :=
  ⟨rfl, rfl⟩

/-- Claim C7, amended: after any sequence of successful insertions of
nonempty routes into an initially empty tree, every node satisfies the
four structural invariants, with invariant 2 weakened at `Param` nodes:
such a node has at most one child, and either its `indices` is empty or it
describes the static children as stated.  (The nonemptiness restriction is
needed because inserting the empty route into a childless empty-prefix
root overwrites its value while still bumping its priority, breaking
invariant 1.) -/
theorem c7_amended {T : Type} (t : Node T) (h : BuiltFromNE t) : ClaimInvAm t :=
  InvS_claimInvAm t (builtFromNE_invS h)

/-- Witness for the amended C7: the concretely built router for `/a/:x/c`
satisfies the amended invariants. -/
theorem c7_witness : BuiltFromNE c7Tree ∧ ClaimInvAm c7Tree :=
  ⟨builtFromNE_c7Tree, c7_amended c7Tree builtFromNE_c7Tree⟩

/-- Claim C9: a failed insertion is not atomic.  `insert` increments the
root's priority before validating, so on any outcome — error included —
the returned root priority is the old one plus one; and the concrete
failing insertion of `/a/:y` after `/a/:x` leaves a tree whose
`check_priorities` reports a priority (2) that exceeds the subtree value
count (1). -/
theorem c9_failed_insert_not_atomic :
    (∀ (T : Type) (n : Node T) (r : List Byte) (v : T) (t : Node T)
        (e : InsertError),
        Node.insert n r v = some (t, some e) →
        Node.priority t = Node.priority n + 1) ∧
    checkSeq [(bytes "/a/:x", (1 : Nat)), (bytes "/a/:y", 2)] =
      some (Except.error (2, 1)) :=
  ⟨fun _ n r v t e h => Node.insert_priority n r v t (some e) h, rfl⟩

/-- Witness for C9 at a concrete input: inserting `/a/:y` into the router
holding `/a/:x` fails, and the root priority goes from 1 to 2. -/
theorem c9_witness :
    Node.priority c9TreeAfter = Node.priority c9TreeBefore + 1 :=
  c9_failed_insert_not_atomic.1 Nat c9TreeBefore (bytes "/a/:y") 2 c9TreeAfter
    (InsertError.Conflict (bytes "/a/:x")) rfl

/-- Claim C8, counterexample: with the pattern set `/a/:x → 1`, `/a/b → 2`
(inserted without error), the substituted path of `/a/:x` with segment `b`
is `/a/b`, which matches the static route's value `2` with no bindings —
not the param route's value `1` with `x = "b"` as the round-trip claim
demands.  Static routes shadow a param route's substituted path, so the
claim fails for multi-pattern sets. -/
theorem c8_counterexample :
    insErrSeq [(bytes "/a/:x", (1 : Nat)), (bytes "/a/b", 2)] = some none ∧
    subst (bytes "b") (bytes "s") (bytes "/a/:x") = bytes "/a/b" ∧
    matchSeq [(bytes "/a/:x", (1 : Nat)), (bytes "/a/b", 2)]
      (subst (bytes "b") (bytes "s") (bytes "/a/:x")) =
      some (AtResult.found 2 []) ∧
    some (AtResult.found 2 []) ≠
      some (AtResult.found 1 (binds (bytes "b") (bytes "s") (bytes "/a/:x"))) :=
  ⟨rfl, rfl, rfl, by decide⟩

/-- Claim C8 (amended): the round-trip holds for a single-pattern router.
For every pattern `p` inserted alone into an empty router, matching the
path obtained from `p` by replacing each `:name` with a fixed non-empty
slash-free segment and `*name` with a fixed non-empty suffix yields the
inserted value, with params binding each wildcard name to the substituted
text. -/
theorem c8_amended {T : Type} (p : List Byte) (v : T) (seg sfx : List Byte)
    (t : Node T) (hseg : seg ≠ []) (hsegsl : ∀ c ∈ seg, c ≠ bslash)
    (hsfx : sfx ≠ []) (hins : Node.insert Node.dflt p v = some (t, none)) :
    Node.atPath t (subst seg sfx p) =
      some (AtResult.found v (binds seg sfx p)) := by
  simp only [Node.insert] at hins
  rw [if_pos ⟨rfl, rfl⟩] at hins
  split at hins
  · simp at hins
  · simp at hins
  · rename_i t0 heq
    simp only [Option.some.injEq, Prod.mk.injEq] at hins
    obtain ⟨ht, -⟩ := hins
    subst ht
    unfold Node.atPath
    have hfb : Node.nsize t0 + 1 ≤
        ((subst seg sfx p).length + 2) *
          (Node.nsize (t0.setNodeType NodeType.Root) + 2) + 2 := by
      rw [nsize_setNodeType]
      calc Node.nsize t0 + 1 ≤ 2 * (Node.nsize t0 + 2) + 2 := by omega
        _ ≤ ((subst seg sfx p).length + 2) * (Node.nsize t0 + 2) + 2 := by
            apply Nat.add_le_add_right
            apply Nat.mul_le_mul_right
            omega
    have happ := roundtrip_chain seg sfx hseg hsegsl hsfx (p.length + 1)
      Node.dflt.bump p p v t0 heq freshNode_dflt_bump
      NodeType.Root [] false [] _ hfb
    rw [happ]
    simp

/-- Witness for the amended C8: inserting `/a/:x → 1` alone and matching
the substituted path (segment `b`) returns `1` with `x = "b"`. -/
theorem c8_witness :
    Node.insert Node.dflt (bytes "/a/:x") (1 : Nat) = some (c9TreeBefore, none) ∧
    Node.atPath c9TreeBefore (subst (bytes "b") (bytes "s") (bytes "/a/:x")) =
      some (AtResult.found 1 (binds (bytes "b") (bytes "s") (bytes "/a/:x"))) :=
  ⟨rfl, c8_amended (bytes "/a/:x") 1 (bytes "b") (bytes "s") c9TreeBefore
    (by decide) (by decide) (by decide) rfl⟩

/-- The C9 tree is reachable by one successful insertion. -/
theorem builtFrom_c9TreeBefore : BuiltFrom c9TreeBefore :=
  BuiltFrom.step (bytes "/a/:x") 1 BuiltFrom.base rfl

/-- Claim C10: on every tree built solely by successful insertions —
including insertions of the empty route — `Node::at` is panic-free for
every input path: the `rest[0]` access is guarded by the length test, the
`children[i]` access after an index hit is in bounds, `last().unwrap()`
always finds the wildcard child when `wild_child` is set, and that child's
type is `Param` or `CatchAll`, so the `unreachable!()` arm never runs. -/
theorem c10_at_panic_free {T : Type} (t : Node T) (h : BuiltFrom t) :
    ∀ path : List Byte, Node.atPath t path ≠ some AtResult.panicked := by
  intro path
  unfold Node.atPath
  exact at_no_panic _ t path [] false [] (builtFrom_WInv h).1
    (by intro s hs; simp at hs)

/-- Witness for C10: the theorem applied to the concrete tree of
`insert("/a/:x", 1)` and the probe path `/a/q`. -/
theorem c10_witness : BuiltFrom c9TreeBefore ∧
    Node.atPath c9TreeBefore (bytes "/a/q") ≠ some AtResult.panicked :=
  ⟨builtFrom_c9TreeBefore,
    c10_at_panic_free c9TreeBefore builtFrom_c9TreeBefore (bytes "/a/q")⟩

end Matchit
